import Mathlib

/-
Verification of the typedcontainer list package (src/list/list.go), a generic
doubly-linked list with a sentinel ring, modelled as a shallow embedding.
Go pointers are arena indices into a heap of nodes; a nil pointer is none.
Every operation returns an Option: a none result models a nil-pointer
dereference fault in the Go code.
-/

set_option linter.unusedVariables false

namespace DLL

/-- Model of the Go struct Element, with pointers replaced by arena indices.
The field list holds the index of the owning list (none models a nil pointer). -/
structure Node (T : Type) where
  prev : Option Nat
  next : Option Nat
  list : Option Nat
  value : T
deriving DecidableEq

/-- Model of the Go struct List: the root sentinel lives in the node arena at
index root, and size mirrors the Go int field (Int, since Go int is signed and
the code can drive it negative). -/
structure LRec where
  root : Nat
  size : Int
deriving DecidableEq

/-- A heap of allocated nodes and list headers; a Go pointer is an index. -/
structure Heap (T : Type) where
  nodes : List (Node T)
  lists : List LRec
deriving DecidableEq

variable {T : Type}

/-- Read the node at an address, none when the address is unallocated. -/
def nodeAt (h : Heap T) (a : Nat) : Option (Node T) :=
  h.nodes[a]?

/-- Read the list header with a given identifier. -/
def listAt (h : Heap T) (i : Nat) : Option LRec :=
  h.lists[i]?

/-- Projection: the next field of the node at an address. -/
def nextOf (h : Heap T) (a : Nat) : Option (Option Nat) :=
  (nodeAt h a).map (·.next)

/-- Projection: the prev field of the node at an address. -/
def prevOf (h : Heap T) (a : Nat) : Option (Option Nat) :=
  (nodeAt h a).map (·.prev)

/-- Projection: the list back-reference field of the node at an address. -/
def lstOf (h : Heap T) (a : Nat) : Option (Option Nat) :=
  (nodeAt h a).map (·.list)

/-- Projection: the stored value of the node at an address. -/
def valOf (h : Heap T) (a : Nat) : Option T :=
  (nodeAt h a).map (·.value)

/-- Write the next field of the node at an address (no-op when unallocated;
allocated addresses are the only ones reachable from Go pointers). -/
def setNext (h : Heap T) (a : Nat) (r : Option Nat) : Heap T :=
  match h.nodes[a]? with
  | some n => { h with nodes := h.nodes.set a { n with next := r } }
  | none => h

/-- Write the prev field of the node at an address. -/
def setPrev (h : Heap T) (a : Nat) (r : Option Nat) : Heap T :=
  match h.nodes[a]? with
  | some n => { h with nodes := h.nodes.set a { n with prev := r } }
  | none => h

/-- Write the list back-reference field of the node at an address. -/
def setLst (h : Heap T) (a : Nat) (r : Option Nat) : Heap T :=
  match h.nodes[a]? with
  | some n => { h with nodes := h.nodes.set a { n with list := r } }
  | none => h

/-- Allocate a fresh node at address h.nodes.length. -/
def pushNode (h : Heap T) (n : Node T) : Heap T :=
  { h with nodes := h.nodes ++ [n] }

/-- Update the header of a list. -/
def modifyL (h : Heap T) (i : Nat) (f : LRec → LRec) : Heap T :=
  match h.lists[i]? with
  | some r => { h with lists := h.lists.set i (f r) }
  | none => h

/-- Add a delta to the size counter of a list, modelling l.size++ and l.size--. -/
def addSize (h : Heap T) (i : Nat) (d : Int) : Heap T :=
  modifyL h i (fun r => { r with size := r.size + d })

/-- Set the size counter of a list. -/
def setSize (h : Heap T) (i : Nat) (s : Int) : Heap T :=
  modifyL h i (fun r => { r with size := s })

/-! Translations of the functions of src/list/list.go. Each Go statement is
modelled in source order, re-reading the heap after every write so that
aliasing between the pointers involved behaves exactly as in Go. -/

/-- Element.Next from the source: nil when the receiver is detached or last. -/
def NextE (h : Heap T) (e : Nat) : Option (Option Nat) := do
  let n ← nodeAt h e
  match n.list with
  | none => some none
  | some li => do
    let lr ← listAt h li
    if n.next = some lr.root then some none else some n.next

/-- Element.Prev from the source: nil when the receiver is detached or first. -/
def PrevE (h : Heap T) (e : Nat) : Option (Option Nat) := do
  let n ← nodeAt h e
  match n.list with
  | none => some none
  | some li => do
    let lr ← listAt h li
    if n.prev = some lr.root then some none else some n.prev

/-- List.Back from the source. -/
def Back (h : Heap T) (l : Nat) : Option (Option Nat) := do
  let lr ← listAt h l
  if lr.size = 0 then some none
  else do
    let rn ← nodeAt h lr.root
    some rn.prev

/-- List.Front from the source. -/
def Front (h : Heap T) (l : Nat) : Option (Option Nat) := do
  let lr ← listAt h l
  if lr.size = 0 then some none
  else do
    let rn ← nodeAt h lr.root
    some rn.next

/-- List.Init from the source: root.prev and root.next are pointed at the root
itself and the size is reset to zero. -/
def InitL (h : Heap T) (l : Nat) : Option (Heap T) := do
  let lr ← listAt h l
  let h1 := setPrev h lr.root (some lr.root)
  let h2 := setNext h1 lr.root (some lr.root)
  some (setSize h2 l 0)

/-- List.Len from the source. -/
def Len (h : Heap T) (l : Nat) : Option Int :=
  (listAt h l).map (·.size)

/-- List.insertValueAfter from the source: allocate a node holding v linked
between mark and mark.next, then fix up the two neighbour pointers and
increment the size. Dereferencing a nil mark or a nil mark.next faults. -/
def insertValueAfter (h : Heap T) (l : Nat) (v : T) (markR : Option Nat) :
    Option (Heap T × Nat) := do
  let m ← markR
  let mn ← nodeAt h m
  let a := h.nodes.length
  let h1 := pushNode h ⟨some m, mn.next, some l, v⟩
  let s ← mn.next
  let h2 := setPrev h1 s (some a)
  let h3 := setNext h2 m (some a)
  some (addSize h3 l 1, a)

/-- List.InsertAfter from the source: membership guard, then insertValueAfter. -/
def InsertAfter (h : Heap T) (l : Nat) (v : T) (markR : Option Nat) :
    Option (Heap T × Option Nat) := do
  let m ← markR
  let mn ← nodeAt h m
  if mn.list = some l then
    (insertValueAfter h l v (some m)).map (fun p => (p.1, some p.2))
  else some (h, none)

/-- List.InsertBefore from the source: membership guard, then insertValueAfter
at mark.prev. -/
def InsertBefore (h : Heap T) (l : Nat) (v : T) (markR : Option Nat) :
    Option (Heap T × Option Nat) := do
  let m ← markR
  let mn ← nodeAt h m
  if mn.list = some l then
    (insertValueAfter h l v mn.prev).map (fun p => (p.1, some p.2))
  else some (h, none)

/-- List.moveAfter from the source: unlink e from its neighbours, then relink
it between mark and mark.next, statement by statement. -/
def moveAfter (h : Heap T) (e : Nat) (markR : Option Nat) : Option (Heap T) :=
  if markR = some e then some h
  else do
    let en ← nodeAt h e
    let p ← en.prev
    let h1 := setNext h p en.next
    let en1 ← nodeAt h1 e
    let s ← en1.next
    let h2 := setPrev h1 s en1.prev
    let h3 := setPrev h2 e markR
    let m ← markR
    let mn ← nodeAt h3 m
    let h4 := setNext h3 e mn.next
    let mn2 ← nodeAt h4 m
    let t ← mn2.next
    let h5 := setPrev h4 t (some e)
    some (setNext h5 m (some e))

/-- List.MoveAfter from the source, with the short-circuit guard order. -/
def MoveAfter (h : Heap T) (l : Nat) (eR markR : Option Nat) : Option (Heap T) := do
  let e ← eR
  let en ← nodeAt h e
  if en.list ≠ some l then some h
  else do
    let m ← markR
    let mn ← nodeAt h m
    if mn.list ≠ some l then some h
    else if e = m then some h
    else moveAfter h e (some m)

/-- List.MoveBefore from the source: same guards, then moveAfter at mark.prev. -/
def MoveBefore (h : Heap T) (l : Nat) (eR markR : Option Nat) : Option (Heap T) := do
  let e ← eR
  let en ← nodeAt h e
  if en.list ≠ some l then some h
  else do
    let m ← markR
    let mn ← nodeAt h m
    if mn.list ≠ some l then some h
    else if e = m then some h
    else moveAfter h e mn.prev

/-- List.MoveToBack from the source. -/
def MoveToBack (h : Heap T) (l : Nat) (eR : Option Nat) : Option (Heap T) := do
  let e ← eR
  let en ← nodeAt h e
  if en.list ≠ some l then some h
  else do
    let lr ← listAt h l
    let rn ← nodeAt h lr.root
    if rn.prev = some e then some h
    else moveAfter h e rn.prev

/-- List.MoveToFront from the source. -/
def MoveToFront (h : Heap T) (l : Nat) (eR : Option Nat) : Option (Heap T) := do
  let e ← eR
  let en ← nodeAt h e
  if en.list ≠ some l then some h
  else do
    let lr ← listAt h l
    let rn ← nodeAt h lr.root
    if rn.next = some e then some h
    else moveAfter h e (some lr.root)

/-- List.lazyInit from the source: Init exactly when root.next is nil. -/
def lazyInit (h : Heap T) (l : Nat) : Option (Heap T) := do
  let lr ← listAt h l
  let rn ← nodeAt h lr.root
  if rn.next = none then InitL h l else some h

/-- List.PushBack from the source: lazyInit, then insert after root.prev. -/
def PushBack (h : Heap T) (l : Nat) (v : T) : Option (Heap T × Nat) := do
  let h1 ← lazyInit h l
  let lr ← listAt h1 l
  let rn ← nodeAt h1 lr.root
  insertValueAfter h1 l v rn.prev

/-- List.PushFront from the source: lazyInit, then insert after the root. -/
def PushFront (h : Heap T) (l : Nat) (v : T) : Option (Heap T × Nat) := do
  let h1 ← lazyInit h l
  let lr ← listAt h1 l
  insertValueAfter h1 l v (some lr.root)

/-- Loop body of List.PushBackList: insert the value of e after root.prev and
step e to e.Next(), the captured counter ticking down. -/
def pushBackLoop (h : Heap T) (l : Nat) (eR : Option Nat) : Nat → Option (Heap T)
  | 0 => some h
  | i + 1 => do
    let e ← eR
    let en ← nodeAt h e
    let lr ← listAt h l
    let rn ← nodeAt h lr.root
    let p ← insertValueAfter h l en.value rn.prev
    let e2 ← NextE p.1 e
    pushBackLoop p.1 l e2 i

/-- List.PushBackList from the source: lazyInit, capture other.Front and
other.Len, then loop that many times. -/
def PushBackList (h : Heap T) (l other : Nat) : Option (Heap T) := do
  let h1 ← lazyInit h l
  let eR ← Front h1 other
  let lro ← listAt h1 other
  pushBackLoop h1 l eR lro.size.toNat

/-- Loop body of List.PushFrontList: insert the value of e after the root and
step e to e.Prev(). -/
def pushFrontLoop (h : Heap T) (l : Nat) (eR : Option Nat) : Nat → Option (Heap T)
  | 0 => some h
  | i + 1 => do
    let e ← eR
    let en ← nodeAt h e
    let lr ← listAt h l
    let p ← insertValueAfter h l en.value (some lr.root)
    let e2 ← PrevE p.1 e
    pushFrontLoop p.1 l e2 i

/-- List.PushFrontList from the source: lazyInit, capture other.Back and
other.Len, then loop that many times. -/
def PushFrontList (h : Heap T) (l other : Nat) : Option (Heap T) := do
  let h1 ← lazyInit h l
  let eR ← Back h1 other
  let lro ← listAt h1 other
  pushFrontLoop h1 l eR lro.size.toNat

/-- List.Remove from the source: membership guard, splice the neighbours
together, clear the three pointer fields, decrement size, return the value. -/
def Remove (h : Heap T) (l : Nat) (eR : Option Nat) : Option (Heap T × T) := do
  let e ← eR
  let en ← nodeAt h e
  if en.list = some l then do
    let p ← en.prev
    let h1 := setNext h p en.next
    let en1 ← nodeAt h1 e
    let s ← en1.next
    let h2 := setPrev h1 s en1.prev
    let h3 := setPrev h2 e none
    let h4 := setNext h3 e none
    let h5 := setLst h4 e none
    let h6 := addSize h5 l (-1)
    let en2 ← nodeAt h6 e
    some (h6, en2.value)
  else some (h, en.value)

/-- Go New, which is new(List).Init(): allocate a header whose root sentinel
has both links pointing at itself; the fresh list gets identifier
h.lists.length. The default value fills the value slot of the sentinel. -/
def NewL (h : Heap T) (d : T) : Heap T :=
  { nodes := h.nodes ++ [⟨some h.nodes.length, some h.nodes.length, none, d⟩],
    lists := h.lists ++ [⟨h.nodes.length, 0⟩] }

/-- A zero value var l List[T]: header allocated, sentinel links still nil. -/
def NewRaw (h : Heap T) (d : T) : Heap T :=
  { nodes := h.nodes ++ [⟨none, none, none, d⟩],
    lists := h.lists ++ [⟨h.nodes.length, 0⟩] }

/-! Ring structure predicates. -/

/-- Two addresses are linked when the next field of the first and the prev
field of the second point at each other. -/
def linked (h : Heap T) (x y : Nat) : Prop :=
  nextOf h x = some (some y) ∧ prevOf h y = some (some x)

instance (h : Heap T) (x y : Nat) : Decidable (linked h x y) := by
  unfold linked; infer_instance

/-- Chain of linked nodes starting at x through the given address list. -/
def chainL (h : Heap T) : Nat → List Nat → Prop
  | _, [] => True
  | x, y :: ys => linked h x y ∧ chainL h y ys

instance instDecChainL (h : Heap T) :
    (x : Nat) → (c : List Nat) → Decidable (chainL h x c)
  | _, [] => .isTrue trivial
  | x, y :: ys =>
    have : Decidable (chainL h y ys) := instDecChainL h y ys
    inferInstanceAs (Decidable (linked h x y ∧ chainL h y ys))

/-- Last element of a nonempty chain written as head plus tail. -/
def lastOf (x : Nat) : List Nat → Nat
  | [] => x
  | y :: ys => lastOf y ys

/-- Members of a list: the node addresses on the ring of the sentinel, in next
order, root excluded. The ring of an initialized well-formed list with members
ms satisfies chainL h root (ms ++ [root]). -/
def ringAt (h : Heap T) (li : Nat) (lr : LRec) (ms : List Nat) : Prop :=
  chainL h lr.root (ms ++ [lr.root]) ∧ (lr.root :: ms).Nodup ∧
    lr.size = (ms.length : Int) ∧ ∀ a ∈ ms, lstOf h a = some (some li)

instance (h : Heap T) (li : Nat) (lr : LRec) (ms : List Nat) :
    Decidable (ringAt h li lr ms) := by
  unfold ringAt; infer_instance

/-- Fuelled walk along next fields from a towards the root, collecting the
addresses visited before the root reappears. -/
def nextChain (h : Heap T) (root : Nat) : Nat → Nat → Option (List Nat)
  | _, 0 => none
  | a, fuel + 1 =>
    if a = root then some []
    else do
      let n ← nodeAt h a
      let nx ← n.next
      (nextChain h root nx fuel).map (a :: ·)

/-- Compute the member addresses of a list by walking next fields from the
root sentinel; none when the list is uninitialized or the walk breaks down. -/
def msOf (h : Heap T) (li : Nat) : Option (List Nat) := do
  let lr ← listAt h li
  let rn ← nodeAt h lr.root
  let nx ← rn.next
  nextChain h lr.root nx h.nodes.length

/-- Option elimination with a default of False, used to keep the
well-formedness predicate decidable. -/
def optP (o : Option α) (P : α → Prop) : Prop :=
  match o with
  | none => False
  | some a => P a

instance (o : Option α) (P : α → Prop) [∀ a, Decidable (P a)] :
    Decidable (optP o P) :=
  match o with
  | none => isFalse (fun h => h)
  | some a => inferInstanceAs (Decidable (P a))

/-- Option elimination with a default of True. -/
def optA (o : Option α) (P : α → Prop) : Prop :=
  match o with
  | none => True
  | some a => P a

instance (o : Option α) (P : α → Prop) [∀ a, Decidable (P a)] :
    Decidable (optA o P) :=
  match o with
  | none => isTrue trivial
  | some a => inferInstanceAs (Decidable (P a))

/-- No node of the heap claims membership of list li. -/
def noMembers (h : Heap T) (li : Nat) : Prop :=
  ∀ n ∈ h.nodes, n.list ≠ some li

instance (h : Heap T) (li : Nat) : Decidable (noMembers h li) := by
  unfold noMembers; infer_instance

/-- Well-formedness of one list: the sentinel exists and carries a nil
back-reference, and the list is either still the zero value (both sentinel
links nil, size zero, no node claiming membership) or an initialized ring
matching the walk msOf. -/
def listWFat (h : Heap T) (li : Nat) : Prop :=
  optA (listAt h li) (fun lr =>
    optP (nodeAt h lr.root) (fun rn =>
      rn.list = none ∧
        ((rn.next = none ∧ rn.prev = none ∧ lr.size = 0 ∧ noMembers h li) ∨
          optP (msOf h li) (fun ms => ringAt h li lr ms))))

instance (h : Heap T) (li : Nat) : Decidable (listWFat h li) := by
  unfold listWFat; infer_instance

/-- Distinct lists own distinct sentinel nodes. -/
def rootsDistinct (h : Heap T) : Prop :=
  ∀ i < h.lists.length, ∀ j < h.lists.length, i ≠ j →
    ∀ ri rj, listAt h i = some ri → listAt h j = some rj → ri.root ≠ rj.root

instance instDecRootsOne (h : Heap T) (i j : Nat) :
    Decidable (∀ ri rj, listAt h i = some ri → listAt h j = some rj →
      ri.root ≠ rj.root) :=
  decidable_of_iff
    (optA (listAt h i) (fun ri =>
      optA (listAt h j) (fun rj => ri.root ≠ rj.root)))
    (by
      constructor
      · intro hopt ri rj hri hrj
        rw [hri, hrj] at hopt
        exact hopt
      · intro hall
        cases hI2 : listAt h i with
        | none => exact trivial
        | some ri =>
          show optA (listAt h j) (fun rj => ri.root ≠ rj.root)
          cases hJ2 : listAt h j with
          | none => exact trivial
          | some rj =>
            show ri.root ≠ rj.root
            exact hall ri rj hI2 hJ2)

instance (h : Heap T) : Decidable (rootsDistinct h) := by
  unfold rootsDistinct
  infer_instance

/-- Well-formedness of the whole heap. -/
def WF (h : Heap T) : Prop :=
  rootsDistinct h ∧ ∀ li < h.lists.length, listWFat h li

instance (h : Heap T) : Decidable (WF h) := by
  unfold WF; infer_instance

/-! The public operations as a trace language. -/

/-- One public operation of the package, with the receiver list and any
element arguments given as raw references. -/
inductive Op (T : Type) where
  | newL
  | newRaw
  | initL (l : Nat)
  | pushBack (l : Nat) (v : T)
  | pushFront (l : Nat) (v : T)
  | insertAfter (l : Nat) (v : T) (mark : Option Nat)
  | insertBefore (l : Nat) (v : T) (mark : Option Nat)
  | remove (l : Nat) (e : Option Nat)
  | moveToFront (l : Nat) (e : Option Nat)
  | moveToBack (l : Nat) (e : Option Nat)
  | moveBefore (l : Nat) (e : Option Nat) (mark : Option Nat)
  | moveAfter (l : Nat) (e : Option Nat) (mark : Option Nat)
  | pushBackList (l : Nat) (other : Nat)
  | pushFrontList (l : Nat) (other : Nat)
deriving DecidableEq

/-- Execute one operation, discarding any returned element reference. -/
def step [Inhabited T] (h : Heap T) : Op T → Option (Heap T)
  | .newL => some (NewL h default)
  | .newRaw => some (NewRaw h default)
  | .initL l => InitL h l
  | .pushBack l v => (PushBack h l v).map (·.1)
  | .pushFront l v => (PushFront h l v).map (·.1)
  | .insertAfter l v m => (InsertAfter h l v m).map (·.1)
  | .insertBefore l v m => (InsertBefore h l v m).map (·.1)
  | .remove l e => (Remove h l e).map (·.1)
  | .moveToFront l e => MoveToFront h l e
  | .moveToBack l e => MoveToBack h l e
  | .moveBefore l e m => MoveBefore h l e m
  | .moveAfter l e m => MoveAfter h l e m
  | .pushBackList l o => PushBackList h l o
  | .pushFrontList l o => PushFrontList h l o

/-- Execute a sequence of operations; none once any operation faults. -/
def run [Inhabited T] (h : Heap T) : List (Op T) → Option (Heap T)
  | [] => some h
  | op :: ops => (step h op).bind (fun h1 => run h1 ops)

/-- The empty heap, the state before any list exists. -/
def hEmpty : Heap T := ⟨[], []⟩

/-- A reference argument is honest when, if it claims membership of a list via
its back-reference, it actually lies on the ring of that list. Handles
invalidated by Init on a populated list violate this. -/
def argOKb (h : Heap T) : Option Nat → Bool
  | none => true
  | some a =>
    match nodeAt h a with
    | none => true
    | some n =>
      match n.list with
      | none => true
      | some li =>
        match msOf h li with
        | none => false
        | some ms => decide (a ∈ ms)

/-- All element arguments of an operation are honest references. -/
def opOKb (h : Heap T) : Op T → Bool
  | .insertAfter _ _ m => argOKb h m
  | .insertBefore _ _ m => argOKb h m
  | .remove _ e => argOKb h e
  | .moveToFront _ e => argOKb h e
  | .moveToBack _ e => argOKb h e
  | .moveBefore _ e m => argOKb h e && argOKb h m
  | .moveAfter _ e m => argOKb h e && argOKb h m
  | _ => true

/-- A trace is safe when every operation is applied with honest element
arguments in the state where it executes. -/
def SafeRun [Inhabited T] (h : Heap T) : List (Op T) → Prop
  | [] => True
  | op :: ops => opOKb h op = true ∧ optA (step h op) (fun h1 => SafeRun h1 ops)

instance instDecSafeRun [Inhabited T] [DecidableEq T] (h : Heap T) :
    (ops : List (Op T)) → Decidable (SafeRun h ops)
  | [] => .isTrue trivial
  | op :: ops =>
    have : ∀ h1, Decidable (SafeRun h1 ops) := fun h1 => instDecSafeRun h1 ops
    inferInstanceAs (Decidable (opOKb h op = true ∧
      optA (step h op) (fun h1 => SafeRun h1 ops)))

/-! Caller-side traversals used by the spec to state the size and order
properties: walk Front then Next until nil, and Back then Prev until nil. -/

/-- Walk from a reference following Element.Next until it returns nil. -/
def walkNext (h : Heap T) : Option Nat → Nat → Option (List Nat)
  | none, _ => some []
  | some _, 0 => none
  | some a, fuel + 1 => do
    let r ← NextE h a
    (walkNext h r fuel).map (a :: ·)

/-- Walk from a reference following Element.Prev until it returns nil. -/
def walkPrev (h : Heap T) : Option Nat → Nat → Option (List Nat)
  | none, _ => some []
  | some _, 0 => none
  | some a, fuel + 1 => do
    let r ← PrevE h a
    (walkPrev h r fuel).map (a :: ·)

/-- Values stored at a list of addresses. -/
def valsAt (h : Heap T) (as : List Nat) : List (Option T) :=
  as.map (valOf h)

/-! The invariant carried through traces: well-formedness plus the bound that
every node back-reference names an allocated header. -/

/-- Every node's list back-reference, when set, names an allocated header. -/
def lstB (h : Heap T) : Prop :=
  ∀ n ∈ h.nodes, optA n.list (fun j => j < h.lists.length)

instance (h : Heap T) : Decidable (lstB h) := by
  unfold lstB; infer_instance

/-- The full heap invariant preserved by the public operations. -/
def Inv (h : Heap T) : Prop := WF h ∧ lstB h

instance (h : Heap T) : Decidable (Inv h) := by
  unfold Inv; infer_instance

/-- Head of a member list as the reference Front returns: none when empty. -/
def hdOpt : List Nat → Option Nat
  | [] => none
  | c :: _ => some c

/-! Concrete traces and heaps used to instantiate and to refute claims. -/

/-- Init on a populated list, then reuse of a stale handle: corrupts the ring. -/
def trace1 : List (Op Nat) :=
  [Op.newL, Op.pushBack 0 1, Op.pushBack 0 2, Op.initL 0, Op.moveToBack 0 (some 1)]

/-- Init on a populated list, then Remove of a stale handle: drives size to -1. -/
def trace2 : List (Op Nat) :=
  [Op.newL, Op.pushBack 0 1, Op.initL 0, Op.remove 0 (some 1)]

/-- Insert ops on the zero-value list 0 with a mark that belongs to list 1. -/
def traceC8 : List (Op Nat) := [Op.newRaw, Op.newL, Op.pushBack 1 7]

/-- A safe trace: one list holding the single value 5. -/
def traceSafe1 : List (Op Nat) := [Op.newL, Op.pushBack 0 5]

/-- The heap traceSafe1 reaches. -/
def heapSafe1 : Heap Nat :=
  ⟨[⟨some 1, some 1, none, 0⟩, ⟨some 0, some 0, some 0, 5⟩], [⟨0, 1⟩]⟩

/-- A safe trace: one list holding 3 then 4. -/
def traceSafe2 : List (Op Nat) := [Op.newL, Op.pushBack 0 3, Op.pushBack 0 4]

/-- The heap traceSafe2 reaches. -/
def heapSafe2 : Heap Nat :=
  ⟨[⟨some 2, some 1, none, 0⟩, ⟨some 0, some 2, some 0, 3⟩,
    ⟨some 1, some 0, some 0, 4⟩], [⟨0, 2⟩]⟩

/-- One list holding 10, 20, 30: members 1, 2, 3. -/
def heap3 : Heap Nat :=
  ⟨[⟨some 3, some 1, none, 0⟩, ⟨some 0, some 2, some 0, 10⟩,
    ⟨some 1, some 3, some 0, 20⟩, ⟨some 2, some 0, some 0, 30⟩], [⟨0, 3⟩]⟩

/-- List 0 holding 1, 2, 3 and an empty list 1. -/
def heap31 : Heap Nat :=
  ⟨[⟨some 3, some 1, none, 0⟩, ⟨some 0, some 2, some 0, 1⟩,
    ⟨some 1, some 3, some 0, 2⟩, ⟨some 2, some 0, some 0, 3⟩,
    ⟨some 4, some 4, none, 0⟩], [⟨0, 3⟩, ⟨4, 0⟩]⟩

/-- Two lists; node 2 holds 5 and belongs to list 1. -/
def heapTwo : Heap Nat :=
  ⟨[⟨some 0, some 0, none, 0⟩, ⟨some 2, some 2, none, 0⟩,
    ⟨some 1, some 1, some 1, 5⟩], [⟨0, 0⟩, ⟨1, 1⟩]⟩

/-- One list whose single member, node 1, holds the value 1. -/
def heapOne : Heap Nat :=
  ⟨[⟨some 1, some 1, none, 0⟩, ⟨some 0, some 0, some 0, 1⟩], [⟨0, 1⟩]⟩

/-- A zero-value list: sentinel links still nil. -/
def heapZero : Heap Nat := ⟨[⟨none, none, none, 0⟩], [⟨0, 0⟩]⟩

/-! Basic facts about the heap primitives. -/

theorem nodeAt_lt_length {h : Heap T} {a : Nat} {n : Node T}
    (ha : nodeAt h a = some n) : a < h.nodes.length := by
  unfold nodeAt at ha
  exact (List.getElem?_eq_some.mp ha).1

@[simp] theorem nodes_setNext (h : Heap T) (b : Nat) (r : Option Nat) :
    (setNext h b r).nodes.length = h.nodes.length := by
  unfold setNext; cases h.nodes[b]? <;> simp

@[simp] theorem nodes_setPrev (h : Heap T) (b : Nat) (r : Option Nat) :
    (setPrev h b r).nodes.length = h.nodes.length := by
  unfold setPrev; cases h.nodes[b]? <;> simp

@[simp] theorem nodes_setLst (h : Heap T) (b : Nat) (r : Option Nat) :
    (setLst h b r).nodes.length = h.nodes.length := by
  unfold setLst; cases h.nodes[b]? <;> simp

@[simp] theorem nodes_pushNode (h : Heap T) (n : Node T) :
    (pushNode h n).nodes.length = h.nodes.length + 1 := by
  unfold pushNode; simp

@[simp] theorem nodes_modifyL (h : Heap T) (i : Nat) (f : LRec → LRec) :
    (modifyL h i f).nodes = h.nodes := by
  unfold modifyL; cases h.lists[i]? <;> simp

@[simp] theorem nodeAt_modifyL (h : Heap T) (i : Nat) (f : LRec → LRec) (a : Nat) :
    nodeAt (modifyL h i f) a = nodeAt h a := by
  unfold nodeAt modifyL; cases h.lists[i]? <;> simp

@[simp] theorem listAt_setNext (h : Heap T) (b : Nat) (r : Option Nat) (i : Nat) :
    listAt (setNext h b r) i = listAt h i := by
  unfold listAt setNext; cases h.nodes[b]? <;> simp

@[simp] theorem listAt_setPrev (h : Heap T) (b : Nat) (r : Option Nat) (i : Nat) :
    listAt (setPrev h b r) i = listAt h i := by
  unfold listAt setPrev; cases h.nodes[b]? <;> simp

@[simp] theorem listAt_setLst (h : Heap T) (b : Nat) (r : Option Nat) (i : Nat) :
    listAt (setLst h b r) i = listAt h i := by
  unfold listAt setLst; cases h.nodes[b]? <;> simp

@[simp] theorem listAt_pushNode (h : Heap T) (n : Node T) (i : Nat) :
    listAt (pushNode h n) i = listAt h i := by
  unfold listAt pushNode; simp

theorem listAt_modifyL (h : Heap T) (i j : Nat) (f : LRec → LRec) :
    listAt (modifyL h j f) i =
      if i = j then (listAt h j).map f else listAt h i := by
  unfold listAt modifyL
  cases hj : h.lists[j]? with
  | none =>
    by_cases hij : i = j <;> simp [hij, hj]
  | some r =>
    have hjlt : j < h.lists.length := (List.getElem?_eq_some.mp hj).1
    by_cases hij : i = j
    · subst hij; simp [hj, List.getElem?_set, hjlt]
    · simp [hj, hij, List.getElem?_set_ne (fun hh => hij hh.symm)]

theorem nodeAt_pushNode (h : Heap T) (n : Node T) (a : Nat) :
    nodeAt (pushNode h n) a =
      if a = h.nodes.length then some n else nodeAt h a := by
  unfold nodeAt pushNode
  by_cases ha : a = h.nodes.length
  · subst ha; simp
  · rcases Nat.lt_or_ge a h.nodes.length with hlt | hge
    · simp [List.getElem?_append, hlt, ha]
    · rw [List.getElem?_append_right hge]
      obtain ⟨k, hk⟩ : ∃ k, a - h.nodes.length = k + 1 :=
        ⟨a - h.nodes.length - 1, by omega⟩
      simp only [hk, List.getElem?_cons_succ, List.getElem?_nil, if_neg ha]
      exact (List.getElem?_eq_none (by omega)).symm

theorem nodeAt_setNext (h : Heap T) (b : Nat) (r : Option Nat) (a : Nat) :
    nodeAt (setNext h b r) a =
      if a = b then (nodeAt h b).map (fun n => { n with next := r })
      else nodeAt h a := by
  unfold nodeAt setNext
  cases hb : h.nodes[b]? with
  | none =>
    by_cases hab : a = b <;> simp [hab, hb]
  | some n =>
    have hblt : b < h.nodes.length := (List.getElem?_eq_some.mp hb).1
    by_cases hab : a = b
    · subst hab; simp [hb, List.getElem?_set, hblt]
    · simp [hb, hab, List.getElem?_set_ne (fun hh => hab hh.symm)]

theorem nodeAt_setPrev (h : Heap T) (b : Nat) (r : Option Nat) (a : Nat) :
    nodeAt (setPrev h b r) a =
      if a = b then (nodeAt h b).map (fun n => { n with prev := r })
      else nodeAt h a := by
  unfold nodeAt setPrev
  cases hb : h.nodes[b]? with
  | none =>
    by_cases hab : a = b <;> simp [hab, hb]
  | some n =>
    have hblt : b < h.nodes.length := (List.getElem?_eq_some.mp hb).1
    by_cases hab : a = b
    · subst hab; simp [hb, List.getElem?_set, hblt]
    · simp [hb, hab, List.getElem?_set_ne (fun hh => hab hh.symm)]

theorem nodeAt_setLst (h : Heap T) (b : Nat) (r : Option Nat) (a : Nat) :
    nodeAt (setLst h b r) a =
      if a = b then (nodeAt h b).map (fun n => { n with list := r })
      else nodeAt h a := by
  unfold nodeAt setLst
  cases hb : h.nodes[b]? with
  | none =>
    by_cases hab : a = b <;> simp [hab, hb]
  | some n =>
    have hblt : b < h.nodes.length := (List.getElem?_eq_some.mp hb).1
    by_cases hab : a = b
    · subst hab; simp [hb, List.getElem?_set, hblt]
    · simp [hb, hab, List.getElem?_set_ne (fun hh => hab hh.symm)]

/-! Field-level projection lemmas: each setter touches one field only. -/

@[simp] theorem nextOf_setPrev (h : Heap T) (b : Nat) (r : Option Nat) (a : Nat) :
    nextOf (setPrev h b r) a = nextOf h a := by
  unfold nextOf
  rw [nodeAt_setPrev]
  by_cases hab : a = b
  · subst hab; cases nodeAt h a <;> simp
  · simp [hab]

@[simp] theorem nextOf_setLst (h : Heap T) (b : Nat) (r : Option Nat) (a : Nat) :
    nextOf (setLst h b r) a = nextOf h a := by
  unfold nextOf
  rw [nodeAt_setLst]
  by_cases hab : a = b
  · subst hab; cases nodeAt h a <;> simp
  · simp [hab]

@[simp] theorem prevOf_setNext (h : Heap T) (b : Nat) (r : Option Nat) (a : Nat) :
    prevOf (setNext h b r) a = prevOf h a := by
  unfold prevOf
  rw [nodeAt_setNext]
  by_cases hab : a = b
  · subst hab; cases nodeAt h a <;> simp
  · simp [hab]

@[simp] theorem prevOf_setLst (h : Heap T) (b : Nat) (r : Option Nat) (a : Nat) :
    prevOf (setLst h b r) a = prevOf h a := by
  unfold prevOf
  rw [nodeAt_setLst]
  by_cases hab : a = b
  · subst hab; cases nodeAt h a <;> simp
  · simp [hab]

@[simp] theorem lstOf_setNext (h : Heap T) (b : Nat) (r : Option Nat) (a : Nat) :
    lstOf (setNext h b r) a = lstOf h a := by
  unfold lstOf
  rw [nodeAt_setNext]
  by_cases hab : a = b
  · subst hab; cases nodeAt h a <;> simp
  · simp [hab]

@[simp] theorem lstOf_setPrev (h : Heap T) (b : Nat) (r : Option Nat) (a : Nat) :
    lstOf (setPrev h b r) a = lstOf h a := by
  unfold lstOf
  rw [nodeAt_setPrev]
  by_cases hab : a = b
  · subst hab; cases nodeAt h a <;> simp
  · simp [hab]

@[simp] theorem valOf_setNext (h : Heap T) (b : Nat) (r : Option Nat) (a : Nat) :
    valOf (setNext h b r) a = valOf h a := by
  unfold valOf
  rw [nodeAt_setNext]
  by_cases hab : a = b
  · subst hab; cases nodeAt h a <;> simp
  · simp [hab]

@[simp] theorem valOf_setPrev (h : Heap T) (b : Nat) (r : Option Nat) (a : Nat) :
    valOf (setPrev h b r) a = valOf h a := by
  unfold valOf
  rw [nodeAt_setPrev]
  by_cases hab : a = b
  · subst hab; cases nodeAt h a <;> simp
  · simp [hab]

@[simp] theorem valOf_setLst (h : Heap T) (b : Nat) (r : Option Nat) (a : Nat) :
    valOf (setLst h b r) a = valOf h a := by
  unfold valOf
  rw [nodeAt_setLst]
  by_cases hab : a = b
  · subst hab; cases nodeAt h a <;> simp
  · simp [hab]

theorem nextOf_setNext (h : Heap T) (b : Nat) (r : Option Nat) (a : Nat) :
    nextOf (setNext h b r) a =
      if a = b then (nodeAt h b).map (fun _ => r) else nextOf h a := by
  unfold nextOf
  rw [nodeAt_setNext]
  by_cases hab : a = b
  · subst hab; cases nodeAt h a <;> simp
  · simp [hab]

theorem prevOf_setPrev (h : Heap T) (b : Nat) (r : Option Nat) (a : Nat) :
    prevOf (setPrev h b r) a =
      if a = b then (nodeAt h b).map (fun _ => r) else prevOf h a := by
  unfold prevOf
  rw [nodeAt_setPrev]
  by_cases hab : a = b
  · subst hab; cases nodeAt h a <;> simp
  · simp [hab]

theorem lstOf_setLst (h : Heap T) (b : Nat) (r : Option Nat) (a : Nat) :
    lstOf (setLst h b r) a =
      if a = b then (nodeAt h b).map (fun _ => r) else lstOf h a := by
  unfold lstOf
  rw [nodeAt_setLst]
  by_cases hab : a = b
  · subst hab; cases nodeAt h a <;> simp
  · simp [hab]

theorem nextOf_pushNode (h : Heap T) (n : Node T) (a : Nat) :
    nextOf (pushNode h n) a =
      if a = h.nodes.length then some n.next else nextOf h a := by
  unfold nextOf
  rw [nodeAt_pushNode]
  by_cases hab : a = h.nodes.length <;> simp [hab]

theorem prevOf_pushNode (h : Heap T) (n : Node T) (a : Nat) :
    prevOf (pushNode h n) a =
      if a = h.nodes.length then some n.prev else prevOf h a := by
  unfold prevOf
  rw [nodeAt_pushNode]
  by_cases hab : a = h.nodes.length <;> simp [hab]

theorem lstOf_pushNode (h : Heap T) (n : Node T) (a : Nat) :
    lstOf (pushNode h n) a =
      if a = h.nodes.length then some n.list else lstOf h a := by
  unfold lstOf
  rw [nodeAt_pushNode]
  by_cases hab : a = h.nodes.length <;> simp [hab]

theorem valOf_pushNode (h : Heap T) (n : Node T) (a : Nat) :
    valOf (pushNode h n) a =
      if a = h.nodes.length then some n.value else valOf h a := by
  unfold valOf
  rw [nodeAt_pushNode]
  by_cases hab : a = h.nodes.length <;> simp [hab]

@[simp] theorem nextOf_modifyL (h : Heap T) (i : Nat) (f : LRec → LRec) (a : Nat) :
    nextOf (modifyL h i f) a = nextOf h a := by
  unfold nextOf; rw [nodeAt_modifyL]

@[simp] theorem prevOf_modifyL (h : Heap T) (i : Nat) (f : LRec → LRec) (a : Nat) :
    prevOf (modifyL h i f) a = prevOf h a := by
  unfold prevOf; rw [nodeAt_modifyL]

@[simp] theorem lstOf_modifyL (h : Heap T) (i : Nat) (f : LRec → LRec) (a : Nat) :
    lstOf (modifyL h i f) a = lstOf h a := by
  unfold lstOf; rw [nodeAt_modifyL]

@[simp] theorem valOf_modifyL (h : Heap T) (i : Nat) (f : LRec → LRec) (a : Nat) :
    valOf (modifyL h i f) a = valOf h a := by
  unfold valOf; rw [nodeAt_modifyL]

@[simp] theorem lists_setNext (h : Heap T) (b : Nat) (r : Option Nat) :
    (setNext h b r).lists = h.lists := by
  unfold setNext; cases h.nodes[b]? <;> simp

@[simp] theorem lists_setPrev (h : Heap T) (b : Nat) (r : Option Nat) :
    (setPrev h b r).lists = h.lists := by
  unfold setPrev; cases h.nodes[b]? <;> simp

@[simp] theorem lists_setLst (h : Heap T) (b : Nat) (r : Option Nat) :
    (setLst h b r).lists = h.lists := by
  unfold setLst; cases h.nodes[b]? <;> simp

@[simp] theorem lists_pushNode (h : Heap T) (n : Node T) :
    (pushNode h n).lists = h.lists := rfl

@[simp] theorem lists_length_modifyL (h : Heap T) (i : Nat) (f : LRec → LRec) :
    (modifyL h i f).lists.length = h.lists.length := by
  unfold modifyL; cases h.lists[i]? <;> simp

/-! Chain toolkit. -/

/-- Head of a list of addresses with an explicit default. -/
def hdOf (d : Nat) : List Nat → Nat
  | [] => d
  | y :: _ => y

@[simp] theorem lastOf_nil (x : Nat) : lastOf x [] = x := rfl

@[simp] theorem lastOf_cons (x y : Nat) (ys : List Nat) :
    lastOf x (y :: ys) = lastOf y ys := rfl

theorem lastOf_append (x : Nat) (u v : List Nat) :
    lastOf x (u ++ v) = lastOf (lastOf x u) v := by
  induction u generalizing x with
  | nil => rfl
  | cons y ys ih => simp [ih]

@[simp] theorem lastOf_concat (x y : Nat) (u : List Nat) :
    lastOf x (u ++ [y]) = y := by
  rw [lastOf_append]; rfl

theorem lastOf_mem (x : Nat) (u : List Nat) : lastOf x u ∈ x :: u := by
  induction u generalizing x with
  | nil => simp
  | cons y ys ih =>
    rcases List.mem_cons.mp (ih y) with hh | hh
    · simp [hh]
    · simp [List.mem_cons.mpr (Or.inr hh)]

@[simp] theorem chainL_nil (h : Heap T) (x : Nat) : chainL h x [] := trivial

theorem chainL_cons (h : Heap T) (x y : Nat) (ys : List Nat) :
    chainL h x (y :: ys) ↔ linked h x y ∧ chainL h y ys := Iff.rfl

theorem chainL_append (h : Heap T) (x : Nat) (u v : List Nat) :
    chainL h x (u ++ v) ↔ chainL h x u ∧ chainL h (lastOf x u) v := by
  induction u generalizing x with
  | nil => simp [chainL]
  | cons y ys ih => simp [chainL_cons, ih, and_assoc]

theorem linked_congr {h h1 : Heap T} {p q : Nat}
    (hn : nextOf h1 p = nextOf h p) (hp : prevOf h1 q = prevOf h q)
    (hl : linked h p q) : linked h1 p q := by
  unfold linked at *
  refine ⟨?_, ?_⟩
  · rw [hn]; exact hl.1
  · rw [hp]; exact hl.2

theorem chainL_congr {h h1 : Heap T} :
    ∀ (x : Nat) (c : List Nat),
      (∀ p q, p ∈ x :: c → q ∈ c → linked h p q → linked h1 p q) →
      chainL h x c → chainL h1 x c
  | _, [], _, _ => trivial
  | x, y :: ys, H, hc =>
    ⟨H x y (List.mem_cons_self x (y :: ys)) (List.mem_cons_self y ys) hc.1,
      chainL_congr y ys
        (fun p q hp hq hl =>
          H p q (List.mem_cons.mpr (Or.inr hp)) (List.mem_cons.mpr (Or.inr hq)) hl)
        hc.2⟩

theorem chainL_mem_nodeAt {h : Heap T} :
    ∀ {x : Nat} {c : List Nat}, chainL h x c → ∀ z ∈ c, ∃ n, nodeAt h z = some n
  | _, [], _, z, hz => absurd hz (List.not_mem_nil z)
  | x, y :: ys, hc, z, hz => by
    rcases List.mem_cons.mp hz with rfl | hz2
    · have := hc.1.2
      unfold prevOf at this
      cases hn : nodeAt h z with
      | none => rw [hn] at this; exact absurd this (by simp)
      | some n => exact ⟨n, rfl⟩
    · exact chainL_mem_nodeAt hc.2 z hz2

/-- Decompose membership of the cycle head list into a prefix whose last
element is the given address. -/
theorem mem_decomp {mark x : Nat} {ms : List Nat} (hm : mark ∈ x :: ms) :
    ∃ m1 m2, ms = m1 ++ m2 ∧ mark = lastOf x m1 := by
  rcases List.mem_cons.mp hm with rfl | hmem
  · exact ⟨[], ms, rfl, rfl⟩
  · obtain ⟨u, v, rfl⟩ := List.append_of_mem hmem
    exact ⟨u ++ [mark], v, by simp, (lastOf_concat x mark u).symm⟩

/-- A nodup list of addresses all below a bound has length at most the bound. -/
theorem nodup_length_le {ms : List Nat} {n : Nat} (hd : ms.Nodup)
    (hlt : ∀ a ∈ ms, a < n) : ms.length ≤ n := by
  have h1 : ms.toFinset.card = ms.length := List.toFinset_card_of_nodup hd
  have h2 : ms.toFinset ⊆ Finset.range n := by
    intro a ha
    exact Finset.mem_range.mpr (hlt a (List.mem_toFinset.mp ha))
  have := Finset.card_le_card h2
  rw [h1, Finset.card_range] at this
  exact this

theorem chainL_nextOf_head {h : Heap T} {x y : Nat} {ys : List Nat}
    (hc : chainL h x (y :: ys)) : nextOf h x = some (some y) := hc.1.1

theorem chainL_prevOf_head {h : Heap T} {x y : Nat} {ys : List Nat}
    (hc : chainL h x (y :: ys)) : prevOf h y = some (some x) := hc.1.2

/-- In a ring, the prev field of the root points at the last member. -/
theorem ring_prev_root {h : Heap T} {root : Nat} {ms : List Nat}
    (hc : chainL h root (ms ++ [root])) :
    prevOf h root = some (some (lastOf root ms)) := by
  rcases (chainL_append h root ms [root]).mp hc with ⟨_, hlast⟩
  exact hlast.1.2

/-- In a ring, the next field of the root points at the first member, or back
at the root when there are none. -/
theorem ring_next_root {h : Heap T} {root : Nat} {ms : List Nat}
    (hc : chainL h root (ms ++ [root])) :
    nextOf h root = some (some (hdOf root ms)) := by
  cases ms with
  | nil => exact hc.1.1
  | cons y ys => exact hc.1.1

/-- The fuelled walk recovers the member list of a chain ending at the root. -/
theorem nextChain_of_chain {h : Heap T} {root : Nat} :
    ∀ (suf : List Nat) (x : Nat) (fuel : Nat),
      chainL h x (suf ++ [root]) → root ∉ suf → suf.length < fuel →
      nextChain h root (hdOf root suf) fuel = some suf := by
  intro suf
  induction suf with
  | nil =>
    intro x fuel hc hnr hf
    obtain ⟨f, rfl⟩ : ∃ f, fuel = f + 1 := ⟨fuel - 1, by omega⟩
    simp [nextChain, hdOf]
  | cons s suf2 ih =>
    intro x fuel hc hnr hf
    obtain ⟨f, rfl⟩ : ∃ f, fuel = f + 1 := ⟨fuel - 1, by omega⟩
    have hsr : s ≠ root := by
      intro hh; exact hnr (by simp [hh])
    obtain ⟨n, hn⟩ := chainL_mem_nodeAt hc s (by simp)
    have hnext : nextOf h s = some (some (hdOf root suf2)) := by
      cases suf2 with
      | nil => exact hc.2.1.1
      | cons z zs => exact hc.2.1.1
    have hnn : n.next = some (hdOf root suf2) := by
      unfold nextOf at hnext
      rw [hn] at hnext
      simpa using hnext
    have hrec := ih s f hc.2 (fun hh => hnr (by simp [hh])) (by
      simp at hf ⊢; omega)
    simp [nextChain, hdOf, hsr, hn, hnn]
    exact hrec

theorem hdOf_mem (d : Nat) (l : List Nat) : hdOf d l ∈ d :: l := by
  cases l <;> simp [hdOf]

theorem chainL_next_hd {h : Heap T} {x root : Nat} {v : List Nat}
    (hc : chainL h x (v ++ [root])) : nextOf h x = some (some (hdOf root v)) := by
  cases v with
  | nil => exact hc.1.1
  | cons y ys => exact hc.1.1

theorem linked_det_next {h : Heap T} {p q s : Nat}
    (hl : linked h p q) (hn : nextOf h p = some (some s)) : q = s := by
  have := hl.1
  rw [hn] at this
  simpa using this.symm

/-- Ring surgery, insertion: the cycle root, m1, m2 is linked in h; in h1 a
fresh node a has been wired in right after the last node of the m1 prefix and
nothing else changed. Then root, m1, a, m2 is linked in h1. -/
theorem chain_insert {h h1 : Heap T} {root a : Nat} {m1 m2 : List Nat}
    (hc : chainL h root (m1 ++ (m2 ++ [root])))
    (hnd : (root :: (m1 ++ m2)).Nodup)
    (ha : a ∉ root :: (m1 ++ m2))
    (hNa : nextOf h1 a = some (some (hdOf root m2)))
    (hPa : prevOf h1 a = some (some (lastOf root m1)))
    (hNm : nextOf h1 (lastOf root m1) = some (some a))
    (hPs : prevOf h1 (hdOf root m2) = some (some a))
    (hNo : ∀ z, z ≠ lastOf root m1 → z ≠ a → nextOf h1 z = nextOf h z)
    (hPo : ∀ z, z ≠ hdOf root m2 → z ≠ a → prevOf h1 z = prevOf h z) :
    chainL h1 root (m1 ++ a :: (m2 ++ [root])) := by
  obtain ⟨hc1, hc2⟩ := (chainL_append h root m1 (m2 ++ [root])).mp hc
  have hroot1 : root ∉ m1 := fun hh =>
    (List.nodup_cons.mp hnd).1 (List.mem_append.mpr (Or.inl hh))
  have hroot2 : root ∉ m2 := fun hh =>
    (List.nodup_cons.mp hnd).1 (List.mem_append.mpr (Or.inr hh))
  obtain ⟨hnd1, hnd2, hdisj⟩ := List.nodup_append.mp (List.nodup_cons.mp hnd).2
  have hmark_next : nextOf h (lastOf root m1) = some (some (hdOf root m2)) :=
    chainL_next_hd hc2
  have hs_nin1 : hdOf root m2 ∉ m1 := by
    rcases List.mem_cons.mp (hdOf_mem root m2) with hs | hs
    · rw [hs]; exact hroot1
    · exact fun hh => hdisj hh hs
  rw [chainL_append]
  constructor
  · refine chainL_congr root m1 ?_ hc1
    intro p q hp hq hl
    have hqs : q ≠ hdOf root m2 := ne_of_mem_of_not_mem hq hs_nin1
    have hqa : q ≠ a := ne_of_mem_of_not_mem
      (List.mem_cons.mpr (Or.inr (List.mem_append.mpr (Or.inl hq)))) ha
    have hpa : p ≠ a := by
      refine ne_of_mem_of_not_mem ?_ ha
      rcases List.mem_cons.mp hp with h2 | h2
      · rw [h2]; exact List.mem_cons_self root (m1 ++ m2)
      · exact List.mem_cons.mpr (Or.inr (List.mem_append.mpr (Or.inl h2)))
    by_cases hpm : p = lastOf root m1
    · have hpx : nextOf h p = some (some (hdOf root m2)) := by
        rw [hpm]; exact hmark_next
      exact absurd (linked_det_next hl hpx) hqs
    · exact linked_congr (hNo p hpm hpa) (hPo q hqs hqa) hl
  · rw [chainL_cons]
    refine ⟨⟨hNm, hPa⟩, ?_⟩
    cases m2 with
    | nil =>
      rw [List.nil_append, chainL_cons]
      exact ⟨⟨hNa, hPs⟩, trivial⟩
    | cons s m2t =>
      rw [List.cons_append, chainL_cons]
      refine ⟨⟨hNa, hPs⟩, ?_⟩
      have hsnd := List.nodup_cons.mp hnd2
      have hs_nin : s ∉ m2t ++ [root] := by
        intro hh
        rcases List.mem_append.mp hh with h3 | h3
        · exact hsnd.1 h3
        · exact hroot2 ((List.mem_singleton.mp h3) ▸ List.mem_cons_self s m2t)
      have hsubC : ∀ x ∈ s :: (m2t ++ [root]), x ∈ root :: (m1 ++ s :: m2t) := by
        intro x hx
        rcases List.mem_cons.mp hx with h2 | h2
        · rw [h2]
          exact List.mem_cons.mpr (Or.inr
            (List.mem_append.mpr (Or.inr (List.mem_cons_self s m2t))))
        · rcases List.mem_append.mp h2 with h3 | h3
          · exact List.mem_cons.mpr (Or.inr (List.mem_append.mpr
              (Or.inr (List.mem_cons.mpr (Or.inr h3)))))
          · rw [List.mem_singleton.mp h3]
            exact List.mem_cons_self root (m1 ++ s :: m2t)
      refine chainL_congr s (m2t ++ [root]) ?_ hc2.2
      intro p q hp hq hl
      have hqs : q ≠ s := ne_of_mem_of_not_mem hq hs_nin
      have hqa : q ≠ a := ne_of_mem_of_not_mem
        (hsubC q (List.mem_cons.mpr (Or.inr hq))) ha
      have hpa : p ≠ a := ne_of_mem_of_not_mem (hsubC p hp) ha
      by_cases hpm : p = lastOf root m1
      · have hpx : nextOf h p = some (some s) := by
          rw [hpm]; exact hmark_next
        exact absurd (linked_det_next hl hpx) hqs
      · exact linked_congr (hNo p hpm hpa) (hPo q hqs hqa) hl

/-- Ring surgery, removal: the cycle root, m1, e, m2 is linked in h; in h1 the
neighbours of e have been spliced together and nothing else away from e
changed. Then root, m1, m2 is linked in h1. -/
theorem chain_remove {h h1 : Heap T} {root e : Nat} {m1 m2 : List Nat}
    (hc : chainL h root (m1 ++ e :: (m2 ++ [root])))
    (hnd : (root :: (m1 ++ e :: m2)).Nodup)
    (hNp : nextOf h1 (lastOf root m1) = some (some (hdOf root m2)))
    (hPs : prevOf h1 (hdOf root m2) = some (some (lastOf root m1)))
    (hNo : ∀ z, z ≠ lastOf root m1 → z ≠ e → nextOf h1 z = nextOf h z)
    (hPo : ∀ z, z ≠ hdOf root m2 → z ≠ e → prevOf h1 z = prevOf h z) :
    chainL h1 root (m1 ++ (m2 ++ [root])) := by
  obtain ⟨hc1, hcm⟩ := (chainL_append h root m1 (e :: (m2 ++ [root]))).mp hc
  have hpred_next : nextOf h (lastOf root m1) = some (some e) := hcm.1.1
  have hce : chainL h e (m2 ++ [root]) := hcm.2
  have hroot1 : root ∉ m1 := fun hh =>
    (List.nodup_cons.mp hnd).1 (List.mem_append.mpr (Or.inl hh))
  have hroot2 : root ∉ m2 := fun hh =>
    (List.nodup_cons.mp hnd).1 (List.mem_append.mpr (Or.inr (List.mem_cons.mpr (Or.inr hh))))
  have hroote : root ≠ e := fun hh =>
    (List.nodup_cons.mp hnd).1 (List.mem_append.mpr (Or.inr (by rw [hh]; exact List.mem_cons_self e m2)))
  obtain ⟨hnd1, hnde2, hdisj⟩ := List.nodup_append.mp (List.nodup_cons.mp hnd).2
  have he_nin1 : e ∉ m1 := fun hh => hdisj hh (List.mem_cons_self e m2)
  have hnd2 := List.nodup_cons.mp hnde2
  have he_nin2 : e ∉ m2 := hnd2.1
  have hs_nin1 : hdOf root m2 ∉ m1 := by
    rcases List.mem_cons.mp (hdOf_mem root m2) with hs | hs
    · rw [hs]; exact hroot1
    · exact fun hh => hdisj hh (List.mem_cons.mpr (Or.inr hs))
  have hse : hdOf root m2 ≠ e := by
    rcases List.mem_cons.mp (hdOf_mem root m2) with hs | hs
    · rw [hs]; exact hroote
    · exact ne_of_mem_of_not_mem hs he_nin2
  rw [chainL_append]
  constructor
  · refine chainL_congr root m1 ?_ hc1
    intro p q hp hq hl
    have hqs : q ≠ hdOf root m2 := ne_of_mem_of_not_mem hq hs_nin1
    have hqe : q ≠ e := ne_of_mem_of_not_mem hq he_nin1
    have hpe : p ≠ e := by
      rcases List.mem_cons.mp hp with h2 | h2
      · rw [h2]; exact hroote
      · exact ne_of_mem_of_not_mem h2 he_nin1
    by_cases hpm : p = lastOf root m1
    · have hpx : nextOf h p = some (some e) := by
        rw [hpm]; exact hpred_next
      exact absurd (linked_det_next hl hpx) hqe
    · exact linked_congr (hNo p hpm hpe) (hPo q hqs hqe) hl
  · cases m2 with
    | nil =>
      rw [List.nil_append, chainL_cons]
      exact ⟨⟨hNp, hPs⟩, trivial⟩
    | cons s m2t =>
      rw [List.cons_append, chainL_cons]
      refine ⟨⟨hNp, hPs⟩, ?_⟩
      have hsnd := List.nodup_cons.mp hnd2.2
      have hs_nin : s ∉ m2t ++ [root] := by
        intro hh
        rcases List.mem_append.mp hh with h3 | h3
        · exact hsnd.1 h3
        · exact hroot2 ((List.mem_singleton.mp h3) ▸ List.mem_cons_self s m2t)
      have he_nin : e ∉ s :: (m2t ++ [root]) := by
        intro hh
        rcases List.mem_cons.mp hh with h2 | h2
        · exact he_nin2 (h2 ▸ List.mem_cons_self s m2t)
        · rcases List.mem_append.mp h2 with h3 | h3
          · exact he_nin2 (List.mem_cons.mpr (Or.inr h3))
          · exact hroote ((List.mem_singleton.mp h3).symm)
      refine chainL_congr s (m2t ++ [root]) ?_ hce.2
      intro p q hp hq hl
      have hqs : q ≠ s := ne_of_mem_of_not_mem hq hs_nin
      have hqe : q ≠ e := fun hh =>
        he_nin (hh ▸ List.mem_cons.mpr (Or.inr hq))
      have hpe : p ≠ e := fun hh => he_nin (hh ▸ hp)
      by_cases hpm : p = lastOf root m1
      · have hpx : nextOf h p = some (some e) := by
          rw [hpm]; exact hpred_next
        exact absurd (linked_det_next hl hpx) hqe
      · exact linked_congr (hNo p hpm hpe) (hPo q hqs hqe) hl

/-- The computed member walk agrees with any well-formed ring. -/
theorem msOf_eq {h : Heap T} {li : Nat} {lr : LRec} {ms : List Nat}
    (hlr : listAt h li = some lr) (hr : ringAt h li lr ms) :
    msOf h li = some ms := by
  obtain ⟨hc, hnd, hsz, hmm⟩ := hr
  obtain ⟨rn, hrn⟩ : ∃ n, nodeAt h lr.root = some n := by
    have := ring_prev_root hc
    unfold prevOf at this
    cases hn : nodeAt h lr.root with
    | none => rw [hn] at this; exact absurd this (by simp)
    | some n => exact ⟨n, rfl⟩
  have hroot_lt : lr.root < h.nodes.length := nodeAt_lt_length hrn
  have hmem_lt : ∀ a ∈ lr.root :: ms, a < h.nodes.length := by
    intro a ha
    rcases List.mem_cons.mp ha with rfl | ha2
    · exact hroot_lt
    · obtain ⟨n, hn⟩ := chainL_mem_nodeAt hc a (by simp [ha2])
      exact nodeAt_lt_length hn
  have hlen : ms.length < h.nodes.length := by
    have := nodup_length_le hnd hmem_lt
    simp at this
    omega
  have hnx : rn.next = some (hdOf lr.root ms) := by
    have := ring_next_root hc
    unfold nextOf at this
    rw [hrn] at this
    simpa using this
  have hroot_notin : lr.root ∉ ms := by
    intro hh
    exact (List.nodup_cons.mp hnd).1 hh
  have hwalk := nextChain_of_chain ms lr.root h.nodes.length hc hroot_notin hlen
  unfold msOf
  rw [hlr]
  simp [hrn, hnx, hwalk]

/-! Helpers for the well-formedness predicate. -/

theorem nodeAt_of_lstOf {h : Heap T} {a : Nat} {w : Option Nat}
    (hl : lstOf h a = some w) : ∃ n, nodeAt h a = some n ∧ n.list = w := by
  unfold lstOf at hl
  cases hn : nodeAt h a with
  | none => rw [hn] at hl; exact absurd hl (by simp)
  | some n => rw [hn] at hl; exact ⟨n, rfl, by simpa using hl⟩

theorem nodeAt_of_nextOf {h : Heap T} {a : Nat} {w : Option Nat}
    (hl : nextOf h a = some w) : ∃ n, nodeAt h a = some n ∧ n.next = w := by
  unfold nextOf at hl
  cases hn : nodeAt h a with
  | none => rw [hn] at hl; exact absurd hl (by simp)
  | some n => rw [hn] at hl; exact ⟨n, rfl, by simpa using hl⟩

theorem noMembers_iff (h : Heap T) (li : Nat) :
    noMembers h li ↔ ∀ a n, nodeAt h a = some n → n.list ≠ some li := by
  unfold noMembers
  constructor
  · intro H a n hn
    refine H n ?_
    unfold nodeAt at hn
    exact (List.mem_iff_getElem?).mpr ⟨a, hn⟩
  · intro H n hn
    obtain ⟨a, ha⟩ := (List.mem_iff_getElem?).mp hn
    exact H a n ha

theorem mem_cycle_left {root p : Nat} {ms : List Nat}
    (hp : p ∈ root :: (ms ++ [root])) : p ∈ root :: ms := by
  simp at hp ⊢
  tauto

theorem mem_cycle_right {root q : Nat} {ms : List Nat}
    (hq : q ∈ ms ++ [root]) : q ∈ root :: ms := by
  simp at hq ⊢
  tauto

theorem listWFat_cases {h : Heap T} {li : Nat} {lr : LRec}
    (hW : listWFat h li) (hlr : listAt h li = some lr) :
    ∃ rn, nodeAt h lr.root = some rn ∧ rn.list = none ∧
      ((rn.next = none ∧ rn.prev = none ∧ lr.size = 0 ∧ noMembers h li) ∨
        ∃ ms, msOf h li = some ms ∧ ringAt h li lr ms) := by
  unfold listWFat at hW
  rw [hlr] at hW
  simp only [optA] at hW
  cases hrn : nodeAt h lr.root with
  | none => rw [hrn] at hW; simp [optP] at hW
  | some rn =>
    rw [hrn] at hW
    simp only [optP] at hW
    refine ⟨rn, rfl, hW.1, ?_⟩
    rcases hW.2 with hun | hin
    · exact Or.inl hun
    · cases hms : msOf h li with
      | none => rw [hms] at hin; simp [optP] at hin
      | some ms =>
        rw [hms] at hin
        simp only [optP] at hin
        exact Or.inr ⟨ms, rfl, hin⟩

theorem listWFat_none {h : Heap T} {li : Nat} (hlr : listAt h li = none) :
    listWFat h li := by
  unfold listWFat
  rw [hlr]
  simp [optA]

theorem listWFat_intro_ring {h : Heap T} {li : Nat} {lr : LRec} {ms : List Nat}
    {rn : Node T} (hlr : listAt h li = some lr) (hrn : nodeAt h lr.root = some rn)
    (hrl : rn.list = none) (hr : ringAt h li lr ms) : listWFat h li := by
  unfold listWFat
  rw [hlr]
  simp only [optA, hrn, optP]
  refine ⟨hrl, Or.inr ?_⟩
  rw [msOf_eq hlr hr]
  simp only [optP]
  exact hr

theorem listWFat_intro_uninit {h : Heap T} {li : Nat} {lr : LRec} {rn : Node T}
    (hlr : listAt h li = some lr) (hrn : nodeAt h lr.root = some rn)
    (hrl : rn.list = none) (hnx : rn.next = none) (hpv : rn.prev = none)
    (hsz : lr.size = 0) (hnm : noMembers h li) : listWFat h li := by
  unfold listWFat
  rw [hlr]
  simp only [optA, hrn, optP]
  exact ⟨hrl, Or.inl ⟨hnx, hpv, hsz, hnm⟩⟩

/-- Framing: a list whose header, sentinel node and member nodes are untouched
stays well-formed. -/
theorem listWFat_frame {h h2 : Heap T} {j : Nat}
    (hW : listWFat h j)
    (hLj : listAt h2 j = listAt h j)
    (hmem : ∀ x n, nodeAt h x = some n → n.list = some j → nodeAt h2 x = nodeAt h x)
    (hroot : ∀ lrj, listAt h j = some lrj → nodeAt h2 lrj.root = nodeAt h lrj.root)
    (hnm : noMembers h j → noMembers h2 j) :
    listWFat h2 j := by
  cases hlj : listAt h j with
  | none => exact listWFat_none (hLj.trans hlj)
  | some lrj =>
    obtain ⟨rn, hrn, hrl, hcase⟩ := listWFat_cases hW hlj
    have hrn2 : nodeAt h2 lrj.root = some rn := by rw [hroot lrj hlj]; exact hrn
    rcases hcase with ⟨hnx, hpv, hsz, hnomem⟩ | ⟨ms, hms, hr⟩
    · exact listWFat_intro_uninit (hLj.trans hlj) hrn2 hrl hnx hpv hsz (hnm hnomem)
    · obtain ⟨hc, hnd, hsz, hmm⟩ := hr
      have huntouched : ∀ z ∈ lrj.root :: ms, nodeAt h2 z = nodeAt h z := by
        intro z hz
        rcases List.mem_cons.mp hz with rfl | hz2
        · exact hroot lrj hlj
        · obtain ⟨n, hn, hnl⟩ := nodeAt_of_lstOf (hmm z hz2)
          exact hmem z n hn hnl
      have hc2 : chainL h2 lrj.root (ms ++ [lrj.root]) := by
        refine chainL_congr lrj.root (ms ++ [lrj.root]) ?_ hc
        intro p q hp hq hl
        have hpz : nodeAt h2 p = nodeAt h p := huntouched p (mem_cycle_left hp)
        have hqz : nodeAt h2 q = nodeAt h q := huntouched q (mem_cycle_right hq)
        refine linked_congr ?_ ?_ hl
        · unfold nextOf; rw [hpz]
        · unfold prevOf; rw [hqz]
      have hmm2 : ∀ a ∈ ms, lstOf h2 a = some (some j) := by
        intro a hamem
        unfold lstOf
        rw [huntouched a (List.mem_cons.mpr (Or.inr hamem))]
        exact hmm a hamem
      exact listWFat_intro_ring (hLj.trans hlj) hrn2 hrl ⟨hc2, hnd, hsz, hmm2⟩

theorem rootsDistinct_frame {h h2 : Heap T}
    (hrd : rootsDistinct h)
    (hlen : h2.lists.length = h.lists.length)
    (hroots : ∀ i lr2, listAt h2 i = some lr2 →
      ∃ lr, listAt h i = some lr ∧ lr.root = lr2.root) :
    rootsDistinct h2 := by
  intro i hi j hj hij ri rj hri hrj
  obtain ⟨ri0, hri0, hri0r⟩ := hroots i ri hri
  obtain ⟨rj0, hrj0, hrj0r⟩ := hroots j rj hrj
  rw [← hri0r, ← hrj0r]
  exact hrd i (by omega) j (by omega) hij ri0 rj0 hri0 hrj0

theorem lst_ne_addr {h : Heap T} {x y : Nat} {w w2 : Option Nat}
    (hx : lstOf h x = some w) (hy : lstOf h y = some w2) (hne : w ≠ w2) :
    x ≠ y := by
  intro hh
  rw [hh] at hx
  rw [hx] at hy
  exact hne (Option.some.inj hy)

theorem listAt_lt_length {h : Heap T} {i : Nat} {lr : LRec}
    (hlr : listAt h i = some lr) : i < h.lists.length := by
  unfold listAt at hlr
  exact (List.getElem?_eq_some.mp hlr).1

/-- Main specification of insertValueAfter on a well-formed ring: inserting v
after the last node of the m1 prefix of the cycle yields the fresh address
wired in between the two halves, the size bumped by one, and every other node,
value and list framed. -/
theorem insertVA_spec {h : Heap T} {li : Nat} {lr : LRec} {ms m1 m2 : List Nat}
    {rn : Node T} (v : T)
    (hWF : WF h)
    (hlr : listAt h li = some lr)
    (hrn : nodeAt h lr.root = some rn) (hrl : rn.list = none)
    (hr : ringAt h li lr ms)
    (hm : ms = m1 ++ m2) :
    ∃ h2, insertValueAfter h li v (some (lastOf lr.root m1)) =
        some (h2, h.nodes.length) ∧
      listAt h2 li = some ⟨lr.root, lr.size + 1⟩ ∧
      (∀ j, j ≠ li → listAt h2 j = listAt h j) ∧
      h2.lists.length = h.lists.length ∧
      h2.nodes.length = h.nodes.length + 1 ∧
      ringAt h2 li ⟨lr.root, lr.size + 1⟩ (m1 ++ h.nodes.length :: m2) ∧
      lstOf h2 lr.root = some none ∧
      valOf h2 h.nodes.length = some v ∧
      (∀ x, x < h.nodes.length → valOf h2 x = valOf h x) ∧
      (∀ x, x < h.nodes.length → lstOf h2 x = lstOf h x) ∧
      (∀ j lrj msj, j ≠ li → listAt h j = some lrj → ringAt h j lrj msj →
        ringAt h2 j lrj msj) ∧
      WF h2 := by
  obtain ⟨hc, hnd, hsz, hmm⟩ := hr
  have hli_lt : li < h.lists.length := listAt_lt_length hlr
  have hmexist : ∀ z ∈ ms, ∃ n, nodeAt h z = some n := fun z hz =>
    chainL_mem_nodeAt hc z (List.mem_append.mpr (Or.inl hz))
  have hcycleex : ∀ z ∈ lr.root :: ms, ∃ n, nodeAt h z = some n := by
    intro z hz
    rcases List.mem_cons.mp hz with rfl | hz2
    · exact ⟨rn, hrn⟩
    · exact hmexist z hz2
  have hcyclelt : ∀ z ∈ lr.root :: ms, z < h.nodes.length := by
    intro z hz
    obtain ⟨n, hn⟩ := hcycleex z hz
    exact nodeAt_lt_length hn
  have hmark_mem : lastOf lr.root m1 ∈ lr.root :: ms := by
    rw [hm]
    rcases List.mem_cons.mp (lastOf_mem lr.root m1) with hh | hh
    · rw [hh]; exact List.mem_cons_self _ _
    · exact List.mem_cons.mpr (Or.inr (List.mem_append.mpr (Or.inl hh)))
  have hs_mem : hdOf lr.root m2 ∈ lr.root :: ms := by
    rw [hm]
    rcases List.mem_cons.mp (hdOf_mem lr.root m2) with hh | hh
    · rw [hh]; exact List.mem_cons_self _ _
    · exact List.mem_cons.mpr (Or.inr (List.mem_append.mpr (Or.inr hh)))
  have hmark_lst : lastOf lr.root m1 = lr.root ∨
      lstOf h (lastOf lr.root m1) = some (some li) := by
    rcases List.mem_cons.mp (lastOf_mem lr.root m1) with hh | hh
    · exact Or.inl hh
    · exact Or.inr (hmm _ (by rw [hm]; exact List.mem_append.mpr (Or.inl hh)))
  have hs_lst : hdOf lr.root m2 = lr.root ∨
      lstOf h (hdOf lr.root m2) = some (some li) := by
    rcases List.mem_cons.mp (hdOf_mem lr.root m2) with hh | hh
    · exact Or.inl hh
    · exact Or.inr (hmm _ (by rw [hm]; exact List.mem_append.mpr (Or.inr hh)))
  have hrootlst : lstOf h lr.root = some none := by
    simp [lstOf, hrn, hrl]
  have hmark_lt : lastOf lr.root m1 < h.nodes.length := hcyclelt _ hmark_mem
  have hs_lt : hdOf lr.root m2 < h.nodes.length := hcyclelt _ hs_mem
  have hroot_lt : lr.root < h.nodes.length := nodeAt_lt_length hrn
  have hcassoc : chainL h lr.root (m1 ++ (m2 ++ [lr.root])) := by
    rw [hm] at hc
    rw [← List.append_assoc]
    exact hc
  have hmn_next : nextOf h (lastOf lr.root m1) =
      some (some (hdOf lr.root m2)) :=
    chainL_next_hd ((chainL_append h lr.root m1 (m2 ++ [lr.root])).mp hcassoc).2
  obtain ⟨mn, hmn, hmnn⟩ := nodeAt_of_nextOf hmn_next
  obtain ⟨sn, hsn⟩ := hcycleex _ hs_mem
  have hmark_ne_a : lastOf lr.root m1 ≠ h.nodes.length := Nat.ne_of_lt hmark_lt
  have hs_ne_a : hdOf lr.root m2 ≠ h.nodes.length := Nat.ne_of_lt hs_lt
  have hroot_ne_a : lr.root ≠ h.nodes.length := Nat.ne_of_lt hroot_lt
  set nd : Node T := ⟨some (lastOf lr.root m1), some (hdOf lr.root m2), some li, v⟩
    with hnd_def
  set hA := pushNode h nd with hA_def
  set hB := setPrev hA (hdOf lr.root m2) (some h.nodes.length) with hB_def
  set hC := setNext hB (lastOf lr.root m1) (some h.nodes.length) with hC_def
  set h2 := addSize hC li 1 with h2_def
  have hstep : insertValueAfter h li v (some (lastOf lr.root m1)) =
      some (h2, h.nodes.length) := by
    rw [h2_def, hC_def, hB_def, hA_def, hnd_def]
    unfold insertValueAfter
    simp [hmn, hmnn]
  have hsnA : nodeAt hA (hdOf lr.root m2) = some sn := by
    rw [hA_def, nodeAt_pushNode, if_neg hs_ne_a]
    exact hsn
  have hmnB : ∃ n, nodeAt hB (lastOf lr.root m1) = some n := by
    by_cases hms : lastOf lr.root m1 = hdOf lr.root m2
    · rw [hB_def, nodeAt_setPrev, if_pos hms, hsnA]
      exact ⟨_, rfl⟩
    · rw [hB_def, nodeAt_setPrev, if_neg hms, hA_def, nodeAt_pushNode,
        if_neg hmark_ne_a, hmn]
      exact ⟨mn, rfl⟩
  have hNa : nextOf h2 h.nodes.length = some (some (hdOf lr.root m2)) := by
    rw [h2_def, addSize, nextOf_modifyL, hC_def, nextOf_setNext,
      if_neg (Ne.symm hmark_ne_a), hB_def, nextOf_setPrev, hA_def,
      nextOf_pushNode, if_pos rfl, hnd_def]
  have hPa : prevOf h2 h.nodes.length = some (some (lastOf lr.root m1)) := by
    rw [h2_def, addSize, prevOf_modifyL, hC_def, prevOf_setNext, hB_def,
      prevOf_setPrev, if_neg (Ne.symm hs_ne_a), hA_def, prevOf_pushNode,
      if_pos rfl, hnd_def]
  have hNm : nextOf h2 (lastOf lr.root m1) = some (some h.nodes.length) := by
    obtain ⟨mb, hmb⟩ := hmnB
    rw [h2_def, addSize, nextOf_modifyL, hC_def, nextOf_setNext, if_pos rfl, hmb]
    rfl
  have hPs : prevOf h2 (hdOf lr.root m2) = some (some h.nodes.length) := by
    rw [h2_def, addSize, prevOf_modifyL, hC_def, prevOf_setNext, hB_def,
      prevOf_setPrev, if_pos rfl, hsnA]
    rfl
  have hNo : ∀ z, z ≠ lastOf lr.root m1 → z ≠ h.nodes.length →
      nextOf h2 z = nextOf h z := by
    intro z h1 h3
    rw [h2_def, addSize, nextOf_modifyL, hC_def, nextOf_setNext, if_neg h1,
      hB_def, nextOf_setPrev, hA_def, nextOf_pushNode, if_neg h3]
  have hPo : ∀ z, z ≠ hdOf lr.root m2 → z ≠ h.nodes.length →
      prevOf h2 z = prevOf h z := by
    intro z h1 h3
    rw [h2_def, addSize, prevOf_modifyL, hC_def, prevOf_setNext, hB_def,
      prevOf_setPrev, if_neg h1, hA_def, prevOf_pushNode, if_neg h3]
  have hLst : ∀ z, z ≠ h.nodes.length → lstOf h2 z = lstOf h z := by
    intro z h3
    rw [h2_def, addSize, lstOf_modifyL, hC_def, lstOf_setNext, hB_def,
      lstOf_setPrev, hA_def, lstOf_pushNode, if_neg h3]
  have hVal : ∀ z, z ≠ h.nodes.length → valOf h2 z = valOf h z := by
    intro z h3
    rw [h2_def, addSize, valOf_modifyL, hC_def, valOf_setNext, hB_def,
      valOf_setPrev, hA_def, valOf_pushNode, if_neg h3]
  have hLsta : lstOf h2 h.nodes.length = some (some li) := by
    rw [h2_def, addSize, lstOf_modifyL, hC_def, lstOf_setNext, hB_def,
      lstOf_setPrev, hA_def, lstOf_pushNode, if_pos rfl, hnd_def]
  have hVala : valOf h2 h.nodes.length = some v := by
    rw [h2_def, addSize, valOf_modifyL, hC_def, valOf_setNext, hB_def,
      valOf_setPrev, hA_def, valOf_pushNode, if_pos rfl, hnd_def]
  have hnodeAta : nodeAt h2 h.nodes.length = some nd := by
    rw [h2_def, addSize, nodeAt_modifyL, hC_def, nodeAt_setNext,
      if_neg (Ne.symm hmark_ne_a), hB_def, nodeAt_setPrev,
      if_neg (Ne.symm hs_ne_a), hA_def, nodeAt_pushNode, if_pos rfl]
  have huntouch : ∀ z, z ≠ lastOf lr.root m1 → z ≠ hdOf lr.root m2 →
      z ≠ h.nodes.length → nodeAt h2 z = nodeAt h z := by
    intro z h1 h2x h3
    rw [h2_def, addSize, nodeAt_modifyL, hC_def, nodeAt_setNext, if_neg h1,
      hB_def, nodeAt_setPrev, if_neg h2x, hA_def, nodeAt_pushNode, if_neg h3]
  have hLists : ∀ j, j ≠ li → listAt h2 j = listAt h j := by
    intro j hj
    rw [h2_def, addSize, listAt_modifyL, if_neg hj, hC_def, listAt_setNext,
      hB_def, listAt_setPrev, hA_def, listAt_pushNode]
  have hListli : listAt h2 li = some ⟨lr.root, lr.size + 1⟩ := by
    rw [h2_def, addSize, listAt_modifyL, if_pos rfl, hC_def, listAt_setNext,
      hB_def, listAt_setPrev, hA_def, listAt_pushNode, hlr]
    rfl
  have hListsLen : h2.lists.length = h.lists.length := by
    rw [h2_def, addSize, lists_length_modifyL, hC_def, lists_setNext, hB_def,
      lists_setPrev, hA_def, lists_pushNode]
  have hNodesLen : h2.nodes.length = h.nodes.length + 1 := by
    rw [h2_def, addSize, nodes_modifyL, hC_def, nodes_setNext, hB_def,
      nodes_setPrev, hA_def, nodes_pushNode]
  have ha_nin : h.nodes.length ∉ lr.root :: ms := fun hh =>
    absurd (hcyclelt _ hh) (lt_irrefl _)
  have hchain2 : chainL h2 lr.root (m1 ++ h.nodes.length :: (m2 ++ [lr.root])) := by
    refine chain_insert hcassoc ?_ ?_ hNa hPa hNm hPs hNo hPo
    · rw [← hm]; exact hnd
    · rw [← hm]; exact ha_nin
  have hring2 : ringAt h2 li ⟨lr.root, lr.size + 1⟩
      (m1 ++ h.nodes.length :: m2) := by
    refine ⟨?_, ?_, ?_, ?_⟩
    · show chainL h2 lr.root ((m1 ++ h.nodes.length :: m2) ++ [lr.root])
      have hshape : (m1 ++ h.nodes.length :: m2) ++ [lr.root] =
          m1 ++ h.nodes.length :: (m2 ++ [lr.root]) := by simp
      rw [hshape]
      exact hchain2
    · show (lr.root :: (m1 ++ h.nodes.length :: m2)).Nodup
      have hshape : lr.root :: (m1 ++ h.nodes.length :: m2) =
          (lr.root :: m1) ++ h.nodes.length :: m2 := by simp
      rw [hshape, List.nodup_middle]
      refine List.nodup_cons.mpr ⟨?_, ?_⟩
      · intro hh
        rw [hm] at ha_nin
        refine ha_nin ?_
        rcases List.mem_append.mp hh with h4 | h4
        · rcases List.mem_cons.mp h4 with h5 | h5
          · rw [h5]; exact List.mem_cons_self _ _
          · exact List.mem_cons.mpr (Or.inr (List.mem_append.mpr (Or.inl h5)))
        · exact List.mem_cons.mpr (Or.inr (List.mem_append.mpr (Or.inr h4)))
      · have hshape2 : (lr.root :: m1) ++ m2 = lr.root :: (m1 ++ m2) := by simp
        rw [hshape2, ← hm]
        exact hnd
    · show lr.size + 1 = ((m1 ++ h.nodes.length :: m2).length : Int)
      have h9 : lr.size = ((m1 ++ m2).length : Int) := by rw [hsz, hm]
      rw [h9]
      simp only [List.length_append, List.length_cons]
      push_cast
      ring
    · intro x hx
      rcases List.mem_append.mp hx with h4 | h4
      · have hxin : x ∈ ms := by rw [hm]; exact List.mem_append.mpr (Or.inl h4)
        rw [hLst x (Nat.ne_of_lt (hcyclelt x (List.mem_cons.mpr (Or.inr hxin))))]
        exact hmm x hxin
      · rcases List.mem_cons.mp h4 with h5 | h5
        · rw [h5]; exact hLsta
        · have hxin : x ∈ ms := by rw [hm]; exact List.mem_append.mpr (Or.inr h5)
          rw [hLst x (Nat.ne_of_lt (hcyclelt x (List.mem_cons.mpr (Or.inr hxin))))]
          exact hmm x hxin
  have hOtherRing : ∀ j lrj msj, j ≠ li → listAt h j = some lrj →
      ringAt h j lrj msj → ringAt h2 j lrj msj := by
    intro j lrj msj hji hlrj hrj
    obtain ⟨hcj, hndj, hszj, hmmj⟩ := hrj
    have hj_lt : j < h.lists.length := listAt_lt_length hlrj
    obtain ⟨rnj0, hrnj0, hrlj0, _⟩ := listWFat_cases (hWF.2 j hj_lt) hlrj
    have hrootj_lst : lstOf h lrj.root = some none := by
      simp [lstOf, hrnj0, hrlj0]
    have hrootsne : lrj.root ≠ lr.root :=
      hWF.1 j hj_lt li hli_lt hji lrj lr hlrj hlr
    have huz : ∀ z ∈ lrj.root :: msj, nodeAt h2 z = nodeAt h z := by
      intro z hz
      have hzlst : (lstOf h z = some none ∧ z = lrj.root) ∨
          lstOf h z = some (some j) := by
        rcases List.mem_cons.mp hz with rfl | hz2
        · exact Or.inl ⟨hrootj_lst, rfl⟩
        · exact Or.inr (hmmj z hz2)
      have hz_ne_mark : z ≠ lastOf lr.root m1 := by
        rcases hmark_lst with hmr | hml
        · rcases hzlst with ⟨hzl, rfl⟩ | hzl
          · rw [hmr]; exact hrootsne
          · rw [hmr]; exact lst_ne_addr hzl hrootlst (by simp)
        · rcases hzlst with ⟨hzl, rfl⟩ | hzl
          · exact lst_ne_addr hzl hml (by simp)
          · refine lst_ne_addr hzl hml ?_
            intro hcon
            exact hji (Option.some.inj hcon)
      have hz_ne_s : z ≠ hdOf lr.root m2 := by
        rcases hs_lst with hmr | hml
        · rcases hzlst with ⟨hzl, rfl⟩ | hzl
          · rw [hmr]; exact hrootsne
          · rw [hmr]; exact lst_ne_addr hzl hrootlst (by simp)
        · rcases hzlst with ⟨hzl, rfl⟩ | hzl
          · exact lst_ne_addr hzl hml (by simp)
          · refine lst_ne_addr hzl hml ?_
            intro hcon
            exact hji (Option.some.inj hcon)
      have hz_ne_a : z ≠ h.nodes.length := by
        rcases hzlst with ⟨hzl, rfl⟩ | hzl
        · exact Nat.ne_of_lt (nodeAt_lt_length hrnj0)
        · obtain ⟨n0, hn0, _⟩ := nodeAt_of_lstOf hzl
          exact Nat.ne_of_lt (nodeAt_lt_length hn0)
      exact huntouch z hz_ne_mark hz_ne_s hz_ne_a
    refine ⟨?_, hndj, hszj, ?_⟩
    · refine chainL_congr lrj.root (msj ++ [lrj.root]) ?_ hcj
      intro p q hp hq hl
      refine linked_congr ?_ ?_ hl
      · unfold nextOf; rw [huz p (mem_cycle_left hp)]
      · unfold prevOf; rw [huz q (mem_cycle_right hq)]
    · intro x hx
      unfold lstOf
      rw [huz x (List.mem_cons.mpr (Or.inr hx))]
      exact hmmj x hx
  have hli_listWF2 : listWFat h2 li := by
    have hl2 : lstOf h2 lr.root = some none := by
      rw [hLst _ hroot_ne_a]; exact hrootlst
    obtain ⟨rn2, hrn2, hrl2⟩ := nodeAt_of_lstOf hl2
    exact listWFat_intro_ring hListli hrn2 hrl2 hring2
  have hWF2 : WF h2 := by
    constructor
    · refine rootsDistinct_frame hWF.1 hListsLen ?_
      intro i lr2 hi2
      by_cases hii : i = li
      · subst hii
        rw [hListli] at hi2
        refine ⟨lr, hlr, ?_⟩
        rw [← Option.some.inj hi2]
      · rw [hLists i hii] at hi2
        exact ⟨lr2, hi2, rfl⟩
    · intro j hj
      by_cases hji : j = li
      · subst hji; exact hli_listWF2
      · have hj_lt2 : j < h.lists.length := by rw [hListsLen] at hj; exact hj
        refine listWFat_frame (hWF.2 j hj_lt2) (hLists j hji) ?_ ?_ ?_
        · intro x n hx hnl
          have hxl : lstOf h x = some (some j) := by
            simp [lstOf, hx, hnl]
          have h1 : x ≠ lastOf lr.root m1 := by
            rcases hmark_lst with hmr | hml
            · rw [hmr]; exact lst_ne_addr hxl hrootlst (by simp)
            · refine lst_ne_addr hxl hml ?_
              intro hcon
              exact hji (Option.some.inj hcon)
          have h2x : x ≠ hdOf lr.root m2 := by
            rcases hs_lst with hmr | hml
            · rw [hmr]; exact lst_ne_addr hxl hrootlst (by simp)
            · refine lst_ne_addr hxl hml ?_
              intro hcon
              exact hji (Option.some.inj hcon)
          exact huntouch x h1 h2x (Nat.ne_of_lt (nodeAt_lt_length hx))
        · intro lrj hlrj
          obtain ⟨rnj0, hrnj0, hrlj0, _⟩ := listWFat_cases (hWF.2 j hj_lt2) hlrj
          have hrootj_lst : lstOf h lrj.root = some none := by
            simp [lstOf, hrnj0, hrlj0]
          have hrootsne : lrj.root ≠ lr.root :=
            hWF.1 j hj_lt2 li hli_lt hji lrj lr hlrj hlr
          have h1 : lrj.root ≠ lastOf lr.root m1 := by
            rcases hmark_lst with hmr | hml
            · rw [hmr]; exact hrootsne
            · exact lst_ne_addr hrootj_lst hml (by simp)
          have h2x : lrj.root ≠ hdOf lr.root m2 := by
            rcases hs_lst with hmr | hml
            · rw [hmr]; exact hrootsne
            · exact lst_ne_addr hrootj_lst hml (by simp)
          exact huntouch _ h1 h2x (Nat.ne_of_lt (nodeAt_lt_length hrnj0))
        · intro hnm
          rw [noMembers_iff] at hnm ⊢
          intro x n2 hx2
          by_cases hxa : x = h.nodes.length
          · subst hxa
            rw [hnodeAta] at hx2
            rw [← Option.some.inj hx2]
            intro hcon
            rw [hnd_def] at hcon
            exact hji (Option.some.inj hcon).symm
          · rcases Nat.lt_or_ge x h.nodes.length with hlt | hge
            · have hfr := hLst x hxa
              unfold lstOf at hfr
              rw [hx2] at hfr
              cases hxo : nodeAt h x with
              | none => rw [hxo] at hfr; exact absurd hfr (by simp)
              | some n0 =>
                rw [hxo] at hfr
                have hnn : n2.list = n0.list := by simpa using hfr
                rw [hnn]
                exact hnm x n0 hxo
            · exfalso
              have hx2len : x < h2.nodes.length := nodeAt_lt_length hx2
              rw [hNodesLen] at hx2len
              omega
  refine ⟨h2, hstep, hListli, hLists, hListsLen, hNodesLen, hring2, ?_, hVala,
    ?_, ?_, hOtherRing, hWF2⟩
  · rw [hLst _ hroot_ne_a]; exact hrootlst
  · intro x hx; exact hVal x (Nat.ne_of_lt hx)
  · intro x hx; exact hLst x (Nat.ne_of_lt hx)

/-- Framing for an operation whose node writes all target the cycle of one
list li: every other list keeps its ring and its well-formedness. -/
theorem WF_cycle_frame {h h2 : Heap T} {li : Nat} {lr lr2 : LRec}
    (hWF : WF h)
    (hlr : listAt h li = some lr)
    (hLists : ∀ j, j ≠ li → listAt h2 j = listAt h j)
    (hroot2 : lr2.root = lr.root)
    (hListsLen : h2.lists.length = h.lists.length)
    (W : List Nat)
    (hW : ∀ w ∈ W, w = lr.root ∨ lstOf h w = some (some li))
    (huntouch : ∀ z, z ∉ W → z < h.nodes.length → nodeAt h2 z = nodeAt h z)
    (hlst2 : ∀ x n2, x < h.nodes.length → nodeAt h2 x = some n2 →
      ∀ j, n2.list = some j → j = li ∨ ∃ n, nodeAt h x = some n ∧ n.list = some j)
    (hnewlst : ∀ x n2, h.nodes.length ≤ x → nodeAt h2 x = some n2 →
      n2.list = none ∨ n2.list = some li)
    (hWFli : listWFat h2 li)
    (hListli : listAt h2 li = some lr2) :
    (∀ j lrj msj, j ≠ li → listAt h j = some lrj → ringAt h j lrj msj →
      ringAt h2 j lrj msj) ∧ WF h2 := by
  have hli_lt : li < h.lists.length := listAt_lt_length hlr
  obtain ⟨rnli, hrnli, hrlli, _⟩ := listWFat_cases (hWF.2 li hli_lt) hlr
  have hrootli_lst : lstOf h lr.root = some none := by
    simp [lstOf, hrnli, hrlli]
  have huz_core : ∀ j, j ≠ li → ∀ z, (lstOf h z = some (some j) ∨
      (lstOf h z = some none ∧ z ≠ lr.root)) → nodeAt h2 z = nodeAt h z := by
    intro j hji z hz
    have hz_ex : ∃ n, nodeAt h z = some n := by
      rcases hz with hz | ⟨hz, _⟩
      · exact ⟨_, (nodeAt_of_lstOf hz).choose_spec.1⟩
      · exact ⟨_, (nodeAt_of_lstOf hz).choose_spec.1⟩
    obtain ⟨n0, hn0⟩ := hz_ex
    refine huntouch z ?_ (nodeAt_lt_length hn0)
    intro hzin
    rcases hW z hzin with hwr | hwl
    · subst hwr
      rcases hz with hz | ⟨hz, hzr⟩
      · rw [hrootli_lst] at hz
        exact (by simpa using hz : False)
      · exact hzr rfl
    · rcases hz with hz | ⟨hz, hzr⟩
      · rw [hz] at hwl
        exact hji (Option.some.inj (Option.some.inj hwl))
      · rw [hz] at hwl
        exact (by simpa using hwl : False)
  have hOther : ∀ j lrj msj, j ≠ li → listAt h j = some lrj →
      ringAt h j lrj msj → ringAt h2 j lrj msj := by
    intro j lrj msj hji hlrj hrj
    obtain ⟨hcj, hndj, hszj, hmmj⟩ := hrj
    have hj_lt : j < h.lists.length := listAt_lt_length hlrj
    obtain ⟨rnj0, hrnj0, hrlj0, _⟩ := listWFat_cases (hWF.2 j hj_lt) hlrj
    have hrootj_lst : lstOf h lrj.root = some none := by
      simp [lstOf, hrnj0, hrlj0]
    have hrootsne : lrj.root ≠ lr.root :=
      hWF.1 j hj_lt li hli_lt hji lrj lr hlrj hlr
    have huz : ∀ z ∈ lrj.root :: msj, nodeAt h2 z = nodeAt h z := by
      intro z hz
      rcases List.mem_cons.mp hz with rfl | hz2
      · exact huz_core j hji lrj.root (Or.inr ⟨hrootj_lst, hrootsne⟩)
      · exact huz_core j hji z (Or.inl (hmmj z hz2))
    refine ⟨?_, hndj, hszj, ?_⟩
    · refine chainL_congr lrj.root (msj ++ [lrj.root]) ?_ hcj
      intro p q hp hq hl
      refine linked_congr ?_ ?_ hl
      · unfold nextOf; rw [huz p (mem_cycle_left hp)]
      · unfold prevOf; rw [huz q (mem_cycle_right hq)]
    · intro x hx
      unfold lstOf
      rw [huz x (List.mem_cons.mpr (Or.inr hx))]
      exact hmmj x hx
  refine ⟨hOther, ?_, ?_⟩
  · refine rootsDistinct_frame hWF.1 hListsLen ?_
    intro i lri2 hi2
    by_cases hii : i = li
    · subst hii
      rw [hListli] at hi2
      refine ⟨lr, hlr, ?_⟩
      rw [← Option.some.inj hi2]
      exact hroot2.symm
    · rw [hLists i hii] at hi2
      exact ⟨lri2, hi2, rfl⟩
  · intro j hj
    by_cases hji : j = li
    · subst hji; exact hWFli
    · have hj_lt : j < h.lists.length := by rw [hListsLen] at hj; exact hj
      refine listWFat_frame (hWF.2 j hj_lt) (hLists j hji) ?_ ?_ ?_
      · intro x n hx hnl
        exact huz_core j hji x (Or.inl (by simp [lstOf, hx, hnl]))
      · intro lrj hlrj
        obtain ⟨rnj0, hrnj0, hrlj0, _⟩ := listWFat_cases (hWF.2 j hj_lt) hlrj
        have hrootj_lst : lstOf h lrj.root = some none := by
          simp [lstOf, hrnj0, hrlj0]
        have hrootsne : lrj.root ≠ lr.root :=
          hWF.1 j hj_lt li hli_lt hji lrj lr hlrj hlr
        exact huz_core j hji lrj.root (Or.inr ⟨hrootj_lst, hrootsne⟩)
      · intro hnm
        rw [noMembers_iff] at hnm ⊢
        intro x n2 hx2
        intro hcon
        rcases Nat.lt_or_ge x h.nodes.length with hlt | hge
        · rcases hlst2 x n2 hlt hx2 j hcon with rfl | ⟨n0, hn0, hn0l⟩
          · exact hji rfl
          · exact hnm x n0 hn0 hn0l
        · rcases hnewlst x n2 hge hx2 with hh | hh
          · rw [hcon] at hh; exact (by simp at hh : False)
          · rw [hcon] at hh
            exact hji (Option.some.inj hh)

set_option maxHeartbeats 2000000 in
/-- Specification of Remove on a member of a well-formed ring: the neighbours
are spliced together, the three pointer fields of the node are cleared, the
size drops by one, and the stored value is returned; everything else framed. -/
theorem Remove_member_spec {h : Heap T} {li : Nat} {lr : LRec}
    {ms m1 m2 : List Nat} {e : Nat} {rn : Node T}
    (hWF : WF h)
    (hlr : listAt h li = some lr)
    (hrn : nodeAt h lr.root = some rn) (hrl : rn.list = none)
    (hr : ringAt h li lr ms)
    (hm : ms = m1 ++ e :: m2) :
    ∃ h2 en, nodeAt h e = some en ∧
      Remove h li (some e) = some (h2, en.value) ∧
      listAt h2 li = some ⟨lr.root, lr.size - 1⟩ ∧
      (∀ j, j ≠ li → listAt h2 j = listAt h j) ∧
      h2.lists.length = h.lists.length ∧
      h2.nodes.length = h.nodes.length ∧
      ringAt h2 li ⟨lr.root, lr.size - 1⟩ (m1 ++ m2) ∧
      lstOf h2 lr.root = some none ∧
      nodeAt h2 e = some ⟨none, none, none, en.value⟩ ∧
      (∀ x, valOf h2 x = valOf h x) ∧
      (∀ x, x ≠ e → lstOf h2 x = lstOf h x) ∧
      (∀ j lrj msj, j ≠ li → listAt h j = some lrj → ringAt h j lrj msj →
        ringAt h2 j lrj msj) ∧
      WF h2 := by
  obtain ⟨hc, hnd, hsz, hmm⟩ := hr
  have hli_lt : li < h.lists.length := listAt_lt_length hlr
  have he_mem : e ∈ ms := by
    rw [hm]; exact List.mem_append.mpr (Or.inr (List.mem_cons_self e m2))
  have hcassoc : chainL h lr.root (m1 ++ e :: (m2 ++ [lr.root])) := by
    rw [hm] at hc
    have hshape : (m1 ++ e :: m2) ++ [lr.root] = m1 ++ e :: (m2 ++ [lr.root]) := by
      simp
    rw [hshape] at hc
    exact hc
  obtain ⟨hc1, hcm⟩ :=
    (chainL_append h lr.root m1 (e :: (m2 ++ [lr.root]))).mp hcassoc
  have hpred_next : nextOf h (lastOf lr.root m1) = some (some e) := hcm.1.1
  have he_prev : prevOf h e = some (some (lastOf lr.root m1)) := hcm.1.2
  have he_next : nextOf h e = some (some (hdOf lr.root m2)) :=
    chainL_next_hd hcm.2
  obtain ⟨en, hen, henn⟩ := nodeAt_of_nextOf he_next
  have henp : en.prev = some (lastOf lr.root m1) := by
    unfold prevOf at he_prev
    rw [hen] at he_prev
    simpa using he_prev
  have he_lst : lstOf h e = some (some li) := hmm e he_mem
  have henl : en.list = some li := by
    unfold lstOf at he_lst
    rw [hen] at he_lst
    simpa using he_lst
  have hroot_nin : lr.root ∉ ms := (List.nodup_cons.mp hnd).1
  have he_ne_root : e ≠ lr.root := ne_of_mem_of_not_mem he_mem hroot_nin
  have hmsnd : ms.Nodup := (List.nodup_cons.mp hnd).2
  have hmid : (e :: (m1 ++ m2)).Nodup := by
    rw [hm] at hmsnd
    exact List.nodup_middle.mp hmsnd
  have he_nin12 : e ∉ m1 ++ m2 := (List.nodup_cons.mp hmid).1
  have hnd12 : (m1 ++ m2).Nodup := (List.nodup_cons.mp hmid).2
  have hmark_mem1 : lastOf lr.root m1 ∈ lr.root :: m1 := lastOf_mem lr.root m1
  have he_ne_pred : e ≠ lastOf lr.root m1 := by
    rcases List.mem_cons.mp hmark_mem1 with hh | hh
    · rw [hh]; exact he_ne_root
    · exact fun hcon => he_nin12 (hcon ▸ List.mem_append.mpr (Or.inl hh))
  have he_ne_s : e ≠ hdOf lr.root m2 := by
    rcases List.mem_cons.mp (hdOf_mem lr.root m2) with hh | hh
    · rw [hh]; exact he_ne_root
    · exact fun hcon => he_nin12 (hcon ▸ List.mem_append.mpr (Or.inr hh))
  have hmexist : ∀ z ∈ ms, ∃ n, nodeAt h z = some n := fun z hz =>
    chainL_mem_nodeAt hc z (List.mem_append.mpr (Or.inl hz))
  have hcycleex : ∀ z ∈ lr.root :: ms, ∃ n, nodeAt h z = some n := by
    intro z hz
    rcases List.mem_cons.mp hz with rfl | hz2
    · exact ⟨rn, hrn⟩
    · exact hmexist z hz2
  have hmark_mem : lastOf lr.root m1 ∈ lr.root :: ms := by
    rcases List.mem_cons.mp hmark_mem1 with hh | hh
    · rw [hh]; exact List.mem_cons_self _ _
    · exact List.mem_cons.mpr (Or.inr (by
        rw [hm]; exact List.mem_append.mpr (Or.inl hh)))
  have hs_mem : hdOf lr.root m2 ∈ lr.root :: ms := by
    rcases List.mem_cons.mp (hdOf_mem lr.root m2) with hh | hh
    · rw [hh]; exact List.mem_cons_self _ _
    · exact List.mem_cons.mpr (Or.inr (by
        rw [hm]
        exact List.mem_append.mpr (Or.inr (List.mem_cons.mpr (Or.inr hh)))))
  have hmark_lst : lastOf lr.root m1 = lr.root ∨
      lstOf h (lastOf lr.root m1) = some (some li) := by
    rcases List.mem_cons.mp hmark_mem1 with hh | hh
    · exact Or.inl hh
    · exact Or.inr (hmm _ (by rw [hm]; exact List.mem_append.mpr (Or.inl hh)))
  have hs_lst : hdOf lr.root m2 = lr.root ∨
      lstOf h (hdOf lr.root m2) = some (some li) := by
    rcases List.mem_cons.mp (hdOf_mem lr.root m2) with hh | hh
    · exact Or.inl hh
    · exact Or.inr (hmm _ (by
        rw [hm]
        exact List.mem_append.mpr (Or.inr (List.mem_cons.mpr (Or.inr hh)))))
  have hrootlst : lstOf h lr.root = some none := by
    simp [lstOf, hrn, hrl]
  obtain ⟨sn, hsn⟩ := hcycleex _ hs_mem
  obtain ⟨pn, hpn⟩ := hcycleex _ hmark_mem
  have henA' : nodeAt (setNext h (lastOf lr.root m1)
      (some (hdOf lr.root m2))) e = some en := by
    rw [nodeAt_setNext, if_neg he_ne_pred, hen]
  have henF : nodeAt (addSize (setLst (setNext (setPrev (setPrev
      (setNext h (lastOf lr.root m1) (some (hdOf lr.root m2)))
      (hdOf lr.root m2) (some (lastOf lr.root m1)))
      e none) e none) e none) li (-1)) e =
      some ⟨none, none, none, en.value⟩ := by
    rw [addSize, nodeAt_modifyL, nodeAt_setLst, if_pos rfl, nodeAt_setNext,
      if_pos rfl, nodeAt_setPrev, if_pos rfl, nodeAt_setPrev, if_neg he_ne_s,
      henA']
    rfl
  have hstep : Remove h li (some e) = some
      (addSize (setLst (setNext (setPrev (setPrev
        (setNext h (lastOf lr.root m1) (some (hdOf lr.root m2)))
        (hdOf lr.root m2) (some (lastOf lr.root m1)))
        e none) e none) e none) li (-1), en.value) := by
    unfold Remove
    simp [hen, henl, henp, henn, henA', henF]
  set hA := setNext h (lastOf lr.root m1) (some (hdOf lr.root m2)) with hA_def
  set hB := setPrev hA (hdOf lr.root m2) (some (lastOf lr.root m1)) with hB_def
  set hC := setPrev hB e none with hC_def
  set hD := setNext hC e none with hD_def
  set hE := setLst hD e none with hE_def
  set h2 := addSize hE li (-1) with h2_def
  have hsnA : ∃ n, nodeAt hA (hdOf lr.root m2) = some n := by
    rw [hA_def, nodeAt_setNext]
    by_cases hsp : hdOf lr.root m2 = lastOf lr.root m1
    · rw [if_pos hsp, hpn]
      exact ⟨_, rfl⟩
    · rw [if_neg hsp, hsn]
      exact ⟨_, rfl⟩
  have hNp : nextOf h2 (lastOf lr.root m1) = some (some (hdOf lr.root m2)) := by
    rw [h2_def, addSize, nextOf_modifyL, hE_def, nextOf_setLst, hD_def,
      nextOf_setNext, if_neg (Ne.symm he_ne_pred), hC_def, nextOf_setPrev,
      hB_def, nextOf_setPrev, hA_def, nextOf_setNext, if_pos rfl, hpn]
    simp
  have hPs : prevOf h2 (hdOf lr.root m2) = some (some (lastOf lr.root m1)) := by
    obtain ⟨sa, hsa⟩ := hsnA
    rw [h2_def, addSize, prevOf_modifyL, hE_def, prevOf_setLst, hD_def,
      prevOf_setNext, hC_def, prevOf_setPrev, if_neg (Ne.symm he_ne_s),
      hB_def, prevOf_setPrev, if_pos rfl, hsa]
    simp
  have hNo : ∀ z, z ≠ lastOf lr.root m1 → z ≠ e → nextOf h2 z = nextOf h z := by
    intro z h1 h3
    rw [h2_def, addSize, nextOf_modifyL, hE_def, nextOf_setLst, hD_def,
      nextOf_setNext, if_neg h3, hC_def, nextOf_setPrev, hB_def,
      nextOf_setPrev, hA_def, nextOf_setNext, if_neg h1]
  have hPo : ∀ z, z ≠ hdOf lr.root m2 → z ≠ e → prevOf h2 z = prevOf h z := by
    intro z h1 h3
    rw [h2_def, addSize, prevOf_modifyL, hE_def, prevOf_setLst, hD_def,
      prevOf_setNext, hC_def, prevOf_setPrev, if_neg h3, hB_def,
      prevOf_setPrev, if_neg h1, hA_def, prevOf_setNext]
  have hLst : ∀ z, z ≠ e → lstOf h2 z = lstOf h z := by
    intro z h3
    rw [h2_def, addSize, lstOf_modifyL, hE_def, lstOf_setLst, if_neg h3,
      hD_def, lstOf_setNext, hC_def, lstOf_setPrev, hB_def, lstOf_setPrev,
      hA_def, lstOf_setNext]
  have hVal : ∀ z, valOf h2 z = valOf h z := by
    intro z
    rw [h2_def, addSize, valOf_modifyL, hE_def, valOf_setLst, hD_def,
      valOf_setNext, hC_def, valOf_setPrev, hB_def, valOf_setPrev,
      hA_def, valOf_setNext]
  have henFin : nodeAt h2 e = some ⟨none, none, none, en.value⟩ := henF
  have hLste : lstOf h2 e = some none := by
    unfold lstOf
    rw [henFin]
    rfl
  have huntouch : ∀ z, z ≠ lastOf lr.root m1 → z ≠ hdOf lr.root m2 → z ≠ e →
      nodeAt h2 z = nodeAt h z := by
    intro z h1 h2x h3
    rw [h2_def, addSize, nodeAt_modifyL, hE_def, nodeAt_setLst, if_neg h3,
      hD_def, nodeAt_setNext, if_neg h3, hC_def, nodeAt_setPrev, if_neg h3,
      hB_def, nodeAt_setPrev, if_neg h2x, hA_def, nodeAt_setNext, if_neg h1]
  have hLists : ∀ j, j ≠ li → listAt h2 j = listAt h j := by
    intro j hj
    rw [h2_def, addSize, listAt_modifyL, if_neg hj, hE_def, listAt_setLst,
      hD_def, listAt_setNext, hC_def, listAt_setPrev, hB_def, listAt_setPrev,
      hA_def, listAt_setNext]
  have hListli : listAt h2 li = some ⟨lr.root, lr.size - 1⟩ := by
    rw [h2_def, addSize, listAt_modifyL, if_pos rfl, hE_def, listAt_setLst,
      hD_def, listAt_setNext, hC_def, listAt_setPrev, hB_def, listAt_setPrev,
      hA_def, listAt_setNext, hlr]
    simp [Int.sub_eq_add_neg]
  have hListsLen : h2.lists.length = h.lists.length := by
    rw [h2_def, addSize, lists_length_modifyL, hE_def, lists_setLst, hD_def,
      lists_setNext, hC_def, lists_setPrev, hB_def, lists_setPrev, hA_def,
      lists_setNext]
  have hNodesLen : h2.nodes.length = h.nodes.length := by
    rw [h2_def, addSize, nodes_modifyL, hE_def, nodes_setLst, hD_def,
      nodes_setNext, hC_def, nodes_setPrev, hB_def, nodes_setPrev, hA_def,
      nodes_setNext]
  have hchain2 : chainL h2 lr.root (m1 ++ (m2 ++ [lr.root])) := by
    refine chain_remove hcassoc ?_ hNp hPs hNo hPo
    rw [← hm]; exact hnd
  have hring2 : ringAt h2 li ⟨lr.root, lr.size - 1⟩ (m1 ++ m2) := by
    refine ⟨?_, ?_, ?_, ?_⟩
    · show chainL h2 lr.root ((m1 ++ m2) ++ [lr.root])
      rw [List.append_assoc]
      exact hchain2
    · refine List.nodup_cons.mpr ⟨?_, hnd12⟩
      intro hh
      refine hroot_nin ?_
      rw [hm]
      rcases List.mem_append.mp hh with h4 | h4
      · exact List.mem_append.mpr (Or.inl h4)
      · exact List.mem_append.mpr (Or.inr (List.mem_cons.mpr (Or.inr h4)))
    · show lr.size - 1 = ((m1 ++ m2).length : Int)
      have h9 : lr.size = ((m1 ++ e :: m2).length : Int) := by rw [hsz, hm]
      rw [h9]
      simp only [List.length_append, List.length_cons]
      push_cast
      ring
    · intro x hx
      have hxe : x ≠ e := ne_of_mem_of_not_mem hx he_nin12
      rw [hLst x hxe]
      refine hmm x ?_
      rw [hm]
      rcases List.mem_append.mp hx with h4 | h4
      · exact List.mem_append.mpr (Or.inl h4)
      · exact List.mem_append.mpr (Or.inr (List.mem_cons.mpr (Or.inr h4)))
  have hli_listWF2 : listWFat h2 li := by
    have hroot_ne_e : lr.root ≠ e := Ne.symm he_ne_root
    have hl2 : lstOf h2 lr.root = some none := by
      rw [hLst _ hroot_ne_e]; exact hrootlst
    obtain ⟨rn2, hrn2, hrl2⟩ := nodeAt_of_lstOf hl2
    exact listWFat_intro_ring hListli hrn2 hrl2 hring2
  have hframe := WF_cycle_frame hWF hlr hLists
    (show (⟨lr.root, lr.size - 1⟩ : LRec).root = lr.root from rfl) hListsLen
    [lastOf lr.root m1, hdOf lr.root m2, e]
    (by
      intro w hw
      rcases List.mem_cons.mp hw with rfl | hw2
      · exact hmark_lst
      · rcases List.mem_cons.mp hw2 with rfl | hw3
        · exact hs_lst
        · rw [List.mem_singleton.mp hw3]
          exact Or.inr he_lst)
    (by
      intro z hz hzlt
      have h1 : z ≠ lastOf lr.root m1 := fun hh => hz (by rw [hh]; simp)
      have h2x : z ≠ hdOf lr.root m2 := fun hh => hz (by rw [hh]; simp)
      have h3 : z ≠ e := fun hh => hz (by rw [hh]; simp)
      exact huntouch z h1 h2x h3)
    (by
      intro x n2 hxlt hx2 j hcon
      by_cases hxe : x = e
      · subst hxe
        rw [henFin] at hx2
        rw [← Option.some.inj hx2] at hcon
        exact absurd hcon (by simp)
      · have hfr := hLst x hxe
        unfold lstOf at hfr
        rw [hx2] at hfr
        cases hxo : nodeAt h x with
        | none => rw [hxo] at hfr; exact absurd hfr (by simp)
        | some n0 =>
          rw [hxo] at hfr
          refine Or.inr ⟨n0, rfl, ?_⟩
          rw [← (by simpa using hfr : n2.list = n0.list), hcon]
      )
    (by
      intro x n2 hge hx2
      exfalso
      have := nodeAt_lt_length hx2
      rw [hNodesLen] at this
      omega)
    hli_listWF2 hListli
  exact ⟨h2, en, hen, hstep, hListli, hLists, hListsLen, hNodesLen, hring2,
    (by rw [hLst _ (Ne.symm he_ne_root)]; exact hrootlst), henFin, hVal, hLst,
    hframe.1, hframe.2⟩

theorem exists_nodeAt_setNext {h : Heap T} {b z : Nat} {r : Option Nat}
    (hz : ∃ n, nodeAt h z = some n) : ∃ n, nodeAt (setNext h b r) z = some n := by
  obtain ⟨n, hn⟩ := hz
  rw [nodeAt_setNext]
  by_cases hzb : z = b
  · subst hzb; rw [if_pos rfl, hn]; exact ⟨_, rfl⟩
  · rw [if_neg hzb, hn]; exact ⟨n, rfl⟩

theorem exists_nodeAt_setPrev {h : Heap T} {b z : Nat} {r : Option Nat}
    (hz : ∃ n, nodeAt h z = some n) : ∃ n, nodeAt (setPrev h b r) z = some n := by
  obtain ⟨n, hn⟩ := hz
  rw [nodeAt_setPrev]
  by_cases hzb : z = b
  · subst hzb; rw [if_pos rfl, hn]; exact ⟨_, rfl⟩
  · rw [if_neg hzb, hn]; exact ⟨n, rfl⟩

set_option maxHeartbeats 2000000 in
/-- Specification of moveAfter on a member e of a well-formed ring and a mark
on the cycle, mark distinct from e: e is unlinked and relinked right after
mark; the sizes, values and every other list are untouched. -/
theorem moveAfter_spec {h : Heap T} {li : Nat} {lr : LRec}
    {ms u1 u2 : List Nat} {e mrk : Nat} {rn : Node T}
    (hWF : WF h)
    (hlr : listAt h li = some lr)
    (hrn : nodeAt h lr.root = some rn) (hrl : rn.list = none)
    (hr : ringAt h li lr ms)
    (hm : ms = u1 ++ e :: u2)
    (hmrk_mem : mrk ∈ lr.root :: ms) (hne : mrk ≠ e) :
    ∃ h6 w1 w2, u1 ++ u2 = w1 ++ w2 ∧ mrk = lastOf lr.root w1 ∧
      moveAfter h e (some mrk) = some h6 ∧
      (∀ j, listAt h6 j = listAt h j) ∧
      h6.lists.length = h.lists.length ∧
      h6.nodes.length = h.nodes.length ∧
      ringAt h6 li lr (w1 ++ e :: w2) ∧
      (∀ x, lstOf h6 x = lstOf h x) ∧
      (∀ x, valOf h6 x = valOf h x) ∧
      (∀ j lrj msj, j ≠ li → listAt h j = some lrj → ringAt h j lrj msj →
        ringAt h6 j lrj msj) ∧
      WF h6 := by
  obtain ⟨hc, hnd, hsz, hmm⟩ := hr
  have hli_lt : li < h.lists.length := listAt_lt_length hlr
  have he_mem : e ∈ ms := by
    rw [hm]; exact List.mem_append.mpr (Or.inr (List.mem_cons_self e u2))
  have hcassoc : chainL h lr.root (u1 ++ e :: (u2 ++ [lr.root])) := by
    rw [hm] at hc
    have hshape : (u1 ++ e :: u2) ++ [lr.root] = u1 ++ e :: (u2 ++ [lr.root]) := by
      simp
    rw [hshape] at hc
    exact hc
  obtain ⟨hc1, hcm⟩ :=
    (chainL_append h lr.root u1 (e :: (u2 ++ [lr.root]))).mp hcassoc
  have hpred_next : nextOf h (lastOf lr.root u1) = some (some e) := hcm.1.1
  have he_prev : prevOf h e = some (some (lastOf lr.root u1)) := hcm.1.2
  have he_next : nextOf h e = some (some (hdOf lr.root u2)) :=
    chainL_next_hd hcm.2
  obtain ⟨en, hen, henn⟩ := nodeAt_of_nextOf he_next
  have henp : en.prev = some (lastOf lr.root u1) := by
    unfold prevOf at he_prev
    rw [hen] at he_prev
    simpa using he_prev
  have he_lst : lstOf h e = some (some li) := hmm e he_mem
  have hroot_nin : lr.root ∉ ms := (List.nodup_cons.mp hnd).1
  have he_ne_root : e ≠ lr.root := ne_of_mem_of_not_mem he_mem hroot_nin
  have hmsnd : ms.Nodup := (List.nodup_cons.mp hnd).2
  have hmid : (e :: (u1 ++ u2)).Nodup := by
    rw [hm] at hmsnd
    exact List.nodup_middle.mp hmsnd
  have he_nin12 : e ∉ u1 ++ u2 := (List.nodup_cons.mp hmid).1
  have hnd12 : (u1 ++ u2).Nodup := (List.nodup_cons.mp hmid).2
  have hndshort : (lr.root :: (u1 ++ u2)).Nodup := by
    refine List.nodup_cons.mpr ⟨?_, hnd12⟩
    intro hh
    refine hroot_nin ?_
    rw [hm]
    rcases List.mem_append.mp hh with h4 | h4
    · exact List.mem_append.mpr (Or.inl h4)
    · exact List.mem_append.mpr (Or.inr (List.mem_cons.mpr (Or.inr h4)))
  have hmark_mem1 : lastOf lr.root u1 ∈ lr.root :: u1 := lastOf_mem lr.root u1
  have he_ne_pred : e ≠ lastOf lr.root u1 := by
    rcases List.mem_cons.mp hmark_mem1 with hh | hh
    · rw [hh]; exact he_ne_root
    · exact fun hcon => he_nin12 (hcon ▸ List.mem_append.mpr (Or.inl hh))
  have he_ne_s : e ≠ hdOf lr.root u2 := by
    rcases List.mem_cons.mp (hdOf_mem lr.root u2) with hh | hh
    · rw [hh]; exact he_ne_root
    · exact fun hcon => he_nin12 (hcon ▸ List.mem_append.mpr (Or.inr hh))
  have hmexist : ∀ z ∈ ms, ∃ n, nodeAt h z = some n := fun z hz =>
    chainL_mem_nodeAt hc z (List.mem_append.mpr (Or.inl hz))
  have hcycleex : ∀ z ∈ lr.root :: ms, ∃ n, nodeAt h z = some n := by
    intro z hz
    rcases List.mem_cons.mp hz with rfl | hz2
    · exact ⟨rn, hrn⟩
    · exact hmexist z hz2
  have hcyclst : ∀ z ∈ lr.root :: ms,
      z = lr.root ∨ lstOf h z = some (some li) := by
    intro z hz
    rcases List.mem_cons.mp hz with rfl | hz2
    · exact Or.inl rfl
    · exact Or.inr (hmm z hz2)
  -- the mark lies on the shortened cycle
  have hmrk_short : mrk ∈ lr.root :: (u1 ++ u2) := by
    rcases List.mem_cons.mp hmrk_mem with hh | hh
    · rw [hh]; exact List.mem_cons_self _ _
    · rw [hm] at hh
      rcases List.mem_append.mp hh with h4 | h4
      · exact List.mem_cons.mpr (Or.inr (List.mem_append.mpr (Or.inl h4)))
      · rcases List.mem_cons.mp h4 with h5 | h5
        · exact absurd h5 hne
        · exact List.mem_cons.mpr (Or.inr (List.mem_append.mpr (Or.inr h5)))
  obtain ⟨w1, w2, hw, hmrk⟩ := mem_decomp hmrk_short
  -- the unlink phase
  set hA := setNext h (lastOf lr.root u1) (some (hdOf lr.root u2)) with hA_def
  set hB := setPrev hA (hdOf lr.root u2) (some (lastOf lr.root u1)) with hB_def
  have henA : nodeAt hA e = some en := by
    rw [hA_def, nodeAt_setNext, if_neg he_ne_pred, hen]
  have henB : nodeAt hB e = some en := by
    rw [hB_def, nodeAt_setPrev, if_neg he_ne_s, henA]
  obtain ⟨pn, hpn⟩ := hcycleex _ (by
    rcases List.mem_cons.mp hmark_mem1 with hh | hh
    · rw [hh]; exact List.mem_cons_self _ _
    · exact List.mem_cons.mpr (Or.inr (by
        rw [hm]; exact List.mem_append.mpr (Or.inl hh))) :
    lastOf lr.root u1 ∈ lr.root :: ms)
  have hsex : ∃ n, nodeAt h (hdOf lr.root u2) = some n := hcycleex _ (by
    rcases List.mem_cons.mp (hdOf_mem lr.root u2) with hh | hh
    · rw [hh]; exact List.mem_cons_self _ _
    · exact List.mem_cons.mpr (Or.inr (by
        rw [hm]
        exact List.mem_append.mpr (Or.inr (List.mem_cons.mpr (Or.inr hh))))))
  have hNpB : nextOf hB (lastOf lr.root u1) = some (some (hdOf lr.root u2)) := by
    rw [hB_def, nextOf_setPrev, hA_def, nextOf_setNext, if_pos rfl, hpn]
    simp
  have hPsB : prevOf hB (hdOf lr.root u2) = some (some (lastOf lr.root u1)) := by
    rw [hB_def, prevOf_setPrev, if_pos rfl, hA_def, nodeAt_setNext]
    by_cases hsp : hdOf lr.root u2 = lastOf lr.root u1
    · rw [if_pos hsp, hpn]
      simp
    · rw [if_neg hsp]
      obtain ⟨sn0, hsn0⟩ := hsex
      rw [hsn0]
      simp
  have hNoB : ∀ z, z ≠ lastOf lr.root u1 → z ≠ e → nextOf hB z = nextOf h z := by
    intro z h1 h3
    rw [hB_def, nextOf_setPrev, hA_def, nextOf_setNext, if_neg h1]
  have hPoB : ∀ z, z ≠ hdOf lr.root u2 → z ≠ e → prevOf hB z = prevOf h z := by
    intro z h1 h3
    rw [hB_def, prevOf_setPrev, if_neg h1, hA_def, prevOf_setNext]
  have hchainB : chainL hB lr.root (u1 ++ (u2 ++ [lr.root])) := by
    refine chain_remove hcassoc ?_ hNpB hPsB hNoB hPoB
    rw [← hm]; exact hnd
  have hchainBw : chainL hB lr.root (w1 ++ (w2 ++ [lr.root])) := by
    have : u1 ++ (u2 ++ [lr.root]) = (u1 ++ u2) ++ [lr.root] := by simp
    rw [this, hw] at hchainB
    have h2 : (w1 ++ w2) ++ [lr.root] = w1 ++ (w2 ++ [lr.root]) := by simp
    rw [h2] at hchainB
    exact hchainB
  -- the target of the relink
  have hmrk_nextB : nextOf hB mrk = some (some (hdOf lr.root w2)) := by
    rw [hmrk]
    exact chainL_next_hd
      ((chainL_append hB lr.root w1 (w2 ++ [lr.root])).mp hchainBw).2
  -- the relink phase
  set hC := setPrev hB e (some mrk) with hC_def
  set hD := setNext hC e (some (hdOf lr.root w2)) with hD_def
  set hE := setPrev hD (hdOf lr.root w2) (some e) with hE_def
  set h6 := setNext hE mrk (some e) with h6_def
  have hmrk_nextC : nextOf hC mrk = some (some (hdOf lr.root w2)) := by
    rw [hC_def, nextOf_setPrev]
    exact hmrk_nextB
  obtain ⟨mk3, hmk3, hmk3n⟩ := nodeAt_of_nextOf hmrk_nextC
  have hmk3D : nodeAt hD mrk = some mk3 := by
    rw [hD_def, nodeAt_setNext, if_neg hne, hmk3]
  have hstep : moveAfter h e (some mrk) = some h6 := by
    have hrawA : nodeAt (setNext h (lastOf lr.root u1)
        (some (hdOf lr.root u2))) e = some en := by
      rw [nodeAt_setNext, if_neg he_ne_pred, hen]
    have hrawC := hmk3
    rw [hC_def, hB_def, hA_def] at hrawC
    have hrawD := hmk3D
    rw [hD_def, hC_def, hB_def, hA_def] at hrawD
    rw [h6_def, hE_def, hD_def, hC_def, hB_def, hA_def]
    unfold moveAfter
    rw [if_neg (show ¬((some mrk : Option Nat) = some e) from
      fun hh => hne (Option.some.inj hh))]
    simp [hen, henp, henn, hrawA, hrawC, hrawD, hmk3n]
  -- facts about the relink target and e on the shortened cycle
  have hw_sub : ∀ x, x ∈ w1 ++ w2 → x ∈ ms := by
    intro x hx
    rw [← hw] at hx
    rw [hm]
    rcases List.mem_append.mp hx with h4 | h4
    · exact List.mem_append.mpr (Or.inl h4)
    · exact List.mem_append.mpr (Or.inr (List.mem_cons.mpr (Or.inr h4)))
  have he_nin_w : e ∉ lr.root :: (w1 ++ w2) := by
    intro hh
    rcases List.mem_cons.mp hh with h4 | h4
    · exact he_ne_root h4
    · rw [← hw] at h4
      exact he_nin12 h4
  have ht_mem_w : hdOf lr.root w2 ∈ lr.root :: (w1 ++ w2) := by
    rcases List.mem_cons.mp (hdOf_mem lr.root w2) with hh | hh
    · rw [hh]; exact List.mem_cons_self _ _
    · exact List.mem_cons.mpr (Or.inr (List.mem_append.mpr (Or.inr hh)))
  have he_ne_t : e ≠ hdOf lr.root w2 := fun hh => he_nin_w (hh ▸ ht_mem_w)
  have ht_memC : hdOf lr.root w2 ∈ lr.root :: ms := by
    rcases List.mem_cons.mp ht_mem_w with hh | hh
    · rw [hh]; exact List.mem_cons_self _ _
    · exact List.mem_cons.mpr (Or.inr (hw_sub _ hh))
  have htex : ∃ n, nodeAt h (hdOf lr.root w2) = some n := hcycleex _ ht_memC
  have henC : nodeAt hC e = some { en with prev := some mrk } := by
    rw [hC_def, nodeAt_setPrev, if_pos rfl, henB]
    rfl
  -- projections of the final heap against the unlinked heap
  have hNa6 : nextOf h6 e = some (some (hdOf lr.root w2)) := by
    rw [h6_def, nextOf_setNext, if_neg (Ne.symm hne), hE_def, nextOf_setPrev,
      hD_def, nextOf_setNext, if_pos rfl, henC]
    rfl
  have hPa6 : prevOf h6 e = some (some mrk) := by
    rw [h6_def, prevOf_setNext, hE_def, prevOf_setPrev, if_neg he_ne_t,
      hD_def, prevOf_setNext, hC_def, prevOf_setPrev, if_pos rfl, henB]
    rfl
  have hNm6 : nextOf h6 mrk = some (some e) := by
    obtain ⟨mk4, hmk4⟩ := exists_nodeAt_setPrev (b := hdOf lr.root w2)
      (r := some e) ⟨mk3, hmk3D⟩
    rw [h6_def, nextOf_setNext, if_pos rfl]
    rw [← hE_def] at hmk4
    rw [hmk4]
    rfl
  have hPs6 : prevOf h6 (hdOf lr.root w2) = some (some e) := by
    have htD : ∃ n, nodeAt hD (hdOf lr.root w2) = some n := by
      rw [hD_def, hC_def, hB_def, hA_def]
      exact exists_nodeAt_setNext (exists_nodeAt_setPrev
        (exists_nodeAt_setPrev (exists_nodeAt_setNext htex)))
    obtain ⟨tn, htn⟩ := htD
    rw [h6_def, prevOf_setNext, hE_def, prevOf_setPrev, if_pos rfl, htn]
    rfl
  have hNo6 : ∀ z, z ≠ mrk → z ≠ e → nextOf h6 z = nextOf hB z := by
    intro z h1 h3
    rw [h6_def, nextOf_setNext, if_neg h1, hE_def, nextOf_setPrev, hD_def,
      nextOf_setNext, if_neg h3, hC_def, nextOf_setPrev]
  have hPo6 : ∀ z, z ≠ hdOf lr.root w2 → z ≠ e → prevOf h6 z = prevOf hB z := by
    intro z h1 h3
    rw [h6_def, prevOf_setNext, hE_def, prevOf_setPrev, if_neg h1, hD_def,
      prevOf_setNext, hC_def, prevOf_setPrev, if_neg h3]
  have hchain6 : chainL h6 lr.root (w1 ++ e :: (w2 ++ [lr.root])) := by
    refine chain_insert hchainBw ?_ ?_ hNa6 ?_ ?_ hPs6 ?_ hPo6
    · rw [← hw]; exact hndshort
    · exact he_nin_w
    · rw [← hmrk]; exact hPa6
    · rw [← hmrk]; exact hNm6
    · intro z h1 h3
      refine hNo6 z ?_ h3
      rw [hmrk]; exact h1
  -- global frames against the original heap
  have hLst6 : ∀ x, lstOf h6 x = lstOf h x := by
    intro x
    rw [h6_def, lstOf_setNext, hE_def, lstOf_setPrev, hD_def, lstOf_setNext,
      hC_def, lstOf_setPrev, hB_def, lstOf_setPrev, hA_def, lstOf_setNext]
  have hVal6 : ∀ x, valOf h6 x = valOf h x := by
    intro x
    rw [h6_def, valOf_setNext, hE_def, valOf_setPrev, hD_def, valOf_setNext,
      hC_def, valOf_setPrev, hB_def, valOf_setPrev, hA_def, valOf_setNext]
  have hLists6 : ∀ j, listAt h6 j = listAt h j := by
    intro j
    rw [h6_def, listAt_setNext, hE_def, listAt_setPrev, hD_def, listAt_setNext,
      hC_def, listAt_setPrev, hB_def, listAt_setPrev, hA_def, listAt_setNext]
  have hListsLen6 : h6.lists.length = h.lists.length := by
    rw [h6_def, lists_setNext, hE_def, lists_setPrev, hD_def, lists_setNext,
      hC_def, lists_setPrev, hB_def, lists_setPrev, hA_def, lists_setNext]
  have hNodesLen6 : h6.nodes.length = h.nodes.length := by
    rw [h6_def, nodes_setNext, hE_def, nodes_setPrev, hD_def, nodes_setNext,
      hC_def, nodes_setPrev, hB_def, nodes_setPrev, hA_def, nodes_setNext]
  have huntouch6 : ∀ z, z ≠ lastOf lr.root u1 → z ≠ hdOf lr.root u2 →
      z ≠ e → z ≠ mrk → z ≠ hdOf lr.root w2 → nodeAt h6 z = nodeAt h z := by
    intro z z1 z2 z3 z4 z5
    rw [h6_def, nodeAt_setNext, if_neg z4, hE_def, nodeAt_setPrev, if_neg z5,
      hD_def, nodeAt_setNext, if_neg z3, hC_def, nodeAt_setPrev, if_neg z3,
      hB_def, nodeAt_setPrev, if_neg z2, hA_def, nodeAt_setNext, if_neg z1]
  have hring6 : ringAt h6 li lr (w1 ++ e :: w2) := by
    refine ⟨?_, ?_, ?_, ?_⟩
    · show chainL h6 lr.root ((w1 ++ e :: w2) ++ [lr.root])
      have hshape : (w1 ++ e :: w2) ++ [lr.root] =
          w1 ++ e :: (w2 ++ [lr.root]) := by simp
      rw [hshape]
      exact hchain6
    · show (lr.root :: (w1 ++ e :: w2)).Nodup
      have hshape : lr.root :: (w1 ++ e :: w2) =
          (lr.root :: w1) ++ e :: w2 := by simp
      rw [hshape, List.nodup_middle]
      refine List.nodup_cons.mpr ⟨?_, ?_⟩
      · intro hh
        refine he_nin_w ?_
        rcases List.mem_append.mp hh with h4 | h4
        · rcases List.mem_cons.mp h4 with h5 | h5
          · rw [h5]; exact List.mem_cons_self _ _
          · exact List.mem_cons.mpr (Or.inr (List.mem_append.mpr (Or.inl h5)))
        · exact List.mem_cons.mpr (Or.inr (List.mem_append.mpr (Or.inr h4)))
      · have hshape2 : (lr.root :: w1) ++ w2 = lr.root :: (w1 ++ w2) := by simp
        rw [hshape2, ← hw]
        exact hndshort
    · show lr.size = ((w1 ++ e :: w2).length : Int)
      have h9 : (u1 ++ u2).length = (w1 ++ w2).length := by rw [hw]
      rw [hsz, hm]
      simp only [List.length_append, List.length_cons]
      simp only [List.length_append] at h9
      push_cast
      omega
    · intro x hx
      rw [hLst6 x]
      rcases List.mem_append.mp hx with h4 | h4
      · exact hmm x (hw_sub x (List.mem_append.mpr (Or.inl h4)))
      · rcases List.mem_cons.mp h4 with h5 | h5
        · rw [h5]; exact he_lst
        · exact hmm x (hw_sub x (List.mem_append.mpr (Or.inr h5)))
  have hli_listWF6 : listWFat h6 li := by
    have hl2 : lstOf h6 lr.root = some none := by
      rw [hLst6]
      simp [lstOf, hrn, hrl]
    obtain ⟨rn2, hrn2, hrl2⟩ := nodeAt_of_lstOf hl2
    exact listWFat_intro_ring ((hLists6 li).trans hlr) hrn2 hrl2 hring6
  have hframe := WF_cycle_frame hWF hlr (fun j _ => hLists6 j)
    (show lr.root = lr.root from rfl) hListsLen6
    [lastOf lr.root u1, hdOf lr.root u2, e, mrk, hdOf lr.root w2]
    (by
      intro w hwmem
      have hconv : ∀ y, y ∈ lr.root :: ms →
          y = lr.root ∨ lstOf h y = some (some li) := hcyclst
      rcases List.mem_cons.mp hwmem with rfl | hw2
      · exact hconv _ (by
          rcases List.mem_cons.mp hmark_mem1 with hh | hh
          · rw [hh]; exact List.mem_cons_self _ _
          · exact List.mem_cons.mpr (Or.inr (by
              rw [hm]; exact List.mem_append.mpr (Or.inl hh))))
      · rcases List.mem_cons.mp hw2 with rfl | hw3
        · exact hconv _ (by
            rcases List.mem_cons.mp (hdOf_mem lr.root u2) with hh | hh
            · rw [hh]; exact List.mem_cons_self _ _
            · exact List.mem_cons.mpr (Or.inr (by
                rw [hm]
                exact List.mem_append.mpr (Or.inr (List.mem_cons.mpr (Or.inr hh))))))
        · rcases List.mem_cons.mp hw3 with rfl | hw4
          · exact Or.inr he_lst
          · rcases List.mem_cons.mp hw4 with rfl | hw5
            · exact hconv _ hmrk_mem
            · rw [List.mem_singleton.mp hw5]
              exact hconv _ ht_memC)
    (by
      intro z hz hzlt
      have z1 : z ≠ lastOf lr.root u1 := fun hh => hz (by rw [hh]; simp)
      have z2 : z ≠ hdOf lr.root u2 := fun hh => hz (by rw [hh]; simp)
      have z3 : z ≠ e := fun hh => hz (by rw [hh]; simp)
      have z4 : z ≠ mrk := fun hh => hz (by rw [hh]; simp)
      have z5 : z ≠ hdOf lr.root w2 := fun hh => hz (by rw [hh]; simp)
      exact huntouch6 z z1 z2 z3 z4 z5)
    (by
      intro x n2 hxlt hx2 j hcon
      have hfr := hLst6 x
      unfold lstOf at hfr
      rw [hx2] at hfr
      cases hxo : nodeAt h x with
      | none => rw [hxo] at hfr; exact absurd hfr (by simp)
      | some n0 =>
        rw [hxo] at hfr
        refine Or.inr ⟨n0, rfl, ?_⟩
        rw [← (by simpa using hfr : n2.list = n0.list), hcon])
    (by
      intro x n2 hge hx2
      exfalso
      have := nodeAt_lt_length hx2
      rw [hNodesLen6] at this
      omega)
    hli_listWF6 ((hLists6 li).trans hlr)
  exact ⟨h6, w1, w2, hw, hmrk, hstep, hLists6, hListsLen6, hNodesLen6, hring6,
    hLst6, hVal6, hframe.1, hframe.2⟩

/-- Successor of a member inside a well-formed ring. -/
theorem ring_succ {h : Heap T} {li : Nat} {lr : LRec} {p rest : List Nat}
    {c : Nat} (hr : ringAt h li lr (p ++ c :: rest)) :
    nextOf h c = some (some (hdOf lr.root rest)) := by
  obtain ⟨hc, _, _, _⟩ := hr
  have hshape : (p ++ c :: rest) ++ [lr.root] = p ++ (c :: (rest ++ [lr.root])) := by
    simp
  rw [hshape] at hc
  exact chainL_next_hd
    ((chainL_append h lr.root p (c :: (rest ++ [lr.root]))).mp hc).2.2

/-- Predecessor of a member inside a well-formed ring. -/
theorem ring_pred {h : Heap T} {li : Nat} {lr : LRec} {p rest : List Nat}
    {c : Nat} (hr : ringAt h li lr (p ++ c :: rest)) :
    prevOf h c = some (some (lastOf lr.root p)) := by
  obtain ⟨hc, _, _, _⟩ := hr
  have hshape : (p ++ c :: rest) ++ [lr.root] = p ++ (c :: (rest ++ [lr.root])) := by
    simp
  rw [hshape] at hc
  exact ((chainL_append h lr.root p (c :: (rest ++ [lr.root]))).mp hc).2.1.2

set_option maxHeartbeats 1000000 in
/-- Specification of Init on any allocated list: the sentinel links are reset
to self and the size to zero; nodes other than the sentinel are untouched. -/
theorem InitL_spec {h : Heap T} {li : Nat} {lr : LRec}
    (hWF : WF h) (hlr : listAt h li = some lr) :
    ∃ h2, InitL h li = some h2 ∧
      listAt h2 li = some ⟨lr.root, 0⟩ ∧
      (∀ j, j ≠ li → listAt h2 j = listAt h j) ∧
      h2.lists.length = h.lists.length ∧
      h2.nodes.length = h.nodes.length ∧
      ringAt h2 li ⟨lr.root, 0⟩ [] ∧
      (∀ x, lstOf h2 x = lstOf h x) ∧
      (∀ x, valOf h2 x = valOf h x) ∧
      (∀ x, x ≠ lr.root → nodeAt h2 x = nodeAt h x) ∧
      (∀ j lrj msj, j ≠ li → listAt h j = some lrj → ringAt h j lrj msj →
        ringAt h2 j lrj msj) ∧
      WF h2 := by
  have hli_lt : li < h.lists.length := listAt_lt_length hlr
  obtain ⟨rn, hrn, hrl, _⟩ := listWFat_cases (hWF.2 li hli_lt) hlr
  set hA := setPrev h lr.root (some lr.root) with hA_def
  set hB := setNext hA lr.root (some lr.root) with hB_def
  set h2 := setSize hB li 0 with h2_def
  have hstep : InitL h li = some h2 := by
    rw [h2_def, hB_def, hA_def]
    unfold InitL setSize
    simp [hlr]
  have hrnA : nodeAt hA lr.root = some { rn with prev := some lr.root } := by
    rw [hA_def, nodeAt_setPrev, if_pos rfl, hrn]
    rfl
  have hN2 : nextOf h2 lr.root = some (some lr.root) := by
    rw [h2_def, setSize, nextOf_modifyL, hB_def, nextOf_setNext, if_pos rfl,
      hrnA]
    rfl
  have hP2 : prevOf h2 lr.root = some (some lr.root) := by
    rw [h2_def, setSize, prevOf_modifyL, hB_def, prevOf_setNext, hA_def,
      prevOf_setPrev, if_pos rfl, hrn]
    rfl
  have hLst : ∀ x, lstOf h2 x = lstOf h x := by
    intro x
    rw [h2_def, setSize, lstOf_modifyL, hB_def, lstOf_setNext, hA_def,
      lstOf_setPrev]
  have hVal : ∀ x, valOf h2 x = valOf h x := by
    intro x
    rw [h2_def, setSize, valOf_modifyL, hB_def, valOf_setNext, hA_def,
      valOf_setPrev]
  have huntouch : ∀ x, x ≠ lr.root → nodeAt h2 x = nodeAt h x := by
    intro x hx
    rw [h2_def, setSize, nodeAt_modifyL, hB_def, nodeAt_setNext, if_neg hx,
      hA_def, nodeAt_setPrev, if_neg hx]
  have hLists : ∀ j, j ≠ li → listAt h2 j = listAt h j := by
    intro j hj
    rw [h2_def, setSize, listAt_modifyL, if_neg hj, hB_def, listAt_setNext,
      hA_def, listAt_setPrev]
  have hListli : listAt h2 li = some ⟨lr.root, 0⟩ := by
    rw [h2_def, setSize, listAt_modifyL, if_pos rfl, hB_def, listAt_setNext,
      hA_def, listAt_setPrev, hlr]
    rfl
  have hListsLen : h2.lists.length = h.lists.length := by
    rw [h2_def, setSize, lists_length_modifyL, hB_def, lists_setNext, hA_def,
      lists_setPrev]
  have hNodesLen : h2.nodes.length = h.nodes.length := by
    rw [h2_def, setSize, nodes_modifyL, hB_def, nodes_setNext, hA_def,
      nodes_setPrev]
  have hring2 : ringAt h2 li ⟨lr.root, 0⟩ [] := by
    refine ⟨⟨⟨hN2, hP2⟩, trivial⟩, by simp, by simp, by simp⟩
  have hli_listWF2 : listWFat h2 li := by
    have hl2 : lstOf h2 lr.root = some none := by
      rw [hLst]
      simp [lstOf, hrn, hrl]
    obtain ⟨rn2, hrn2, hrl2⟩ := nodeAt_of_lstOf hl2
    exact listWFat_intro_ring hListli hrn2 hrl2 hring2
  have hframe := WF_cycle_frame hWF hlr hLists
    (show (⟨lr.root, 0⟩ : LRec).root = lr.root from rfl) hListsLen
    [lr.root]
    (by
      intro w hw
      rw [List.mem_singleton.mp hw]
      exact Or.inl rfl)
    (by
      intro z hz hzlt
      exact huntouch z (fun hh => hz (by rw [hh]; simp)))
    (by
      intro x n2 hxlt hx2 j hcon
      by_cases hxr : x = lr.root
      · have hfr := hLst x
        unfold lstOf at hfr
        rw [hx2, hxr, hrn] at hfr
        have hnn : n2.list = rn.list := by simpa using hfr
        rw [hnn, hrl] at hcon
        exact absurd hcon (by simp)
      · rw [huntouch x hxr] at hx2
        exact Or.inr ⟨n2, hx2, hcon⟩)
    (by
      intro x n2 hge hx2
      exfalso
      have := nodeAt_lt_length hx2
      rw [hNodesLen] at this
      omega)
    hli_listWF2 hListli
  exact ⟨h2, hstep, hListli, hLists, hListsLen, hNodesLen, hring2, hLst, hVal,
    huntouch, hframe.1, hframe.2⟩

/-- The lazyInit of a list whose sentinel next link is set does nothing. -/
theorem lazyInit_inited {h : Heap T} {li : Nat} {lr : LRec} {rn : Node T}
    (hlr : listAt h li = some lr) (hrn : nodeAt h lr.root = some rn)
    (hnx : rn.next ≠ none) : lazyInit h li = some h := by
  unfold lazyInit
  simp [hlr, hrn, hnx]

/-- The lazyInit of a zero-value list is exactly Init. -/
theorem lazyInit_zero {h : Heap T} {li : Nat} {lr : LRec} {rn : Node T}
    (hlr : listAt h li = some lr) (hrn : nodeAt h lr.root = some rn)
    (hnx : rn.next = none) : lazyInit h li = InitL h li := by
  unfold lazyInit
  simp [hlr, hrn, hnx]

theorem ringAt_ext {h : Heap T} {li : Nat} {lr lr2 : LRec} {ms : List Nat}
    (hroot : lr2.root = lr.root) (hsize : lr2.size = lr.size)
    (hr : ringAt h li lr ms) : ringAt h li lr2 ms := by
  obtain ⟨r2, s2⟩ := lr2
  simp only at hroot hsize
  subst hroot
  subst hsize
  exact hr

theorem forall2_imp_of_mem {R S : Nat → Nat → Prop} :
    ∀ {l1 l2 : List Nat}, List.Forall₂ R l1 l2 →
      (∀ a b, a ∈ l1 → b ∈ l2 → R a b → S a b) → List.Forall₂ S l1 l2
  | _, _, List.Forall₂.nil, _ => List.Forall₂.nil
  | _, _, List.Forall₂.cons hab hrest, H =>
    List.Forall₂.cons (H _ _ (by simp) (by simp) hab)
      (forall2_imp_of_mem hrest (fun a b ha hb hr =>
        H a b (List.mem_cons.mpr (Or.inr ha)) (List.mem_cons.mpr (Or.inr hb)) hr))

theorem ring_mem_exists {h : Heap T} {li : Nat} {lr : LRec} {ms : List Nat}
    (hr : ringAt h li lr ms) : ∀ z ∈ ms, ∃ n, nodeAt h z = some n :=
  fun z hz => chainL_mem_nodeAt hr.1 z (List.mem_append.mpr (Or.inl hz))

set_option maxHeartbeats 4000000 in
/-- Invariant of the PushBackList loop: with fuel the length of the remaining
suffix of the source ring and e pointing at its head, the loop appends one
copy per suffix element at the back of li. In the self-append case the source
is the destination: the ring grows behind the iteration point, which walks
only the original part because the length was captured beforehand. -/
theorem pushBackLoop_spec :
    ∀ (suf : List Nat) (h : Heap T) (eR : Option Nat) (li other : Nat)
      (lrl lro : LRec) (msl pre tl : List Nat) (rn : Node T),
    WF h →
    listAt h li = some lrl → nodeAt h lrl.root = some rn → rn.list = none →
    ringAt h li lrl msl →
    listAt h other = some lro →
    ringAt h other lro (pre ++ suf ++ tl) →
    (li = other → lrl = lro ∧ msl = pre ++ suf ++ tl) →
    (∀ c s2, suf = c :: s2 → eR = some c) →
    ∃ h2 fresh, pushBackLoop h li eR suf.length = some h2 ∧
      fresh.length = suf.length ∧
      listAt h2 li = some ⟨lrl.root, lrl.size + (suf.length : Int)⟩ ∧
      (∀ j, j ≠ li → listAt h2 j = listAt h j) ∧
      h2.lists.length = h.lists.length ∧
      h.nodes.length ≤ h2.nodes.length ∧
      ringAt h2 li ⟨lrl.root, lrl.size + (suf.length : Int)⟩ (msl ++ fresh) ∧
      List.Forall₂ (fun a b => valOf h2 a = valOf h b) fresh suf ∧
      (∀ x, x < h.nodes.length → valOf h2 x = valOf h x) ∧
      (∀ x, x < h.nodes.length → lstOf h2 x = lstOf h x) ∧
      (∀ x, h.nodes.length ≤ x → x < h2.nodes.length →
        lstOf h2 x = some (some li)) ∧
      (li ≠ other → ringAt h2 other lro (pre ++ suf ++ tl)) ∧
      WF h2 := by
  intro suf
  induction suf with
  | nil =>
    intro h eR li other lrl lro msl pre tl rn hWF hlrl hrn hrl hringl hlro
      hringo hsame heR
    have hlr_eta : (⟨lrl.root, lrl.size + ((0 : Nat) : Int)⟩ : LRec) = lrl := by
      simp
    refine ⟨h, [], rfl, rfl, ?_, fun j _ => rfl, rfl, le_refl _, ?_,
      List.Forall₂.nil, fun x _ => rfl, fun x _ => rfl,
      fun x hx1 hx2 => absurd hx2 (by omega), fun _ => hringo, hWF⟩
    · rw [hlrl]
      rw [show (List.length ([] : List Nat) : Int) = ((0 : Nat) : Int) from rfl,
        hlr_eta]
    · rw [show (List.length ([] : List Nat) : Int) = ((0 : Nat) : Int) from rfl,
        hlr_eta, List.append_nil]
      exact hringl
  | cons c suf2 ih =>
    intro h eR li other lrl lro msl pre tl rn hWF hlrl hrn hrl hringl hlro
      hringo hsame heR
    have heRc : eR = some c := heR c suf2 rfl
    have hc_mem_o : c ∈ pre ++ (c :: suf2) ++ tl := by simp
    have hc_lst : lstOf h c = some (some other) := hringo.2.2.2 c hc_mem_o
    obtain ⟨en, hen, henl⟩ := nodeAt_of_lstOf hc_lst
    have hc_lt : c < h.nodes.length := nodeAt_lt_length hen
    have hrnprev : rn.prev = some (lastOf lrl.root msl) := by
      have hpr := ring_prev_root hringl.1
      unfold prevOf at hpr
      rw [hrn] at hpr
      simpa using hpr
    obtain ⟨h2, hins, hLi2, hLs2, hLL2, hNL2, hring2, hrootl2, hvala2,
      hvalfr2, hlstfr2, hOther2, hWF2⟩ :=
      insertVA_spec (v := en.value) hWF hlrl hrn hrl hringl
        (show msl = msl ++ [] by simp)
    have hring2' : ringAt h2 li ⟨lrl.root, lrl.size + 1⟩
        (msl ++ [h.nodes.length]) := hring2
    obtain ⟨rn2, hrn2, hrl2⟩ := nodeAt_of_lstOf hrootl2
    -- the ring of the source list after the insertion, in loop shape
    have hself_or : (li = other ∧ lro = lrl) ∨ li ≠ other := by
      by_cases hq : li = other
      · exact Or.inl ⟨hq, ((hsame hq).1).symm⟩
      · exact Or.inr hq
    -- unified data for the source ring after the insertion
    obtain ⟨lro2, tlX, hlro2, hringo2, hroot_o2, hsame2, hdist2⟩ :
        ∃ lro2 tlX, listAt h2 other = some lro2 ∧
          ringAt h2 other lro2 (pre ++ c :: (suf2 ++ tlX)) ∧
          lro2.root = lro.root ∧
          (li = other → lro2 = ⟨lrl.root, lrl.size + 1⟩ ∧
            msl ++ [h.nodes.length] = (pre ++ [c]) ++ suf2 ++ tlX) ∧
          (li ≠ other → lro2 = lro ∧ tlX = tl) := by
      rcases hself_or with ⟨hq, hqr⟩ | hq
      · subst hq
        refine ⟨⟨lrl.root, lrl.size + 1⟩, tl ++ [h.nodes.length], hLi2, ?_, ?_, ?_, ?_⟩
        · have hms : msl ++ [h.nodes.length] =
              pre ++ c :: (suf2 ++ (tl ++ [h.nodes.length])) := by
            rw [(hsame rfl).2]
            simp
          rw [← hms]
          exact hring2'
        · rw [← hqr]
        · intro _
          refine ⟨rfl, ?_⟩
          rw [(hsame rfl).2]
          simp
        · intro hq2
          exact absurd rfl hq2
      · refine ⟨lro, tl, ?_, ?_, rfl, fun hq2 => absurd hq2 hq, fun _ => ⟨rfl, rfl⟩⟩
        · rw [hLs2 other (fun hh => hq hh.symm)]
          exact hlro
        · have h0 := hOther2 other lro (pre ++ (c :: suf2) ++ tl)
            (fun hh => hq hh.symm) hlro hringo
          have hshape : pre ++ (c :: suf2) ++ tl = pre ++ c :: (suf2 ++ tl) := by
            simp
          rw [hshape] at h0
          exact h0
    -- Element.Next of c in the new heap
    have hc_lst2 : lstOf h2 c = some (some other) := by
      rw [hlstfr2 c hc_lt]
      exact hc_lst
    obtain ⟨n2, hn2, hn2l⟩ := nodeAt_of_lstOf hc_lst2
    have hsucc : nextOf h2 c = some (some (hdOf lro2.root (suf2 ++ tlX))) := by
      have := ring_succ (p := pre) hringo2
      exact this
    have hn2n : n2.next = some (hdOf lro2.root (suf2 ++ tlX)) := by
      unfold nextOf at hsucc
      rw [hn2] at hsucc
      simpa using hsucc
    have hrootnin2 : lro2.root ∉ pre ++ c :: (suf2 ++ tlX) :=
      (List.nodup_cons.mp hringo2.2.1).1
    obtain ⟨nx, hNE, hNEinv⟩ : ∃ nx, NextE h2 c = some nx ∧
        ∀ c2 s3, suf2 = c2 :: s3 → nx = some c2 := by
      refine ⟨if n2.next = some lro2.root then none else n2.next, ?_, ?_⟩
      · unfold NextE
        simp only [hn2, Option.bind_eq_bind, Option.some_bind]
        rw [hn2l]
        simp only [hlro2, Option.bind_eq_bind, Option.some_bind]
        by_cases hcc : n2.next = some lro2.root
        · simp [hcc]
        · simp [hcc]
      · intro c2 s3 hs
        subst hs
        have hc2 : n2.next = some c2 := by
          rw [hn2n]
          rfl
        have hc2root : c2 ≠ lro2.root := by
          intro hh
          exact hrootnin2 (by
            rw [← hh]
            simp)
        rw [hc2]
        rw [if_neg (by
          intro hh
          exact hc2root (Option.some.inj hh))]
    have hloopstep : pushBackLoop h li eR (suf2.length + 1) =
        pushBackLoop h2 li nx suf2.length := by
      rw [heRc]
      show pushBackLoop h li (some c) (suf2.length + 1) = _
      rw [pushBackLoop]
      simp [hen, hlrl, hrn, hrnprev, hins, hNE]
    -- apply the induction hypothesis in the new heap
    have hringo2r : ringAt h2 other lro2 ((pre ++ [c]) ++ suf2 ++ tlX) := by
      have hshape : (pre ++ [c]) ++ suf2 ++ tlX = pre ++ c :: (suf2 ++ tlX) := by
        simp
      rw [hshape]
      exact hringo2
    obtain ⟨hF, fresh2, hloopF, hlen2, hLiF, hLsF, hLLF, hNLF, hringF,
      hvalsF, hvalfrF, hlstfrF, hnewlF, hotherF, hWFF⟩ :=
      ih h2 nx li other ⟨lrl.root, lrl.size + 1⟩ lro2 (msl ++ [h.nodes.length])
        (pre ++ [c]) tlX rn2 hWF2 hLi2 hrn2 hrl2 hring2' hlro2 hringo2r
        (fun hq => ⟨by rw [(hsame2 hq).1], (hsame2 hq).2⟩) hNEinv
    have hszcast : lrl.size + 1 + (suf2.length : Int) =
        lrl.size + (((c :: suf2).length : Nat) : Int) := by
      simp only [List.length_cons]
      push_cast
      ring
    refine ⟨hF, h.nodes.length :: fresh2, ?_, ?_, ?_, ?_, ?_, ?_, ?_, ?_, ?_,
      ?_, ?_, ?_, hWFF⟩
    · show pushBackLoop h li eR (suf2.length + 1) = some hF
      rw [hloopstep]
      exact hloopF
    · simp [hlen2]
    · rw [hLiF]
      rw [hszcast]
    · intro j hj
      rw [hLsF j hj, hLs2 j hj]
    · rw [hLLF, hLL2]
    · have h9 : h2.nodes.length ≤ hF.nodes.length := hNLF
      omega
    · have hshape : (msl ++ [h.nodes.length]) ++ fresh2 =
          msl ++ h.nodes.length :: fresh2 := by simp
      rw [← hshape]
      rw [← hszcast]
      exact hringF
    · refine List.Forall₂.cons ?_ ?_
      · have hva : valOf hF h.nodes.length = valOf h2 h.nodes.length := by
          refine hvalfrF h.nodes.length ?_
          omega
        rw [hva, hvala2]
        unfold valOf
        rw [hen]
        rfl
      · refine forall2_imp_of_mem hvalsF ?_
        intro x b hx hb hrel
        have hb_mem : b ∈ pre ++ (c :: suf2) ++ tl := by
          simp only [List.mem_append, List.mem_cons]
          exact Or.inl (Or.inr (Or.inr hb))
        obtain ⟨nb, hnb⟩ := ring_mem_exists hringo b hb_mem
        rw [hrel]
        exact hvalfr2 b (nodeAt_lt_length hnb)
    · intro x hx
      have hx2 : x < h2.nodes.length := by omega
      rw [hvalfrF x hx2]
      exact hvalfr2 x hx
    · intro x hx
      have hx2 : x < h2.nodes.length := by omega
      rw [hlstfrF x hx2]
      exact hlstfr2 x hx
    · intro x hx1 hx2
      by_cases hxlt : x < h2.nodes.length
      · rw [hlstfrF x hxlt]
        have hxeq : x = h.nodes.length := by omega
        subst hxeq
        exact hring2'.2.2.2 h.nodes.length (by simp)
      · exact hnewlF x (by omega) hx2
    · intro hq
      have hd := hdist2 hq
      have := hotherF hq
      rw [hd.1, hd.2] at this
      have hshape : (pre ++ [c]) ++ suf2 ++ tl = pre ++ (c :: suf2) ++ tl := by
        simp
      rw [hshape] at this
      exact this


theorem forall2_append {R : Nat → Nat → Prop} :
    ∀ {l1 l2 u1 u2 : List Nat}, List.Forall₂ R l1 l2 → List.Forall₂ R u1 u2 →
      List.Forall₂ R (l1 ++ u1) (l2 ++ u2)
  | _, _, _, _, List.Forall₂.nil, hu => hu
  | _, _, _, _, List.Forall₂.cons hab hrest, hu =>
    List.Forall₂.cons hab (forall2_append hrest hu)

set_option maxHeartbeats 4000000 in
/-- Invariant of the PushFrontList loop: with fuel the length of the part of
the source ring still to walk (given in reverse, since the walk runs right to
left from Back), the loop pushes one copy per node to the front of li,
rebuilding the original order. In the self-copy case the source is the
destination: copies accumulate in front of the walked prefix. -/
theorem pushFrontLoop_spec :
    ∀ (rev : List Nat) (h : Heap T) (eR : Option Nat) (li other : Nat)
      (lrl lro : LRec) (msl tlF sufR : List Nat) (rn : Node T),
    WF h →
    listAt h li = some lrl → nodeAt h lrl.root = some rn → rn.list = none →
    ringAt h li lrl msl →
    listAt h other = some lro →
    ringAt h other lro (tlF ++ rev.reverse ++ sufR) →
    (li = other → lrl = lro ∧ msl = tlF ++ rev.reverse ++ sufR) →
    (∀ c r2, rev = c :: r2 → eR = some c) →
    ∃ h2 fresh, pushFrontLoop h li eR rev.length = some h2 ∧
      fresh.length = rev.length ∧
      listAt h2 li = some ⟨lrl.root, lrl.size + (rev.length : Int)⟩ ∧
      (∀ j, j ≠ li → listAt h2 j = listAt h j) ∧
      h2.lists.length = h.lists.length ∧
      h.nodes.length ≤ h2.nodes.length ∧
      ringAt h2 li ⟨lrl.root, lrl.size + (rev.length : Int)⟩ (fresh ++ msl) ∧
      List.Forall₂ (fun a b => valOf h2 a = valOf h b) fresh rev.reverse ∧
      (∀ x, x < h.nodes.length → valOf h2 x = valOf h x) ∧
      (∀ x, x < h.nodes.length → lstOf h2 x = lstOf h x) ∧
      (∀ x, h.nodes.length ≤ x → x < h2.nodes.length →
        lstOf h2 x = some (some li)) ∧
      (li ≠ other → ringAt h2 other lro (tlF ++ rev.reverse ++ sufR)) ∧
      WF h2 := by
  intro rev
  induction rev with
  | nil =>
    intro h eR li other lrl lro msl tlF sufR rn hWF hlrl hrn hrl hringl hlro
      hringo hsame heR
    have hlr_eta : (⟨lrl.root, lrl.size + ((0 : Nat) : Int)⟩ : LRec) = lrl := by
      simp
    refine ⟨h, [], rfl, rfl, ?_, fun j _ => rfl, rfl, le_refl _, ?_,
      List.Forall₂.nil, fun x _ => rfl, fun x _ => rfl,
      fun x hx1 hx2 => absurd hx2 (by omega), fun _ => hringo, hWF⟩
    · rw [hlrl]
      rw [show (List.length ([] : List Nat) : Int) = ((0 : Nat) : Int) from rfl,
        hlr_eta]
    · rw [show (List.length ([] : List Nat) : Int) = ((0 : Nat) : Int) from rfl,
        hlr_eta, List.nil_append]
      exact hringl
  | cons c rev2 ih =>
    intro h eR li other lrl lro msl tlF sufR rn hWF hlrl hrn hrl hringl hlro
      hringo hsame heR
    have heRc : eR = some c := heR c rev2 rfl
    have hc_mem_o : c ∈ tlF ++ (c :: rev2).reverse ++ sufR := by simp
    have hc_lst : lstOf h c = some (some other) := hringo.2.2.2 c hc_mem_o
    obtain ⟨en, hen, henl⟩ := nodeAt_of_lstOf hc_lst
    have hc_lt : c < h.nodes.length := nodeAt_lt_length hen
    obtain ⟨h2, hins, hLi2, hLs2, hLL2, hNL2, hring2, hrootl2, hvala2,
      hvalfr2, hlstfr2, hOther2, hWF2⟩ :=
      insertVA_spec (v := en.value) hWF hlrl hrn hrl hringl
        (show msl = [] ++ msl by simp)
    rw [lastOf_nil] at hins
    have hring2' : ringAt h2 li ⟨lrl.root, lrl.size + 1⟩
        (h.nodes.length :: msl) := hring2
    obtain ⟨rn2, hrn2, hrl2⟩ := nodeAt_of_lstOf hrootl2
    have hself_or : (li = other ∧ lro = lrl) ∨ li ≠ other := by
      by_cases hq : li = other
      · exact Or.inl ⟨hq, ((hsame hq).1).symm⟩
      · exact Or.inr hq
    -- unified data for the source ring after the insertion
    obtain ⟨lro2, tlF2, hlro2, hringo2, hroot_o2, hsame2, hdist2⟩ :
        ∃ lro2 tlF2, listAt h2 other = some lro2 ∧
          ringAt h2 other lro2 ((tlF2 ++ rev2.reverse) ++ c :: sufR) ∧
          lro2.root = lro.root ∧
          (li = other → lro2 = ⟨lrl.root, lrl.size + 1⟩ ∧
            h.nodes.length :: msl = tlF2 ++ rev2.reverse ++ (c :: sufR)) ∧
          (li ≠ other → lro2 = lro ∧ tlF2 = tlF) := by
      rcases hself_or with ⟨hq, hqr⟩ | hq
      · subst hq
        refine ⟨⟨lrl.root, lrl.size + 1⟩, h.nodes.length :: tlF, hLi2, ?_, ?_,
          ?_, ?_⟩
        · have hms : h.nodes.length :: msl =
              ((h.nodes.length :: tlF) ++ rev2.reverse) ++ c :: sufR := by
            rw [(hsame rfl).2]
            simp
          rw [← hms]
          exact hring2'
        · rw [← hqr]
        · intro _
          refine ⟨rfl, ?_⟩
          rw [(hsame rfl).2]
          simp
        · intro hq2
          exact absurd rfl hq2
      · refine ⟨lro, tlF, ?_, ?_, rfl, fun hq2 => absurd hq2 hq,
          fun _ => ⟨rfl, rfl⟩⟩
        · rw [hLs2 other (fun hh => hq hh.symm)]
          exact hlro
        · have h0 := hOther2 other lro (tlF ++ (c :: rev2).reverse ++ sufR)
            (fun hh => hq hh.symm) hlro hringo
          have hshape : tlF ++ (c :: rev2).reverse ++ sufR =
              (tlF ++ rev2.reverse) ++ c :: sufR := by
            simp
          rw [hshape] at h0
          exact h0
    -- Element.Prev of c in the new heap
    have hc_lst2 : lstOf h2 c = some (some other) := by
      rw [hlstfr2 c hc_lt]
      exact hc_lst
    obtain ⟨n2, hn2, hn2l⟩ := nodeAt_of_lstOf hc_lst2
    have hpredc : prevOf h2 c =
        some (some (lastOf lro2.root (tlF2 ++ rev2.reverse))) :=
      ring_pred (p := tlF2 ++ rev2.reverse) hringo2
    have hn2p : n2.prev = some (lastOf lro2.root (tlF2 ++ rev2.reverse)) := by
      unfold prevOf at hpredc
      rw [hn2] at hpredc
      simpa using hpredc
    have hrootnin2 : lro2.root ∉ (tlF2 ++ rev2.reverse) ++ c :: sufR :=
      (List.nodup_cons.mp hringo2.2.1).1
    obtain ⟨nx, hPE, hPEinv⟩ : ∃ nx, PrevE h2 c = some nx ∧
        ∀ c2 r3, rev2 = c2 :: r3 → nx = some c2 := by
      refine ⟨if n2.prev = some lro2.root then none else n2.prev, ?_, ?_⟩
      · unfold PrevE
        simp only [hn2, Option.bind_eq_bind, Option.some_bind]
        rw [hn2l]
        simp only [hlro2, Option.bind_eq_bind, Option.some_bind]
        by_cases hcc : n2.prev = some lro2.root
        · simp [hcc]
        · simp [hcc]
      · intro c2 r3 hs
        subst hs
        have hc2 : n2.prev = some c2 := by
          rw [hn2p]
          have hshape : tlF2 ++ (c2 :: r3).reverse =
              (tlF2 ++ r3.reverse) ++ [c2] := by
            simp
          rw [hshape, lastOf_concat]
        have hc2root : c2 ≠ lro2.root := by
          intro hh
          exact hrootnin2 (by
            rw [← hh]
            simp)
        rw [hc2]
        rw [if_neg (by
          intro hh
          exact hc2root (Option.some.inj hh))]
    have hloopstep : pushFrontLoop h li eR (rev2.length + 1) =
        pushFrontLoop h2 li nx rev2.length := by
      rw [heRc]
      show pushFrontLoop h li (some c) (rev2.length + 1) = _
      rw [pushFrontLoop]
      simp [hen, hlrl, hins, hPE]
    -- apply the induction hypothesis in the new heap
    have hringo2r : ringAt h2 other lro2
        (tlF2 ++ rev2.reverse ++ (c :: sufR)) := by
      have hshape : tlF2 ++ rev2.reverse ++ (c :: sufR) =
          (tlF2 ++ rev2.reverse) ++ c :: sufR := by
        simp
      rw [hshape]
      exact hringo2
    obtain ⟨hF, fresh2, hloopF, hlen2, hLiF, hLsF, hLLF, hNLF, hringF,
      hvalsF, hvalfrF, hlstfrF, hnewlF, hotherF, hWFF⟩ :=
      ih h2 nx li other ⟨lrl.root, lrl.size + 1⟩ lro2 (h.nodes.length :: msl)
        tlF2 (c :: sufR) rn2 hWF2 hLi2 hrn2 hrl2 hring2' hlro2 hringo2r
        (fun hq => ⟨by rw [(hsame2 hq).1], (hsame2 hq).2⟩) hPEinv
    have hszcast : lrl.size + 1 + (rev2.length : Int) =
        lrl.size + (((c :: rev2).length : Nat) : Int) := by
      simp only [List.length_cons]
      push_cast
      ring
    refine ⟨hF, fresh2 ++ [h.nodes.length], ?_, ?_, ?_, ?_, ?_, ?_, ?_, ?_,
      ?_, ?_, ?_, ?_, hWFF⟩
    · show pushFrontLoop h li eR (rev2.length + 1) = some hF
      rw [hloopstep]
      exact hloopF
    · simp [hlen2]
    · rw [hLiF]
      rw [hszcast]
    · intro j hj
      rw [hLsF j hj, hLs2 j hj]
    · rw [hLLF, hLL2]
    · have h9 : h2.nodes.length ≤ hF.nodes.length := hNLF
      omega
    · have hshape : (fresh2 ++ [h.nodes.length]) ++ msl =
          fresh2 ++ (h.nodes.length :: msl) := by simp
      rw [hshape, ← hszcast]
      exact hringF
    · have hshape : (c :: rev2).reverse = rev2.reverse ++ [c] := by simp
      rw [hshape]
      refine forall2_append ?_ ?_
      · refine forall2_imp_of_mem hvalsF ?_
        intro x b hx hb hrel
        have hb2 : b ∈ rev2 := List.mem_reverse.mp hb
        have hb_mem : b ∈ tlF ++ (c :: rev2).reverse ++ sufR := by
          simp [hb2]
        obtain ⟨nb, hnb⟩ := ring_mem_exists hringo b hb_mem
        rw [hrel]
        exact hvalfr2 b (nodeAt_lt_length hnb)
      · refine List.Forall₂.cons ?_ List.Forall₂.nil
        have hva : valOf hF h.nodes.length = valOf h2 h.nodes.length := by
          refine hvalfrF h.nodes.length ?_
          omega
        rw [hva, hvala2]
        unfold valOf
        rw [hen]
        rfl
    · intro x hx
      have hx2 : x < h2.nodes.length := by omega
      rw [hvalfrF x hx2]
      exact hvalfr2 x hx
    · intro x hx
      have hx2 : x < h2.nodes.length := by omega
      rw [hlstfrF x hx2]
      exact hlstfr2 x hx
    · intro x hx1 hx2
      by_cases hxlt : x < h2.nodes.length
      · rw [hlstfrF x hxlt]
        have hxeq : x = h.nodes.length := by omega
        subst hxeq
        exact hring2'.2.2.2 h.nodes.length (by simp)
      · exact hnewlF x (by omega) hx2
    · intro hq
      have hd := hdist2 hq
      have h0 := hotherF hq
      rw [hd.1, hd.2] at h0
      have hshape : tlF ++ rev2.reverse ++ (c :: sufR) =
          tlF ++ (c :: rev2).reverse ++ sufR := by
        simp
      rw [hshape] at h0
      exact h0



theorem lstB_mem_iff (h : Heap T) : lstB h ↔
    ∀ x n, nodeAt h x = some n → optA n.list (fun j => j < h.lists.length) := by
  constructor
  · intro hB x n hx
    unfold nodeAt at hx
    obtain ⟨hlt, hget⟩ := List.getElem?_eq_some.mp hx
    have hmem : n ∈ h.nodes := by
      rw [← hget]
      exact List.getElem_mem hlt
    exact hB n hmem
  · intro H n hn
    obtain ⟨x, hlt, hget⟩ := List.mem_iff_getElem.mp hn
    refine H x n ?_
    unfold nodeAt
    exact List.getElem?_eq_some.mpr ⟨hlt, hget⟩

theorem lstB_frame {h h2 : Heap T} (hB : lstB h)
    (hLL : h.lists.length ≤ h2.lists.length)
    (hold : ∀ x, x < h.nodes.length →
      lstOf h2 x = lstOf h x ∨ lstOf h2 x = some none)
    (hnew : ∀ x n2, h.nodes.length ≤ x → nodeAt h2 x = some n2 →
      n2.list = none ∨ ∃ j, n2.list = some j ∧ j < h2.lists.length) :
    lstB h2 := by
  rw [lstB_mem_iff]
  intro x n2 hx2
  have hl2 : lstOf h2 x = some n2.list := by
    unfold lstOf
    rw [hx2]
    rfl
  by_cases hlt : x < h.nodes.length
  · rcases hold x hlt with he | he
    · have hlx : lstOf h x = some n2.list := by rw [← he, hl2]
      obtain ⟨n, hn, hnl⟩ := nodeAt_of_lstOf hlx
      have hb := (lstB_mem_iff h).mp hB x n hn
      rw [hnl] at hb
      cases hj : n2.list with
      | none => simp [optA]
      | some j =>
        rw [hj] at hb
        simp only [optA] at hb ⊢
        omega
    · rw [hl2] at he
      have hnone : n2.list = none := Option.some.inj he
      rw [hnone]
      simp [optA]
  · rcases hnew x n2 (by omega) hx2 with hno | ⟨j, hj, hjlt⟩
    · rw [hno]
      simp [optA]
    · rw [hj]
      simp only [optA]
      exact hjlt

/-- Transfer of the back-reference bound across a single allocation whose
fresh node lies on the ring of list li. -/
theorem lstB_insert {h h2 : Heap T} {li : Nat} (hB : lstB h)
    (hli : li < h.lists.length)
    (hLL : h2.lists.length = h.lists.length)
    (hfr : ∀ x, x < h.nodes.length → lstOf h2 x = lstOf h x)
    (hnewl : ∀ x, h.nodes.length ≤ x → x < h2.nodes.length →
      lstOf h2 x = some (some li)) :
    lstB h2 := by
  refine lstB_frame hB (by omega) (fun x hx => Or.inl (hfr x hx)) ?_
  intro x n2 hge hx2
  have hlt := nodeAt_lt_length hx2
  have hl2 : lstOf h2 x = some n2.list := by
    unfold lstOf
    rw [hx2]
    rfl
  rw [hnewl x hge hlt] at hl2
  right
  exact ⟨li, (Option.some.inj hl2).symm, by omega⟩

/-! The two allocation forms. -/

theorem nodeAt_NewL_lt {h : Heap T} (d : T) {a : Nat} (ha : a < h.nodes.length) :
    nodeAt (NewL h d) a = nodeAt h a := by
  unfold nodeAt NewL
  rw [List.getElem?_append_left ha]

theorem nodeAt_NewL_self (h : Heap T) (d : T) :
    nodeAt (NewL h d) h.nodes.length =
      some ⟨some h.nodes.length, some h.nodes.length, none, d⟩ := by
  unfold nodeAt NewL
  rw [List.getElem?_append_right (le_refl _)]
  simp

theorem listAt_NewL_lt {h : Heap T} (d : T) {j : Nat} (hj : j < h.lists.length) :
    listAt (NewL h d) j = listAt h j := by
  unfold listAt NewL
  rw [List.getElem?_append_left hj]

theorem listAt_NewL_self (h : Heap T) (d : T) :
    listAt (NewL h d) h.lists.length = some ⟨h.nodes.length, 0⟩ := by
  unfold listAt NewL
  rw [List.getElem?_append_right (le_refl _)]
  simp

theorem nodeAt_NewRaw_lt {h : Heap T} (d : T) {a : Nat} (ha : a < h.nodes.length) :
    nodeAt (NewRaw h d) a = nodeAt h a := by
  unfold nodeAt NewRaw
  rw [List.getElem?_append_left ha]

theorem nodeAt_NewRaw_self (h : Heap T) (d : T) :
    nodeAt (NewRaw h d) h.nodes.length = some ⟨none, none, none, d⟩ := by
  unfold nodeAt NewRaw
  rw [List.getElem?_append_right (le_refl _)]
  simp

theorem listAt_NewRaw_lt {h : Heap T} (d : T) {j : Nat} (hj : j < h.lists.length) :
    listAt (NewRaw h d) j = listAt h j := by
  unfold listAt NewRaw
  rw [List.getElem?_append_left hj]

theorem listAt_NewRaw_self (h : Heap T) (d : T) :
    listAt (NewRaw h d) h.lists.length = some ⟨h.nodes.length, 0⟩ := by
  unfold listAt NewRaw
  rw [List.getElem?_append_right (le_refl _)]
  simp

/-- Roots of allocated lists are allocated nodes. -/
theorem root_lt_of_WF {h : Heap T} {j : Nat} {lrj : LRec}
    (hWF : WF h) (hlrj : listAt h j = some lrj) : lrj.root < h.nodes.length := by
  obtain ⟨rn, hrn, _, _⟩ := listWFat_cases (hWF.2 j (listAt_lt_length hlrj)) hlrj
  exact nodeAt_lt_length hrn

theorem Inv_NewL {h : Heap T} (hI : Inv h) (d : T) : Inv (NewL h d) := by
  obtain ⟨hWF, hB⟩ := hI
  have hnodesL : (NewL h d).nodes.length = h.nodes.length + 1 := by
    unfold NewL
    simp
  have hlistsL : (NewL h d).lists.length = h.lists.length + 1 := by
    unfold NewL
    simp
  have hnode_fr : ∀ a, a < h.nodes.length → nodeAt (NewL h d) a = nodeAt h a :=
    fun a ha => nodeAt_NewL_lt d ha
  have hlist_fr : ∀ j, j < h.lists.length → listAt (NewL h d) j = listAt h j :=
    fun j hj => listAt_NewL_lt d hj
  have hlistAt : ∀ j lrj, listAt (NewL h d) j = some lrj →
      j < h.lists.length ∧ listAt h j = some lrj ∨
        j = h.lists.length ∧ lrj = ⟨h.nodes.length, 0⟩ := by
    intro j lrj hj
    have hjlt : j < (NewL h d).lists.length := listAt_lt_length hj
    rw [hlistsL] at hjlt
    by_cases hlt : j < h.lists.length
    · rw [hlist_fr j hlt] at hj
      exact Or.inl ⟨hlt, hj⟩
    · have hje : j = h.lists.length := by omega
      subst hje
      rw [listAt_NewL_self] at hj
      exact Or.inr ⟨rfl, (Option.some.inj hj).symm⟩
  have hringN : ringAt (NewL h d) h.lists.length
      (⟨h.nodes.length, 0⟩ : LRec) [] := by
    refine ⟨⟨⟨?_, ?_⟩, trivial⟩, by simp, by simp, by simp⟩
    · unfold nextOf
      rw [nodeAt_NewL_self]
      rfl
    · unfold prevOf
      rw [nodeAt_NewL_self]
      rfl
  have hWFN : listWFat (NewL h d) h.lists.length := by
    exact listWFat_intro_ring (listAt_NewL_self h d) (nodeAt_NewL_self h d)
      rfl hringN
  have hWFold : ∀ j, j < h.lists.length → listWFat (NewL h d) j := by
    intro j hj
    refine listWFat_frame (hWF.2 j hj) (hlist_fr j hj) ?_ ?_ ?_
    · intro x n hx _
      exact hnode_fr x (nodeAt_lt_length hx)
    · intro lrj hlrj
      exact hnode_fr lrj.root (root_lt_of_WF hWF hlrj)
    · intro hnm n hn
      unfold NewL at hn
      simp only [List.mem_append, List.mem_singleton] at hn
      rcases hn with hn | hn
      · exact hnm n hn
      · subst hn
        simp
  refine ⟨⟨?_, ?_⟩, ?_⟩
  · intro i hi j hj hij ri rj hri hrj
    rcases hlistAt i ri hri with ⟨hilt, hri2⟩ | ⟨hie, hre⟩ <;>
      rcases hlistAt j rj hrj with ⟨hjlt, hrj2⟩ | ⟨hje, hrje⟩
    · exact hWF.1 i hilt j hjlt hij ri rj hri2 hrj2
    · subst hrje
      have hlt2 := root_lt_of_WF hWF hri2
      show ri.root ≠ h.nodes.length
      omega
    · subst hre
      have hlt2 := root_lt_of_WF hWF hrj2
      show h.nodes.length ≠ rj.root
      omega
    · omega
  · intro li hli
    rw [hlistsL] at hli
    by_cases hlt : li < h.lists.length
    · exact hWFold li hlt
    · have : li = h.lists.length := by omega
      subst this
      exact hWFN
  · refine lstB_frame hB (by omega) ?_ ?_
    · intro x hx
      left
      unfold lstOf
      rw [hnode_fr x hx]
    · intro x n2 hge hx2
      have hlt := nodeAt_lt_length hx2
      rw [hnodesL] at hlt
      have hxe : x = h.nodes.length := by omega
      subst hxe
      rw [nodeAt_NewL_self] at hx2
      left
      rw [← Option.some.inj hx2]

theorem Inv_NewRaw {h : Heap T} (hI : Inv h) (d : T) : Inv (NewRaw h d) := by
  obtain ⟨hWF, hB⟩ := hI
  have hnodesL : (NewRaw h d).nodes.length = h.nodes.length + 1 := by
    unfold NewRaw
    simp
  have hlistsL : (NewRaw h d).lists.length = h.lists.length + 1 := by
    unfold NewRaw
    simp
  have hnode_fr : ∀ a, a < h.nodes.length → nodeAt (NewRaw h d) a = nodeAt h a :=
    fun a ha => nodeAt_NewRaw_lt d ha
  have hlist_fr : ∀ j, j < h.lists.length → listAt (NewRaw h d) j = listAt h j :=
    fun j hj => listAt_NewRaw_lt d hj
  have hlistAt : ∀ j lrj, listAt (NewRaw h d) j = some lrj →
      j < h.lists.length ∧ listAt h j = some lrj ∨
        j = h.lists.length ∧ lrj = ⟨h.nodes.length, 0⟩ := by
    intro j lrj hj
    have hjlt : j < (NewRaw h d).lists.length := listAt_lt_length hj
    rw [hlistsL] at hjlt
    by_cases hlt : j < h.lists.length
    · rw [hlist_fr j hlt] at hj
      exact Or.inl ⟨hlt, hj⟩
    · have hje : j = h.lists.length := by omega
      subst hje
      rw [listAt_NewRaw_self] at hj
      exact Or.inr ⟨rfl, (Option.some.inj hj).symm⟩
  have hnoM : noMembers (NewRaw h d) h.lists.length := by
    intro n hn
    unfold NewRaw at hn
    simp only [List.mem_append, List.mem_singleton] at hn
    rcases hn with hn | hn
    · have hb := hB n hn
      cases hj : n.list with
      | none => simp
      | some j =>
        rw [hj] at hb
        simp only [optA] at hb
        intro hh
        have : j = h.lists.length := Option.some.inj hh
        omega
    · subst hn
      simp
  have hWFN : listWFat (NewRaw h d) h.lists.length := by
    refine listWFat_intro_uninit (listAt_NewRaw_self h d) (nodeAt_NewRaw_self h d)
      rfl rfl rfl rfl hnoM
  have hWFold : ∀ j, j < h.lists.length → listWFat (NewRaw h d) j := by
    intro j hj
    refine listWFat_frame (hWF.2 j hj) (hlist_fr j hj) ?_ ?_ ?_
    · intro x n hx _
      exact hnode_fr x (nodeAt_lt_length hx)
    · intro lrj hlrj
      exact hnode_fr lrj.root (root_lt_of_WF hWF hlrj)
    · intro hnm n hn
      unfold NewRaw at hn
      simp only [List.mem_append, List.mem_singleton] at hn
      rcases hn with hn | hn
      · exact hnm n hn
      · subst hn
        simp
  refine ⟨⟨?_, ?_⟩, ?_⟩
  · intro i hi j hj hij ri rj hri hrj
    rcases hlistAt i ri hri with ⟨hilt, hri2⟩ | ⟨hie, hre⟩ <;>
      rcases hlistAt j rj hrj with ⟨hjlt, hrj2⟩ | ⟨hje, hrje⟩
    · exact hWF.1 i hilt j hjlt hij ri rj hri2 hrj2
    · subst hrje
      have hlt2 := root_lt_of_WF hWF hri2
      show ri.root ≠ h.nodes.length
      omega
    · subst hre
      have hlt2 := root_lt_of_WF hWF hrj2
      show h.nodes.length ≠ rj.root
      omega
    · omega
  · intro li hli
    rw [hlistsL] at hli
    by_cases hlt : li < h.lists.length
    · exact hWFold li hlt
    · have : li = h.lists.length := by omega
      subst this
      exact hWFN
  · refine lstB_frame hB (by omega) ?_ ?_
    · intro x hx
      left
      unfold lstOf
      rw [hnode_fr x hx]
    · intro x n2 hge hx2
      have hlt := nodeAt_lt_length hx2
      rw [hnodesL] at hlt
      have hxe : x = h.nodes.length := by omega
      subst hxe
      rw [nodeAt_NewRaw_self] at hx2
      left
      rw [← Option.some.inj hx2]

/-- Init succeeds exactly on allocated lists. -/
theorem InitL_some {h h1 : Heap T} {l : Nat}
    (hs : InitL h l = some h1) : ∃ lr, listAt h l = some lr := by
  unfold InitL at hs
  cases hL : listAt h l with
  | none => rw [hL] at hs; exact absurd hs (by simp)
  | some lr => exact ⟨lr, rfl⟩

theorem Inv_InitL {h h2 : Heap T} {l : Nat}
    (hI : Inv h) (hs : InitL h l = some h2) : Inv h2 := by
  obtain ⟨lr, hlr⟩ := InitL_some hs
  obtain ⟨h2b, hstep, hL1, hLs, hLL, hNL, hring1, hlst1, hval1, hun, hother,
    hWF1⟩ := InitL_spec hI.1 hlr
  rw [hs] at hstep
  have he : h2b = h2 := (Option.some.inj hstep).symm
  subst he
  refine ⟨hWF1, lstB_frame hI.2 (by omega) (fun x _ => Or.inl (hlst1 x)) ?_⟩
  intro x n2 hge hx2
  have := nodeAt_lt_length hx2
  omega

theorem lazyInit_some {h h1 : Heap T} {l : Nat}
    (hs : lazyInit h l = some h1) : ∃ lr, listAt h l = some lr := by
  unfold lazyInit at hs
  cases hL : listAt h l with
  | none => rw [hL] at hs; exact absurd hs (by simp)
  | some lr => exact ⟨lr, rfl⟩

/-- Full description of lazyInit on an allocated list: it succeeds, the header
is unchanged, and afterwards the list is an initialized ring whose members are
those of the original ring, or empty when the list was the zero value. -/
theorem lazyInit_spec {h : Heap T} {li : Nat} {lr : LRec}
    (hI : Inv h) (hlr : listAt h li = some lr) :
    ∃ h1 ms rn1, lazyInit h li = some h1 ∧
      listAt h1 li = some lr ∧
      nodeAt h1 lr.root = some rn1 ∧ rn1.list = none ∧
      ringAt h1 li lr ms ∧
      (∀ j, j ≠ li → listAt h1 j = listAt h j) ∧
      h1.lists.length = h.lists.length ∧
      h1.nodes.length = h.nodes.length ∧
      (∀ x, lstOf h1 x = lstOf h x) ∧
      (∀ x, valOf h1 x = valOf h x) ∧
      (∀ j lrj msj, j ≠ li → listAt h j = some lrj → ringAt h j lrj msj →
        ringAt h1 j lrj msj) ∧
      (ringAt h li lr ms ∨ (lr.size = 0 ∧ ms = [])) ∧
      Inv h1 := by
  obtain ⟨rn, hrn, hrl, hcases⟩ :=
    listWFat_cases (hI.1.2 li (listAt_lt_length hlr)) hlr
  rcases hcases with ⟨hnx, hpv, hsz, hnm⟩ | ⟨ms, hms, hring⟩
  · have hlz : lazyInit h li = InitL h li := lazyInit_zero hlr hrn hnx
    obtain ⟨h1, hstep, hL1, hLs, hLL, hNL, hring1, hlst1, hval1, hun, hother,
      hWF1⟩ := InitL_spec hI.1 hlr
    have hlr_eta : (⟨lr.root, 0⟩ : LRec) = lr := by
      obtain ⟨r, s⟩ := lr
      rw [show s = 0 from by simpa using hsz]
    rw [hlr_eta] at hL1 hring1
    have hrl1 : lstOf h1 lr.root = some none := by
      rw [hlst1 lr.root]
      simp [lstOf, hrn, hrl]
    obtain ⟨rn1, hrn1, hrl1e⟩ := nodeAt_of_lstOf hrl1
    refine ⟨h1, [], rn1, by rw [hlz]; exact hstep, hL1, hrn1, hrl1e, hring1,
      hLs, hLL, hNL, hlst1, hval1, hother, Or.inr ⟨hsz, rfl⟩,
      hWF1, ?_⟩
    refine lstB_frame hI.2 (by omega) (fun x _ => Or.inl (hlst1 x)) ?_
    intro x n2 hge hx2
    have := nodeAt_lt_length hx2
    omega
  · have hnx_ne : rn.next ≠ none := by
      have hh2 : rn.next = some (hdOf lr.root ms) := by
        have hh := ring_next_root hring.1
        unfold nextOf at hh
        rw [hrn] at hh
        simpa using hh
      rw [hh2]
      exact Option.some_ne_none _
    exact ⟨h, ms, rn, lazyInit_inited hlr hrn hnx_ne, hlr, hrn, hrl, hring,
      fun j _ => rfl, rfl, rfl, fun x => rfl, fun x => rfl,
      fun j lrj msj _ _ hr => hr, Or.inl hring, hI⟩

/-- An honest reference that claims membership of l lies on the ring of l. -/
theorem argOK_ring {h : Heap T} {a l : Nat} {n : Node T}
    (hWF : WF h) (hok : argOKb h (some a) = true)
    (hn : nodeAt h a = some n) (hnl : n.list = some l) :
    ∃ lr rn ms m1 m2, listAt h l = some lr ∧ nodeAt h lr.root = some rn ∧
      rn.list = none ∧ ringAt h l lr ms ∧ ms = m1 ++ a :: m2 := by
  unfold argOKb at hok
  simp only [hn, hnl] at hok
  cases hms : msOf h l with
  | none => simp [hms] at hok
  | some ms =>
    simp only [hms, decide_eq_true_eq] at hok
    have ha_mem : a ∈ ms := hok
    have hlr_ex : ∃ lr, listAt h l = some lr := by
      unfold msOf at hms
      cases hL : listAt h l with
      | none => rw [hL] at hms; exact absurd hms (by simp)
      | some lr => exact ⟨lr, rfl⟩
    obtain ⟨lr, hlr⟩ := hlr_ex
    obtain ⟨rn, hrn, hrl, hc⟩ :=
      listWFat_cases (hWF.2 l (listAt_lt_length hlr)) hlr
    rcases hc with ⟨hnxe, _, _, _⟩ | ⟨ms2, hms2, hring⟩
    · exfalso
      unfold msOf at hms
      rw [hlr] at hms
      simp [hrn, hnxe] at hms
    · rw [hms] at hms2
      have hmse : ms = ms2 := Option.some.inj hms2
      subst hmse
      obtain ⟨m1, m2, hdec⟩ := List.append_of_mem ha_mem
      exact ⟨lr, rn, ms, m1, m2, hlr, hrn, hrl, hring, hdec⟩


/-! Specifications of the push and insert entry points. -/

set_option maxHeartbeats 1000000 in
/-- PushBack on an allocated list: lazyInit, then one insertion at the back.
The fresh element is the next node address; the ring grows at the back. -/
theorem PushBack_spec {h : Heap T} {li : Nat} {lr : LRec} (v : T)
    (hI : Inv h) (hlr : listAt h li = some lr) :
    ∃ ms h2, PushBack h li v = some (h2, h.nodes.length) ∧
      (ringAt h li lr ms ∨ (lr.size = 0 ∧ ms = [])) ∧
      listAt h2 li = some ⟨lr.root, lr.size + 1⟩ ∧
      (∀ j, j ≠ li → listAt h2 j = listAt h j) ∧
      h2.lists.length = h.lists.length ∧
      h2.nodes.length = h.nodes.length + 1 ∧
      ringAt h2 li ⟨lr.root, lr.size + 1⟩ (ms ++ [h.nodes.length]) ∧
      valOf h2 h.nodes.length = some v ∧
      (∀ x, x < h.nodes.length → valOf h2 x = valOf h x) ∧
      (∀ x, x < h.nodes.length → lstOf h2 x = lstOf h x) ∧
      (∀ j lrj msj, j ≠ li → listAt h j = some lrj → ringAt h j lrj msj →
        ringAt h2 j lrj msj) ∧
      Inv h2 := by
  obtain ⟨h1, ms, rn1, hlz, hL1, hrn1, hrl1, hring1, hLs1, hLL1, hNL1,
    hlst1, hval1, hother1, hdich, hI1⟩ := lazyInit_spec hI hlr
  have hrn1p : rn1.prev = some (lastOf lr.root ms) := by
    have hp := ring_prev_root hring1.1
    unfold prevOf at hp
    rw [hrn1] at hp
    simpa using hp
  obtain ⟨h2, hins, hLi2, hLs2, hLL2, hNL2, hring2, hrootl2, hvala2,
    hvalfr2, hlstfr2, hOther2, hWF2⟩ :=
    insertVA_spec (v := v) hI1.1 hL1 hrn1 hrl1 hring1 (show ms = ms ++ [] by simp)
  rw [hNL1] at hins hring2 hvala2
  have heq : PushBack h li v = some (h2, h.nodes.length) := by
    unfold PushBack
    rw [hlz]
    simp only [Option.bind_eq_bind, Option.some_bind]
    rw [hL1]
    simp only [Option.some_bind]
    rw [hrn1]
    simp only [Option.some_bind]
    rw [hrn1p, hins]
  have hli_lt1 : li < h1.lists.length := listAt_lt_length hL1
  refine ⟨ms, h2, heq, hdich, hLi2, ?_, by omega, by omega, hring2,
    hvala2, ?_, ?_, ?_, hWF2, ?_⟩
  · intro j hj
    rw [hLs2 j hj, hLs1 j hj]
  · intro x hx
    rw [hvalfr2 x (by omega), hval1 x]
  · intro x hx
    rw [hlstfr2 x (by omega), hlst1 x]
  · intro j lrj msj hj hlrj hrj
    refine hOther2 j lrj msj hj ?_ (hother1 j lrj msj hj hlrj hrj)
    rw [hLs1 j hj]
    exact hlrj
  · refine lstB_insert hI1.2 hli_lt1 hLL2 hlstfr2 ?_
    intro x hge hxlt
    rw [hNL2, hNL1] at hxlt
    rw [hNL1] at hge
    have hxe : x = h.nodes.length := by omega
    subst hxe
    exact hring2.2.2.2 h.nodes.length (by simp)

set_option maxHeartbeats 1000000 in
/-- PushFront on an allocated list: lazyInit, then one insertion at the front. -/
theorem PushFront_spec {h : Heap T} {li : Nat} {lr : LRec} (v : T)
    (hI : Inv h) (hlr : listAt h li = some lr) :
    ∃ ms h2, PushFront h li v = some (h2, h.nodes.length) ∧
      (ringAt h li lr ms ∨ (lr.size = 0 ∧ ms = [])) ∧
      listAt h2 li = some ⟨lr.root, lr.size + 1⟩ ∧
      (∀ j, j ≠ li → listAt h2 j = listAt h j) ∧
      h2.lists.length = h.lists.length ∧
      h2.nodes.length = h.nodes.length + 1 ∧
      ringAt h2 li ⟨lr.root, lr.size + 1⟩ (h.nodes.length :: ms) ∧
      valOf h2 h.nodes.length = some v ∧
      (∀ x, x < h.nodes.length → valOf h2 x = valOf h x) ∧
      (∀ x, x < h.nodes.length → lstOf h2 x = lstOf h x) ∧
      (∀ j lrj msj, j ≠ li → listAt h j = some lrj → ringAt h j lrj msj →
        ringAt h2 j lrj msj) ∧
      Inv h2 := by
  obtain ⟨h1, ms, rn1, hlz, hL1, hrn1, hrl1, hring1, hLs1, hLL1, hNL1,
    hlst1, hval1, hother1, hdich, hI1⟩ := lazyInit_spec hI hlr
  obtain ⟨h2, hins, hLi2, hLs2, hLL2, hNL2, hring2, hrootl2, hvala2,
    hvalfr2, hlstfr2, hOther2, hWF2⟩ :=
    insertVA_spec (v := v) hI1.1 hL1 hrn1 hrl1 hring1 (show ms = [] ++ ms by simp)
  rw [lastOf_nil] at hins
  rw [hNL1] at hins hring2 hvala2
  have heq : PushFront h li v = some (h2, h.nodes.length) := by
    unfold PushFront
    rw [hlz]
    simp only [Option.bind_eq_bind, Option.some_bind]
    rw [hL1]
    simp only [Option.some_bind]
    rw [hins]
  have hli_lt1 : li < h1.lists.length := listAt_lt_length hL1
  refine ⟨ms, h2, heq, hdich, hLi2, ?_, by omega, by omega, hring2,
    hvala2, ?_, ?_, ?_, hWF2, ?_⟩
  · intro j hj
    rw [hLs2 j hj, hLs1 j hj]
  · intro x hx
    rw [hvalfr2 x (by omega), hval1 x]
  · intro x hx
    rw [hlstfr2 x (by omega), hlst1 x]
  · intro j lrj msj hj hlrj hrj
    refine hOther2 j lrj msj hj ?_ (hother1 j lrj msj hj hlrj hrj)
    rw [hLs1 j hj]
    exact hlrj
  · refine lstB_insert hI1.2 hli_lt1 hLL2 hlstfr2 ?_
    intro x hge hxlt
    rw [hNL2, hNL1] at hxlt
    rw [hNL1] at hge
    have hxe : x = h.nodes.length := by omega
    subst hxe
    exact hring2.2.2.2 h.nodes.length (by simp)

/-- The insert guard: a mark not belonging to the list produces no element and
no mutation. -/
theorem InsertAfter_guard {h : Heap T} {li m : Nat} {mn : Node T} (v : T)
    (hmn : nodeAt h m = some mn) (hg : mn.list ≠ some li) :
    InsertAfter h li v (some m) = some (h, none) := by
  unfold InsertAfter
  simp [hmn, hg]

theorem InsertBefore_guard {h : Heap T} {li m : Nat} {mn : Node T} (v : T)
    (hmn : nodeAt h m = some mn) (hg : mn.list ≠ some li) :
    InsertBefore h li v (some m) = some (h, none) := by
  unfold InsertBefore
  simp [hmn, hg]

set_option maxHeartbeats 1000000 in
/-- InsertAfter with an honest member mark: the new element lands directly
after the mark on the ring. No lazy initialization happens, but membership of
the mark already implies the list is initialized. -/
theorem InsertAfter_ok {h : Heap T} {li m : Nat} {mn : Node T} (v : T)
    (hI : Inv h) (hok : argOKb h (some m) = true)
    (hmn : nodeAt h m = some mn) (hml : mn.list = some li) :
    ∃ lr ms m1 m2 h2, listAt h li = some lr ∧ ringAt h li lr ms ∧
      ms = m1 ++ m :: m2 ∧
      InsertAfter h li v (some m) = some (h2, some h.nodes.length) ∧
      listAt h2 li = some ⟨lr.root, lr.size + 1⟩ ∧
      (∀ j, j ≠ li → listAt h2 j = listAt h j) ∧
      h2.lists.length = h.lists.length ∧
      h2.nodes.length = h.nodes.length + 1 ∧
      ringAt h2 li ⟨lr.root, lr.size + 1⟩ (m1 ++ m :: h.nodes.length :: m2) ∧
      valOf h2 h.nodes.length = some v ∧
      (∀ x, x < h.nodes.length → valOf h2 x = valOf h x) ∧
      (∀ x, x < h.nodes.length → lstOf h2 x = lstOf h x) ∧
      (∀ j lrj msj, j ≠ li → listAt h j = some lrj → ringAt h j lrj msj →
        ringAt h2 j lrj msj) ∧
      Inv h2 := by
  obtain ⟨lr, rn, ms, m1, m2, hlr, hrn, hrl, hring, hdec⟩ :=
    argOK_ring hI.1 hok hmn hml
  obtain ⟨h2, hins, hLi2, hLs2, hLL2, hNL2, hring2, hrootl2, hvala2,
    hvalfr2, hlstfr2, hOther2, hWF2⟩ :=
    insertVA_spec (v := v) hI.1 hlr hrn hrl hring
      (show ms = (m1 ++ [m]) ++ m2 by rw [hdec]; simp)
  rw [lastOf_concat] at hins
  have heq : InsertAfter h li v (some m) = some (h2, some h.nodes.length) := by
    unfold InsertAfter
    simp [hmn, hml, hins]
  have hshape : (m1 ++ [m]) ++ h.nodes.length :: m2 =
      m1 ++ m :: h.nodes.length :: m2 := by simp
  rw [hshape] at hring2
  have hli_lt : li < h.lists.length := listAt_lt_length hlr
  refine ⟨lr, ms, m1, m2, h2, hlr, hring, hdec, heq, hLi2, hLs2, hLL2, hNL2,
    hring2, hvala2, hvalfr2, hlstfr2, hOther2, hWF2, ?_⟩
  refine lstB_insert hI.2 hli_lt hLL2 hlstfr2 ?_
  intro x hge hxlt
  rw [hNL2] at hxlt
  have hxe : x = h.nodes.length := by omega
  subst hxe
  exact hring2.2.2.2 h.nodes.length (by simp)

set_option maxHeartbeats 1000000 in
/-- InsertBefore with an honest member mark: the new element lands directly
before the mark on the ring. -/
theorem InsertBefore_ok {h : Heap T} {li m : Nat} {mn : Node T} (v : T)
    (hI : Inv h) (hok : argOKb h (some m) = true)
    (hmn : nodeAt h m = some mn) (hml : mn.list = some li) :
    ∃ lr ms m1 m2 h2, listAt h li = some lr ∧ ringAt h li lr ms ∧
      ms = m1 ++ m :: m2 ∧
      InsertBefore h li v (some m) = some (h2, some h.nodes.length) ∧
      listAt h2 li = some ⟨lr.root, lr.size + 1⟩ ∧
      (∀ j, j ≠ li → listAt h2 j = listAt h j) ∧
      h2.lists.length = h.lists.length ∧
      h2.nodes.length = h.nodes.length + 1 ∧
      ringAt h2 li ⟨lr.root, lr.size + 1⟩ (m1 ++ h.nodes.length :: m :: m2) ∧
      valOf h2 h.nodes.length = some v ∧
      (∀ x, x < h.nodes.length → valOf h2 x = valOf h x) ∧
      (∀ x, x < h.nodes.length → lstOf h2 x = lstOf h x) ∧
      (∀ j lrj msj, j ≠ li → listAt h j = some lrj → ringAt h j lrj msj →
        ringAt h2 j lrj msj) ∧
      Inv h2 := by
  obtain ⟨lr, rn, ms, m1, m2, hlr, hrn, hrl, hring, hdec⟩ :=
    argOK_ring hI.1 hok hmn hml
  have hmnp : mn.prev = some (lastOf lr.root m1) := by
    have hp := ring_pred (p := m1) (by rw [← hdec]; exact hring)
    unfold prevOf at hp
    rw [hmn] at hp
    simpa using hp
  obtain ⟨h2, hins, hLi2, hLs2, hLL2, hNL2, hring2, hrootl2, hvala2,
    hvalfr2, hlstfr2, hOther2, hWF2⟩ :=
    insertVA_spec (v := v) hI.1 hlr hrn hrl hring hdec
  have heq : InsertBefore h li v (some m) = some (h2, some h.nodes.length) := by
    unfold InsertBefore
    simp [hmn, hml, hmnp, hins]
  have hli_lt : li < h.lists.length := listAt_lt_length hlr
  refine ⟨lr, ms, m1, m2, h2, hlr, hring, hdec, heq, hLi2, hLs2, hLL2, hNL2,
    hring2, hvala2, hvalfr2, hlstfr2, hOther2, hWF2, ?_⟩
  refine lstB_insert hI.2 hli_lt hLL2 hlstfr2 ?_
  intro x hge hxlt
  rw [hNL2] at hxlt
  have hxe : x = h.nodes.length := by omega
  subst hxe
  exact hring2.2.2.2 h.nodes.length (by simp)

/-- The Remove guard: an element not belonging to the list is left alone and
its value is still returned. -/
theorem Remove_guard {h : Heap T} {li e : Nat} {en : Node T}
    (hen : nodeAt h e = some en) (hg : en.list ≠ some li) :
    Remove h li (some e) = some (h, en.value) := by
  unfold Remove
  simp [hen, hg]

/-- Remove with an honest member element. -/
theorem Remove_ok {h : Heap T} {li e : Nat} {en : Node T}
    (hI : Inv h) (hok : argOKb h (some e) = true)
    (hen : nodeAt h e = some en) (hel : en.list = some li) :
    ∃ lr ms m1 m2 h2, listAt h li = some lr ∧ ringAt h li lr ms ∧
      ms = m1 ++ e :: m2 ∧
      Remove h li (some e) = some (h2, en.value) ∧
      listAt h2 li = some ⟨lr.root, lr.size - 1⟩ ∧
      (∀ j, j ≠ li → listAt h2 j = listAt h j) ∧
      h2.lists.length = h.lists.length ∧
      h2.nodes.length = h.nodes.length ∧
      ringAt h2 li ⟨lr.root, lr.size - 1⟩ (m1 ++ m2) ∧
      nodeAt h2 e = some ⟨none, none, none, en.value⟩ ∧
      (∀ x, valOf h2 x = valOf h x) ∧
      (∀ x, x ≠ e → lstOf h2 x = lstOf h x) ∧
      (∀ j lrj msj, j ≠ li → listAt h j = some lrj → ringAt h j lrj msj →
        ringAt h2 j lrj msj) ∧
      Inv h2 := by
  obtain ⟨lr, rn, ms, m1, m2, hlr, hrn, hrl, hring, hdec⟩ :=
    argOK_ring hI.1 hok hen hel
  obtain ⟨h2, en2, hen2, heq, hLi2, hLs2, hLL2, hNL2, hring2, hrootl2,
    hnAt2, hval2, hlst2, hOther2, hWF2⟩ :=
    Remove_member_spec hI.1 hlr hrn hrl hring hdec
  have hene : en2 = en := by
    rw [hen] at hen2
    exact (Option.some.inj hen2).symm
  subst hene
  refine ⟨lr, ms, m1, m2, h2, hlr, hring, hdec, heq, hLi2, hLs2, hLL2, hNL2,
    hring2, hnAt2, hval2, hlst2, hOther2, hWF2, ?_⟩
  refine lstB_frame hI.2 (by omega) ?_ ?_
  · intro x hx
    by_cases hxe : x = e
    · subst hxe
      right
      unfold lstOf
      rw [hnAt2]
      rfl
    · exact Or.inl (hlst2 x hxe)
  · intro x n2 hge hx2
    have := nodeAt_lt_length hx2
    omega


/-! Invariant preservation for the four move operations. -/

theorem ring_unique {h : Heap T} {l : Nat} {lr lr2 : LRec} {ms ms2 : List Nat}
    (hlr : listAt h l = some lr) (hr : ringAt h l lr ms)
    (hlr2 : listAt h l = some lr2) (hr2 : ringAt h l lr2 ms2) :
    lr2 = lr ∧ ms2 = ms := by
  have hle : lr2 = lr := by
    rw [hlr] at hlr2
    exact (Option.some.inj hlr2).symm
  subst hle
  have e1 := msOf_eq hlr hr
  have e2 := msOf_eq hlr2 hr2
  rw [e1] at e2
  exact ⟨rfl, (Option.some.inj e2).symm⟩

/-- The inner moveAfter of a member after another ring node, as used by all
four public move operations, preserves the invariant. -/
theorem Inv_moveAfter_member {h h2 : Heap T} {l e mrk : Nat} {lr : LRec}
    {rn : Node T} {ms m1 m2 : List Nat}
    (hI : Inv h) (hlr : listAt h l = some lr) (hrn : nodeAt h lr.root = some rn)
    (hrl : rn.list = none) (hring : ringAt h l lr ms) (hdec : ms = m1 ++ e :: m2)
    (hmrk : mrk ∈ lr.root :: ms) (hne : mrk ≠ e)
    (hs : moveAfter h e (some mrk) = some h2) : Inv h2 := by
  obtain ⟨h6, w1, w2, _, _, heq, hLs6, hLL6, hNL6, hring6, hlst6, hval6,
    hother6, hWF6⟩ := moveAfter_spec hI.1 hlr hrn hrl hring hdec hmrk hne
  rw [hs] at heq
  have he : h6 = h2 := (Option.some.inj heq).symm
  subst he
  refine ⟨hWF6, lstB_frame hI.2 (by omega) (fun x _ => Or.inl (hlst6 x)) ?_⟩
  intro x n2 hge hx2
  have := nodeAt_lt_length hx2
  omega

theorem Inv_MoveAfter {h h2 : Heap T} {l : Nat} {eR mR : Option Nat}
    (hI : Inv h) (hoke : argOKb h eR = true) (hokm : argOKb h mR = true)
    (hs : MoveAfter h l eR mR = some h2) : Inv h2 := by
  unfold MoveAfter at hs
  cases eR with
  | none => exact absurd hs (by simp)
  | some e =>
    simp only [Option.bind_eq_bind, Option.some_bind] at hs
    cases hen : nodeAt h e with
    | none => rw [hen] at hs; exact absurd hs (by simp)
    | some en =>
      rw [hen] at hs
      simp only [Option.some_bind] at hs
      by_cases hg : en.list = some l
      · rw [if_neg (show ¬ (en.list ≠ some l) by simp [hg])] at hs
        cases mR with
        | none => exact absurd hs (by simp)
        | some m =>
          simp only [Option.some_bind] at hs
          cases hmn : nodeAt h m with
          | none => rw [hmn] at hs; exact absurd hs (by simp)
          | some mn =>
            rw [hmn] at hs
            simp only [Option.some_bind] at hs
            by_cases hgm : mn.list = some l
            · rw [if_neg (show ¬ (mn.list ≠ some l) by simp [hgm])] at hs
              by_cases hem : e = m
              · rw [if_pos hem] at hs
                rw [← Option.some.inj hs]
                exact hI
              · rw [if_neg hem] at hs
                obtain ⟨lr, rn, ms, m1, m2, hlr, hrn, hrl, hring, hdec⟩ :=
                  argOK_ring hI.1 hoke hen hg
                obtain ⟨lr2, rn2, ms2, k1, k2, hlr2, _, _, hring2, hdec2⟩ :=
                  argOK_ring hI.1 hokm hmn hgm
                obtain ⟨hlre, hmse⟩ := ring_unique hlr hring hlr2 hring2
                rw [hmse] at hdec2
                refine Inv_moveAfter_member hI hlr hrn hrl hring hdec ?_
                  (fun hh => hem hh.symm) hs
                exact List.mem_cons.mpr (Or.inr (by rw [hdec2]; simp))
            · rw [if_pos hgm] at hs
              rw [← Option.some.inj hs]
              exact hI
      · rw [if_pos hg] at hs
        rw [← Option.some.inj hs]
        exact hI

theorem Inv_MoveBefore {h h2 : Heap T} {l : Nat} {eR mR : Option Nat}
    (hI : Inv h) (hoke : argOKb h eR = true) (hokm : argOKb h mR = true)
    (hs : MoveBefore h l eR mR = some h2) : Inv h2 := by
  unfold MoveBefore at hs
  cases eR with
  | none => exact absurd hs (by simp)
  | some e =>
    simp only [Option.bind_eq_bind, Option.some_bind] at hs
    cases hen : nodeAt h e with
    | none => rw [hen] at hs; exact absurd hs (by simp)
    | some en =>
      rw [hen] at hs
      simp only [Option.some_bind] at hs
      by_cases hg : en.list = some l
      · rw [if_neg (show ¬ (en.list ≠ some l) by simp [hg])] at hs
        cases mR with
        | none => exact absurd hs (by simp)
        | some m =>
          simp only [Option.some_bind] at hs
          cases hmn : nodeAt h m with
          | none => rw [hmn] at hs; exact absurd hs (by simp)
          | some mn =>
            rw [hmn] at hs
            simp only [Option.some_bind] at hs
            by_cases hgm : mn.list = some l
            · rw [if_neg (show ¬ (mn.list ≠ some l) by simp [hgm])] at hs
              by_cases hem : e = m
              · rw [if_pos hem] at hs
                rw [← Option.some.inj hs]
                exact hI
              · rw [if_neg hem] at hs
                obtain ⟨lr, rn, ms, m1, m2, hlr, hrn, hrl, hring, hdec⟩ :=
                  argOK_ring hI.1 hoke hen hg
                obtain ⟨lr2, rn2, ms2, k1, k2, hlr2, _, _, hring2, hdec2⟩ :=
                  argOK_ring hI.1 hokm hmn hgm
                obtain ⟨hlre, hmse⟩ := ring_unique hlr hring hlr2 hring2
                rw [hmse] at hdec2
                have hringd : ringAt h l lr (k1 ++ m :: k2) := by
                  rw [← hdec2]
                  exact hring
                have hmnp : mn.prev = some (lastOf lr.root k1) := by
                  have hp := ring_pred (p := k1) hringd
                  unfold prevOf at hp
                  rw [hmn] at hp
                  simpa using hp
                rw [hmnp] at hs
                by_cases hpe : lastOf lr.root k1 = e
                · rw [hpe] at hs
                  unfold moveAfter at hs
                  rw [if_pos rfl] at hs
                  rw [← Option.some.inj hs]
                  exact hI
                · refine Inv_moveAfter_member hI hlr hrn hrl hring hdec ?_ hpe hs
                  rcases List.mem_cons.mp (lastOf_mem lr.root k1) with hh | hh
                  · rw [hh]
                    simp
                  · refine List.mem_cons.mpr (Or.inr ?_)
                    rw [hdec2]
                    exact List.mem_append.mpr (Or.inl hh)
            · rw [if_pos hgm] at hs
              rw [← Option.some.inj hs]
              exact hI
      · rw [if_pos hg] at hs
        rw [← Option.some.inj hs]
        exact hI

theorem Inv_MoveToBack {h h2 : Heap T} {l : Nat} {eR : Option Nat}
    (hI : Inv h) (hoke : argOKb h eR = true)
    (hs : MoveToBack h l eR = some h2) : Inv h2 := by
  unfold MoveToBack at hs
  cases eR with
  | none => exact absurd hs (by simp)
  | some e =>
    simp only [Option.bind_eq_bind, Option.some_bind] at hs
    cases hen : nodeAt h e with
    | none => rw [hen] at hs; exact absurd hs (by simp)
    | some en =>
      rw [hen] at hs
      simp only [Option.some_bind] at hs
      by_cases hg : en.list = some l
      · rw [if_neg (show ¬ (en.list ≠ some l) by simp [hg])] at hs
        obtain ⟨lr, rn, ms, m1, m2, hlr, hrn, hrl, hring, hdec⟩ :=
          argOK_ring hI.1 hoke hen hg
        rw [hlr] at hs
        simp only [Option.some_bind] at hs
        rw [hrn] at hs
        simp only [Option.some_bind] at hs
        have hrnp : rn.prev = some (lastOf lr.root ms) := by
          have hp := ring_prev_root hring.1
          unfold prevOf at hp
          rw [hrn] at hp
          simpa using hp
        by_cases hguard : rn.prev = some e
        · rw [if_pos hguard] at hs
          rw [← Option.some.inj hs]
          exact hI
        · rw [if_neg hguard] at hs
          rw [hrnp] at hs
          have hne : lastOf lr.root ms ≠ e := by
            intro hh
            exact hguard (by rw [hrnp, hh])
          refine Inv_moveAfter_member hI hlr hrn hrl hring hdec ?_ hne hs
          exact lastOf_mem lr.root ms
      · rw [if_pos hg] at hs
        rw [← Option.some.inj hs]
        exact hI

theorem Inv_MoveToFront {h h2 : Heap T} {l : Nat} {eR : Option Nat}
    (hI : Inv h) (hoke : argOKb h eR = true)
    (hs : MoveToFront h l eR = some h2) : Inv h2 := by
  unfold MoveToFront at hs
  cases eR with
  | none => exact absurd hs (by simp)
  | some e =>
    simp only [Option.bind_eq_bind, Option.some_bind] at hs
    cases hen : nodeAt h e with
    | none => rw [hen] at hs; exact absurd hs (by simp)
    | some en =>
      rw [hen] at hs
      simp only [Option.some_bind] at hs
      by_cases hg : en.list = some l
      · rw [if_neg (show ¬ (en.list ≠ some l) by simp [hg])] at hs
        obtain ⟨lr, rn, ms, m1, m2, hlr, hrn, hrl, hring, hdec⟩ :=
          argOK_ring hI.1 hoke hen hg
        rw [hlr] at hs
        simp only [Option.some_bind] at hs
        rw [hrn] at hs
        simp only [Option.some_bind] at hs
        by_cases hguard : rn.next = some e
        · rw [if_pos hguard] at hs
          rw [← Option.some.inj hs]
          exact hI
        · rw [if_neg hguard] at hs
          have he_mem : e ∈ ms := by
            rw [hdec]
            simp
          have hne : lr.root ≠ e := by
            intro hh
            exact (List.nodup_cons.mp hring.2.1).1 (hh ▸ he_mem)
          refine Inv_moveAfter_member hI hlr hrn hrl hring hdec ?_ hne hs
          simp
      · rw [if_pos hg] at hs
        rw [← Option.some.inj hs]
        exact hI


/-! Specifications of the two whole-list copy operations on initialized
lists, and invariant coverage of all their success paths. -/

set_option maxHeartbeats 1000000 in
/-- PushBackList on initialized rings: appends copies of the source values in
order. Covers the self-append case through the hsame hypothesis. -/
theorem PushBackList_ready {h : Heap T} {l o : Nat} {lrl lro : LRec}
    {msl mso : List Nat}
    (hI : Inv h)
    (hll : listAt h l = some lrl) (hringl : ringAt h l lrl msl)
    (hlo : listAt h o = some lro) (hringo : ringAt h o lro mso)
    (hsame : l = o → lrl = lro ∧ msl = mso) :
    ∃ h2 fresh, PushBackList h l o = some h2 ∧
      fresh.length = mso.length ∧
      listAt h2 l = some ⟨lrl.root, lrl.size + (mso.length : Int)⟩ ∧
      (∀ j, j ≠ l → listAt h2 j = listAt h j) ∧
      h2.lists.length = h.lists.length ∧
      h.nodes.length ≤ h2.nodes.length ∧
      ringAt h2 l ⟨lrl.root, lrl.size + (mso.length : Int)⟩ (msl ++ fresh) ∧
      List.Forall₂ (fun a b => valOf h2 a = valOf h b) fresh mso ∧
      (∀ x, x < h.nodes.length → valOf h2 x = valOf h x) ∧
      (∀ x, x < h.nodes.length → lstOf h2 x = lstOf h x) ∧
      (l ≠ o → ringAt h2 o lro mso) ∧
      Inv h2 := by
  obtain ⟨rn1, hrn1, hrl1, _⟩ :=
    listWFat_cases (hI.1.2 l (listAt_lt_length hll)) hll
  have hnx1 : rn1.next = some (hdOf lrl.root msl) := by
    have hp := ring_next_root hringl.1
    unfold nextOf at hp
    rw [hrn1] at hp
    simpa using hp
  have hlz : lazyInit h l = some h := by
    refine lazyInit_inited hll hrn1 ?_
    rw [hnx1]
    exact Option.some_ne_none _
  rcases hmso : mso with _ | ⟨c, rest⟩
  · subst hmso
    have hsz0 : lro.size = 0 := by
      rw [hringo.2.2.1]
      rfl
    have hFr : Front h o = some none := by
      unfold Front
      rw [hlo]
      simp only [Option.bind_eq_bind, Option.some_bind]
      rw [if_pos hsz0]
    have heq : PushBackList h l o = some h := by
      unfold PushBackList
      rw [hlz]
      simp only [Option.bind_eq_bind, Option.some_bind]
      rw [hFr]
      simp only [Option.some_bind]
      rw [hlo]
      simp only [Option.some_bind]
      rw [hsz0]
      rfl
    have heta : (⟨lrl.root, lrl.size + ((List.length ([] : List Nat)) : Int)⟩ :
        LRec) = lrl := by simp
    refine ⟨h, [], heq, rfl, ?_, fun j _ => rfl, rfl, le_refl _, ?_,
      List.Forall₂.nil, fun x _ => rfl, fun x _ => rfl, fun _ => hringo, hI⟩
    · rw [heta]
      exact hll
    · rw [heta]
      rw [show msl ++ ([] : List Nat) = msl from by simp]
      exact hringl
  · subst hmso
    obtain ⟨rno, hrno, hrnon⟩ := nodeAt_of_nextOf (ring_next_root hringo.1)
    have hszne : ¬ (lro.size = 0) := by
      rw [hringo.2.2.1]
      simp only [List.length_cons]
      omega
    have hFr : Front h o = some (some c) := by
      unfold Front
      rw [hlo]
      simp only [Option.bind_eq_bind, Option.some_bind]
      rw [if_neg hszne]
      rw [hrno]
      simp only [Option.some_bind]
      rw [hrnon]
      rfl
    have hfuel : lro.size.toNat = (c :: rest).length := by
      rw [hringo.2.2.1]
      simp
    have hshape : ([] : List Nat) ++ (c :: rest) ++ [] = c :: rest := by simp
    have hro2 : ringAt h o lro ([] ++ (c :: rest) ++ []) := by
      rw [hshape]
      exact hringo
    obtain ⟨h2, fresh, hloop, hlen, hLi2, hLs2, hLL2, hNL2, hring2, hvals2,
      hvalfr2, hlstfr2, hnewl2, hother2, hWF2⟩ :=
      pushBackLoop_spec (c :: rest) h (some c) l o lrl lro msl [] [] rn1
        hI.1 hll hrn1 hrl1 hringl hlo hro2
        (fun hq => ⟨(hsame hq).1, by rw [hshape]; exact (hsame hq).2⟩)
        (fun c' s2 hss => by cases hss; rfl)
    have heq : PushBackList h l o = some h2 := by
      unfold PushBackList
      rw [hlz]
      simp only [Option.bind_eq_bind, Option.some_bind]
      rw [hFr]
      simp only [Option.some_bind]
      rw [hlo]
      simp only [Option.some_bind]
      rw [hfuel]
      exact hloop
    have hl_lt2 : l < h2.lists.length := by
      exact listAt_lt_length hLi2
    refine ⟨h2, fresh, heq, hlen, hLi2, hLs2, hLL2, hNL2, hring2, hvals2,
      hvalfr2, hlstfr2, ?_, hWF2, ?_⟩
    · intro hq
      have h0 := hother2 hq
      rw [hshape] at h0
      exact h0
    · refine lstB_frame hI.2 (by omega) (fun x hx => Or.inl (hlstfr2 x hx)) ?_
      intro x n2 hge hx2
      have hlt2 := nodeAt_lt_length hx2
      have hl0 := hnewl2 x hge hlt2
      have hl2 : lstOf h2 x = some n2.list := by
        unfold lstOf
        rw [hx2]
        rfl
      rw [hl0] at hl2
      exact Or.inr ⟨l, (Option.some.inj hl2).symm, by omega⟩

set_option maxHeartbeats 1000000 in
/-- PushFrontList on initialized rings: prepends copies of the source values,
preserving their order. -/
theorem PushFrontList_ready {h : Heap T} {l o : Nat} {lrl lro : LRec}
    {msl mso : List Nat}
    (hI : Inv h)
    (hll : listAt h l = some lrl) (hringl : ringAt h l lrl msl)
    (hlo : listAt h o = some lro) (hringo : ringAt h o lro mso)
    (hsame : l = o → lrl = lro ∧ msl = mso) :
    ∃ h2 fresh, PushFrontList h l o = some h2 ∧
      fresh.length = mso.length ∧
      listAt h2 l = some ⟨lrl.root, lrl.size + (mso.length : Int)⟩ ∧
      (∀ j, j ≠ l → listAt h2 j = listAt h j) ∧
      h2.lists.length = h.lists.length ∧
      h.nodes.length ≤ h2.nodes.length ∧
      ringAt h2 l ⟨lrl.root, lrl.size + (mso.length : Int)⟩ (fresh ++ msl) ∧
      List.Forall₂ (fun a b => valOf h2 a = valOf h b) fresh mso ∧
      (∀ x, x < h.nodes.length → valOf h2 x = valOf h x) ∧
      (∀ x, x < h.nodes.length → lstOf h2 x = lstOf h x) ∧
      (l ≠ o → ringAt h2 o lro mso) ∧
      Inv h2 := by
  obtain ⟨rn1, hrn1, hrl1, _⟩ :=
    listWFat_cases (hI.1.2 l (listAt_lt_length hll)) hll
  have hnx1 : rn1.next = some (hdOf lrl.root msl) := by
    have hp := ring_next_root hringl.1
    unfold nextOf at hp
    rw [hrn1] at hp
    simpa using hp
  have hlz : lazyInit h l = some h := by
    refine lazyInit_inited hll hrn1 ?_
    rw [hnx1]
    exact Option.some_ne_none _
  rcases hem : mso with _ | ⟨c0, rest0⟩
  · subst hem
    have hsz0 : lro.size = 0 := by
      rw [hringo.2.2.1]
      rfl
    have hBk : Back h o = some none := by
      unfold Back
      rw [hlo]
      simp only [Option.bind_eq_bind, Option.some_bind]
      rw [if_pos hsz0]
    have heq : PushFrontList h l o = some h := by
      unfold PushFrontList
      rw [hlz]
      simp only [Option.bind_eq_bind, Option.some_bind]
      rw [hBk]
      simp only [Option.some_bind]
      rw [hlo]
      simp only [Option.some_bind]
      rw [hsz0]
      rfl
    have heta : (⟨lrl.root, lrl.size + ((List.length ([] : List Nat)) : Int)⟩ :
        LRec) = lrl := by simp
    refine ⟨h, [], heq, rfl, ?_, fun j _ => rfl, rfl, le_refl _, ?_,
      List.Forall₂.nil, fun x _ => rfl, fun x _ => rfl, fun _ => hringo, hI⟩
    · rw [heta]
      exact hll
    · rw [heta]
      rw [show ([] : List Nat) ++ msl = msl from by simp]
      exact hringl
  · subst hem
    obtain ⟨rno, hrno, hrnon⟩ := nodeAt_of_nextOf (ring_next_root hringo.1)
    have hrnop : rno.prev = some (lastOf lro.root (c0 :: rest0)) := by
      have hp := ring_prev_root hringo.1
      unfold prevOf at hp
      rw [hrno] at hp
      simpa using hp
    have hszne : ¬ (lro.size = 0) := by
      rw [hringo.2.2.1]
      simp only [List.length_cons]
      omega
    have hBk : Back h o = some (some (lastOf lro.root (c0 :: rest0))) := by
      unfold Back
      rw [hlo]
      simp only [Option.bind_eq_bind, Option.some_bind]
      rw [if_neg hszne]
      rw [hrno]
      simp only [Option.some_bind]
      rw [hrnop]
    have hfuel : lro.size.toNat = ((c0 :: rest0).reverse).length := by
      rw [hringo.2.2.1]
      simp
    have hshape : ([] : List Nat) ++ ((c0 :: rest0).reverse).reverse ++ [] =
        c0 :: rest0 := by
      simp
    have hro2 : ringAt h o lro ([] ++ ((c0 :: rest0).reverse).reverse ++ []) := by
      rw [hshape]
      exact hringo
    have heR : ∀ c r2, (c0 :: rest0).reverse = c :: r2 →
        (some (lastOf lro.root (c0 :: rest0)) : Option Nat) = some c := by
      intro c r2 hrev
      have hm : c0 :: rest0 = r2.reverse ++ [c] := by
        rw [← List.reverse_reverse (c0 :: rest0), hrev]
        simp
      rw [hm]
      rw [lastOf_concat]
    obtain ⟨h2, fresh, hloop, hlen, hLi2, hLs2, hLL2, hNL2, hring2, hvals2,
      hvalfr2, hlstfr2, hnewl2, hother2, hWF2⟩ :=
      pushFrontLoop_spec ((c0 :: rest0).reverse) h
        (some (lastOf lro.root (c0 :: rest0))) l o
        lrl lro msl [] [] rn1
        hI.1 hll hrn1 hrl1 hringl hlo hro2
        (fun hq => ⟨(hsame hq).1, by rw [hshape]; exact (hsame hq).2⟩)
        heR
    have heq : PushFrontList h l o = some h2 := by
      unfold PushFrontList
      rw [hlz]
      simp only [Option.bind_eq_bind, Option.some_bind]
      rw [hBk]
      simp only [Option.some_bind]
      rw [hlo]
      simp only [Option.some_bind]
      rw [hfuel]
      exact hloop
    rw [List.length_reverse] at hLi2 hring2 hlen
    rw [List.reverse_reverse] at hvals2
    refine ⟨h2, fresh, heq, hlen, hLi2, hLs2, hLL2, hNL2, hring2, hvals2,
      hvalfr2, hlstfr2, ?_, hWF2, ?_⟩
    · intro hq
      have h0 := hother2 hq
      rw [hshape] at h0
      exact h0
    · refine lstB_frame hI.2 (by omega) (fun x hx => Or.inl (hlstfr2 x hx)) ?_
      intro x n2 hge hx2
      have hlt2 := nodeAt_lt_length hx2
      have hl0 := hnewl2 x hge hlt2
      have hl2 : lstOf h2 x = some n2.list := by
        unfold lstOf
        rw [hx2]
        rfl
      rw [hl0] at hl2
      have hl_lt2 : l < h2.lists.length := listAt_lt_length hLi2
      exact Or.inr ⟨l, (Option.some.inj hl2).symm, by omega⟩


/-! Invariant coverage of every success path of every public operation, and
preservation along safe traces. -/

theorem Inv_PushBack {h h2 : Heap T} {l : Nat} {v : T}
    (hI : Inv h) (hs : (PushBack h l v).map (·.1) = some h2) : Inv h2 := by
  have hlz_ex : ∃ h1, lazyInit h l = some h1 := by
    have hs2 := hs
    unfold PushBack at hs2
    cases hlz : lazyInit h l with
    | none => rw [hlz] at hs2; exact absurd hs2 (by simp)
    | some h1 => exact ⟨h1, rfl⟩
  obtain ⟨h1, hlz⟩ := hlz_ex
  obtain ⟨lr, hlr⟩ := lazyInit_some hlz
  obtain ⟨ms, h2b, heq, _, _, _, _, _, _, _, _, _, _, hI2⟩ :=
    PushBack_spec v hI hlr
  rw [heq] at hs
  have he : h2b = h2 := by simpa using hs
  rw [← he]
  exact hI2

theorem Inv_PushFront {h h2 : Heap T} {l : Nat} {v : T}
    (hI : Inv h) (hs : (PushFront h l v).map (·.1) = some h2) : Inv h2 := by
  have hlz_ex : ∃ h1, lazyInit h l = some h1 := by
    have hs2 := hs
    unfold PushFront at hs2
    cases hlz : lazyInit h l with
    | none => rw [hlz] at hs2; exact absurd hs2 (by simp)
    | some h1 => exact ⟨h1, rfl⟩
  obtain ⟨h1, hlz⟩ := hlz_ex
  obtain ⟨lr, hlr⟩ := lazyInit_some hlz
  obtain ⟨ms, h2b, heq, _, _, _, _, _, _, _, _, _, _, hI2⟩ :=
    PushFront_spec v hI hlr
  rw [heq] at hs
  have he : h2b = h2 := by simpa using hs
  rw [← he]
  exact hI2

theorem Inv_InsertAfter {h h2 : Heap T} {l : Nat} {v : T} {mR : Option Nat}
    (hI : Inv h) (hok : argOKb h mR = true)
    (hs : (InsertAfter h l v mR).map (·.1) = some h2) : Inv h2 := by
  cases mR with
  | none =>
    unfold InsertAfter at hs
    exact absurd hs (by simp)
  | some m =>
    cases hmn : nodeAt h m with
    | none =>
      unfold InsertAfter at hs
      simp only [Option.bind_eq_bind, Option.some_bind] at hs
      rw [hmn] at hs
      exact absurd hs (by simp)
    | some mn =>
      by_cases hml : mn.list = some l
      · obtain ⟨lr, ms, m1, m2, h2b, _, _, _, heq, _, _, _, _, _, _, _, _, _,
          hI2⟩ := InsertAfter_ok v hI hok hmn hml
        rw [heq] at hs
        have he : h2b = h2 := by simpa using hs
        rw [← he]
        exact hI2
      · have heq := InsertAfter_guard v hmn hml
        rw [heq] at hs
        have he : h = h2 := by simpa using hs
        rw [← he]
        exact hI

theorem Inv_InsertBefore {h h2 : Heap T} {l : Nat} {v : T} {mR : Option Nat}
    (hI : Inv h) (hok : argOKb h mR = true)
    (hs : (InsertBefore h l v mR).map (·.1) = some h2) : Inv h2 := by
  cases mR with
  | none =>
    unfold InsertBefore at hs
    exact absurd hs (by simp)
  | some m =>
    cases hmn : nodeAt h m with
    | none =>
      unfold InsertBefore at hs
      simp only [Option.bind_eq_bind, Option.some_bind] at hs
      rw [hmn] at hs
      exact absurd hs (by simp)
    | some mn =>
      by_cases hml : mn.list = some l
      · obtain ⟨lr, ms, m1, m2, h2b, _, _, _, heq, _, _, _, _, _, _, _, _, _,
          hI2⟩ := InsertBefore_ok v hI hok hmn hml
        rw [heq] at hs
        have he : h2b = h2 := by simpa using hs
        rw [← he]
        exact hI2
      · have heq := InsertBefore_guard v hmn hml
        rw [heq] at hs
        have he : h = h2 := by simpa using hs
        rw [← he]
        exact hI

theorem Inv_Remove {h h2 : Heap T} {l : Nat} {eR : Option Nat}
    (hI : Inv h) (hok : argOKb h eR = true)
    (hs : (Remove h l eR).map (·.1) = some h2) : Inv h2 := by
  cases eR with
  | none =>
    unfold Remove at hs
    exact absurd hs (by simp)
  | some e =>
    cases hen : nodeAt h e with
    | none =>
      unfold Remove at hs
      simp only [Option.bind_eq_bind, Option.some_bind] at hs
      rw [hen] at hs
      exact absurd hs (by simp)
    | some en =>
      by_cases hel : en.list = some l
      · obtain ⟨lr, ms, m1, m2, h2b, _, _, _, heq, _, _, _, _, _, _, _, _, _,
          hI2⟩ := Remove_ok hI hok hen hel
        rw [heq] at hs
        have he : h2b = h2 := by simpa using hs
        rw [← he]
        exact hI2
      · have heq := Remove_guard hen hel
        rw [heq] at hs
        have he : h = h2 := by simpa using hs
        rw [← he]
        exact hI

theorem Inv_PushBackList {h h2 : Heap T} {l o : Nat}
    (hI : Inv h) (hs : PushBackList h l o = some h2) : Inv h2 := by
  have hlz_ex : ∃ h1x, lazyInit h l = some h1x := by
    have hs2 := hs
    unfold PushBackList at hs2
    cases hlz : lazyInit h l with
    | none => rw [hlz] at hs2; exact absurd hs2 (by simp)
    | some h1x => exact ⟨h1x, rfl⟩
  obtain ⟨h1x, hlzx⟩ := hlz_ex
  obtain ⟨lr, hlr⟩ := lazyInit_some hlzx
  obtain ⟨h1, msl, rn1, hlz, hL1, hrn1, hrl1, hring1, hLs1, hLL1, hNL1,
    hlst1, hval1, hother1, hdich, hI1⟩ := lazyInit_spec hI hlr
  unfold PushBackList at hs
  rw [hlz] at hs
  simp only [Option.bind_eq_bind, Option.some_bind] at hs
  cases hLo1 : listAt h1 o with
  | none =>
    have hFr : Front h1 o = none := by
      unfold Front
      rw [hLo1]
      rfl
    rw [hFr] at hs
    exact absurd hs (by simp)
  | some lro =>
    obtain ⟨rno, hrno, hrlo, hcs⟩ :=
      listWFat_cases (hI1.1.2 o (listAt_lt_length hLo1)) hLo1
    rcases hcs with ⟨hnxo, hpvo, hszo, hnmo⟩ | ⟨mso, hmso, hringo⟩
    · have hFr : Front h1 o = some none := by
        unfold Front
        rw [hLo1]
        simp only [Option.bind_eq_bind, Option.some_bind]
        rw [if_pos hszo]
      rw [hFr] at hs
      simp only [Option.some_bind] at hs
      rw [hLo1] at hs
      simp only [Option.some_bind] at hs
      rw [hszo] at hs
      have hred : pushBackLoop h1 l none ((0 : Int).toNat) = some h1 := rfl
      rw [hred] at hs
      rw [← Option.some.inj hs]
      exact hI1
    · have hnx1 : rn1.next = some (hdOf lr.root msl) := by
        have hp := ring_next_root hring1.1
        unfold nextOf at hp
        rw [hrn1] at hp
        simpa using hp
      have hlz1 : lazyInit h1 l = some h1 := by
        refine lazyInit_inited hL1 hrn1 ?_
        rw [hnx1]
        exact Option.some_ne_none _
      have hsame : l = o → lr = lro ∧ msl = mso := by
        intro hq
        subst hq
        rw [hL1] at hLo1
        have hle : lro = lr := (Option.some.inj hLo1).symm
        subst hle
        exact ⟨rfl, ((ring_unique hL1 hring1 hL1 hringo).2).symm⟩
      obtain ⟨h2b, fresh, heq, _, _, _, _, _, _, _, _, _, _, hI2⟩ :=
        PushBackList_ready hI1 hL1 hring1 hLo1 hringo hsame
      have heq2 := heq
      unfold PushBackList at heq2
      rw [hlz1] at heq2
      simp only [Option.bind_eq_bind, Option.some_bind] at heq2
      have hfin : some h2b = some h2 := heq2.symm.trans hs
      rw [← Option.some.inj hfin]
      exact hI2

theorem Inv_PushFrontList {h h2 : Heap T} {l o : Nat}
    (hI : Inv h) (hs : PushFrontList h l o = some h2) : Inv h2 := by
  have hlz_ex : ∃ h1x, lazyInit h l = some h1x := by
    have hs2 := hs
    unfold PushFrontList at hs2
    cases hlz : lazyInit h l with
    | none => rw [hlz] at hs2; exact absurd hs2 (by simp)
    | some h1x => exact ⟨h1x, rfl⟩
  obtain ⟨h1x, hlzx⟩ := hlz_ex
  obtain ⟨lr, hlr⟩ := lazyInit_some hlzx
  obtain ⟨h1, msl, rn1, hlz, hL1, hrn1, hrl1, hring1, hLs1, hLL1, hNL1,
    hlst1, hval1, hother1, hdich, hI1⟩ := lazyInit_spec hI hlr
  unfold PushFrontList at hs
  rw [hlz] at hs
  simp only [Option.bind_eq_bind, Option.some_bind] at hs
  cases hLo1 : listAt h1 o with
  | none =>
    have hBk : Back h1 o = none := by
      unfold Back
      rw [hLo1]
      rfl
    rw [hBk] at hs
    exact absurd hs (by simp)
  | some lro =>
    obtain ⟨rno, hrno, hrlo, hcs⟩ :=
      listWFat_cases (hI1.1.2 o (listAt_lt_length hLo1)) hLo1
    rcases hcs with ⟨hnxo, hpvo, hszo, hnmo⟩ | ⟨mso, hmso, hringo⟩
    · have hBk : Back h1 o = some none := by
        unfold Back
        rw [hLo1]
        simp only [Option.bind_eq_bind, Option.some_bind]
        rw [if_pos hszo]
      rw [hBk] at hs
      simp only [Option.some_bind] at hs
      rw [hLo1] at hs
      simp only [Option.some_bind] at hs
      rw [hszo] at hs
      have hred : pushFrontLoop h1 l none ((0 : Int).toNat) = some h1 := rfl
      rw [hred] at hs
      rw [← Option.some.inj hs]
      exact hI1
    · have hnx1 : rn1.next = some (hdOf lr.root msl) := by
        have hp := ring_next_root hring1.1
        unfold nextOf at hp
        rw [hrn1] at hp
        simpa using hp
      have hlz1 : lazyInit h1 l = some h1 := by
        refine lazyInit_inited hL1 hrn1 ?_
        rw [hnx1]
        exact Option.some_ne_none _
      have hsame : l = o → lr = lro ∧ msl = mso := by
        intro hq
        subst hq
        rw [hL1] at hLo1
        have hle : lro = lr := (Option.some.inj hLo1).symm
        subst hle
        exact ⟨rfl, ((ring_unique hL1 hring1 hL1 hringo).2).symm⟩
      obtain ⟨h2b, fresh, heq, _, _, _, _, _, _, _, _, _, _, hI2⟩ :=
        PushFrontList_ready hI1 hL1 hring1 hLo1 hringo hsame
      have heq2 := heq
      unfold PushFrontList at heq2
      rw [hlz1] at heq2
      simp only [Option.bind_eq_bind, Option.some_bind] at heq2
      have hfin : some h2b = some h2 := heq2.symm.trans hs
      rw [← Option.some.inj hfin]
      exact hI2

/-- One safe step preserves the invariant. -/
theorem Inv_step [Inhabited T] {h h2 : Heap T} {op : Op T}
    (hI : Inv h) (hok : opOKb h op = true) (hs : step h op = some h2) :
    Inv h2 := by
  cases op with
  | newL =>
    have he : NewL h default = h2 := Option.some.inj hs
    rw [← he]
    exact Inv_NewL hI default
  | newRaw =>
    have he : NewRaw h default = h2 := Option.some.inj hs
    rw [← he]
    exact Inv_NewRaw hI default
  | initL l => exact Inv_InitL hI hs
  | pushBack l v => exact Inv_PushBack hI hs
  | pushFront l v => exact Inv_PushFront hI hs
  | insertAfter l v m => exact Inv_InsertAfter hI hok hs
  | insertBefore l v m => exact Inv_InsertBefore hI hok hs
  | remove l e => exact Inv_Remove hI hok hs
  | moveToFront l e => exact Inv_MoveToFront hI hok hs
  | moveToBack l e => exact Inv_MoveToBack hI hok hs
  | moveBefore l e m =>
    have hok2 : (argOKb h e && argOKb h m) = true := hok
    obtain ⟨h1ok, h2ok⟩ : argOKb h e = true ∧ argOKb h m = true := by
      simpa using hok2
    exact Inv_MoveBefore hI h1ok h2ok hs
  | moveAfter l e m =>
    have hok2 : (argOKb h e && argOKb h m) = true := hok
    obtain ⟨h1ok, h2ok⟩ : argOKb h e = true ∧ argOKb h m = true := by
      simpa using hok2
    exact Inv_MoveAfter hI h1ok h2ok hs
  | pushBackList l o => exact Inv_PushBackList hI hs
  | pushFrontList l o => exact Inv_PushFrontList hI hs

/-- Safe traces preserve the invariant. -/
theorem Inv_run [Inhabited T] :
    ∀ (ops : List (Op T)) (h h2 : Heap T), Inv h → SafeRun h ops →
      run h ops = some h2 → Inv h2 := by
  intro ops
  induction ops with
  | nil =>
    intro h h2 hI _ hr
    have he : h = h2 := Option.some.inj hr
    rw [← he]
    exact hI
  | cons op ops ih =>
    intro h h2 hI hsafe hr
    unfold run at hr
    cases hst : step h op with
    | none => rw [hst] at hr; exact absurd hr (by simp)
    | some h1 =>
      rw [hst] at hr
      simp only [Option.some_bind] at hr
      obtain ⟨hok, hopt⟩ := hsafe
      have hrest : SafeRun h1 ops := by
        rw [hst] at hopt
        exact hopt
      exact ih h1 h2 (Inv_step hI hok hst) hrest hr

/-- The empty heap satisfies the invariant. -/
theorem Inv_hEmpty : Inv (hEmpty : Heap T) := by
  refine ⟨⟨?_, ?_⟩, ?_⟩
  · intro i hi
    simp [hEmpty] at hi
  · intro li hli
    simp [hEmpty] at hli
  · intro n hn
    simp [hEmpty] at hn



/-- A ring has fewer members than the heap has nodes. -/
theorem ring_len_lt {h : Heap T} {li : Nat} {lr : LRec} {ms : List Nat}
    (hr : ringAt h li lr ms) : ms.length < h.nodes.length := by
  obtain ⟨hc, hnd, hsz, hmm⟩ := hr
  obtain ⟨rn, hrn⟩ : ∃ n, nodeAt h lr.root = some n := by
    have hp := ring_prev_root hc
    unfold prevOf at hp
    cases hn : nodeAt h lr.root with
    | none => rw [hn] at hp; exact absurd hp (by simp)
    | some n => exact ⟨n, rfl⟩
  have hroot_lt : lr.root < h.nodes.length := nodeAt_lt_length hrn
  have hmem_lt : ∀ a ∈ lr.root :: ms, a < h.nodes.length := by
    intro a ha
    rcases List.mem_cons.mp ha with rfl | ha2
    · exact hroot_lt
    · obtain ⟨n, hn⟩ := chainL_mem_nodeAt hc a (by simp [ha2])
      exact nodeAt_lt_length hn
  have := nodup_length_le hnd hmem_lt
  simp at this
  omega

/-- Element.Next of a ring member returns the following member, none at the
last one. -/
theorem NextE_ring {h : Heap T} {li : Nat} {lr : LRec} {ms p rest : List Nat}
    {c : Nat} (hlr : listAt h li = some lr) (hr : ringAt h li lr ms)
    (hdec : ms = p ++ c :: rest) : NextE h c = some (hdOpt rest) := by
  have hrd : ringAt h li lr (p ++ c :: rest) := by rw [← hdec]; exact hr
  have hlst : lstOf h c = some (some li) := hr.2.2.2 c (by rw [hdec]; simp)
  obtain ⟨n, hn, hnl⟩ := nodeAt_of_lstOf hlst
  have hsucc := ring_succ (p := p) hrd
  have hnn : n.next = some (hdOf lr.root rest) := by
    unfold nextOf at hsucc
    rw [hn] at hsucc
    simpa using hsucc
  unfold NextE
  simp only [hn, Option.bind_eq_bind, Option.some_bind]
  rw [hnl]
  simp only [hlr, Option.bind_eq_bind, Option.some_bind]
  cases rest with
  | nil =>
    rw [hnn]
    simp only [hdOf]
    simp only [if_true]
    rfl
  | cons d ds =>
    rw [hnn]
    have hdne : d ≠ lr.root := by
      intro hh
      have hdm : lr.root ∈ ms := by
        rw [hdec, ← hh]
        simp
      exact (List.nodup_cons.mp hr.2.1).1 hdm
    rw [if_neg (by
      intro hh
      exact hdne (Option.some.inj hh))]
    rfl

/-- Element.Prev of a ring member returns the preceding member, none at the
first one. -/
theorem PrevE_ring {h : Heap T} {li : Nat} {lr : LRec} {ms p rest : List Nat}
    {c : Nat} (hlr : listAt h li = some lr) (hr : ringAt h li lr ms)
    (hdec : ms = p ++ c :: rest) : PrevE h c = some (hdOpt p.reverse) := by
  have hrd : ringAt h li lr (p ++ c :: rest) := by rw [← hdec]; exact hr
  have hlst : lstOf h c = some (some li) := hr.2.2.2 c (by rw [hdec]; simp)
  obtain ⟨n, hn, hnl⟩ := nodeAt_of_lstOf hlst
  have hpred := ring_pred (p := p) hrd
  have hnp : n.prev = some (lastOf lr.root p) := by
    unfold prevOf at hpred
    rw [hn] at hpred
    simpa using hpred
  unfold PrevE
  simp only [hn, Option.bind_eq_bind, Option.some_bind]
  rw [hnl]
  simp only [hlr, Option.bind_eq_bind, Option.some_bind]
  rcases List.eq_nil_or_concat p with rfl | ⟨q, d, rfl⟩
  · rw [hnp, lastOf_nil, if_pos rfl]
    rfl
  · simp only [List.concat_eq_append] at hnp hdec
    rw [hnp, lastOf_concat]
    have hdne : d ≠ lr.root := by
      intro hh
      have hdm : lr.root ∈ ms := by
        rw [hdec, ← hh]
        simp
      exact (List.nodup_cons.mp hr.2.1).1 hdm
    rw [if_neg (by
      intro hh
      exact hdne (Option.some.inj hh))]
    simp [hdOpt, List.concat_eq_append]

/-- Walking Next from any suffix of the ring collects exactly that suffix. -/
theorem walkNext_ring {h : Heap T} {li : Nat} {lr : LRec} {ms : List Nat}
    (hlr : listAt h li = some lr) (hr : ringAt h li lr ms) :
    ∀ (rest p : List Nat), ms = p ++ rest → ∀ fuel, rest.length < fuel →
      walkNext h (hdOpt rest) fuel = some rest := by
  intro rest
  induction rest with
  | nil =>
    intro p hdec fuel hf
    obtain ⟨f, rfl⟩ : ∃ f, fuel = f + 1 := ⟨fuel - 1, by omega⟩
    rfl
  | cons c rest2 ih =>
    intro p hdec fuel hf
    obtain ⟨f2, rfl⟩ : ∃ f2, fuel = f2 + 1 := ⟨fuel - 1, by omega⟩
    have hNE := NextE_ring hlr hr hdec
    have hrec := ih (p ++ [c]) (by rw [hdec]; simp) f2 (by
      simp only [List.length_cons] at hf
      omega)
    show walkNext h (some c) (f2 + 1) = some (c :: rest2)
    simp only [walkNext, Option.bind_eq_bind]
    rw [hNE]
    simp only [Option.some_bind]
    rw [hrec]
    rfl

/-- Walking Prev from any reversed prefix of the ring collects exactly that
reversed prefix. -/
theorem walkPrev_ring {h : Heap T} {li : Nat} {lr : LRec} {ms : List Nat}
    (hlr : listAt h li = some lr) (hr : ringAt h li lr ms) :
    ∀ (pr p rest : List Nat), p.reverse = pr → ms = p ++ rest →
      ∀ fuel, pr.length < fuel → walkPrev h (hdOpt pr) fuel = some pr := by
  intro pr
  induction pr with
  | nil =>
    intro p rest hpr hdec fuel hf
    obtain ⟨f, rfl⟩ : ∃ f, fuel = f + 1 := ⟨fuel - 1, by omega⟩
    rfl
  | cons c pr2 ih =>
    intro p rest hpr hdec fuel hf
    obtain ⟨f2, rfl⟩ : ∃ f2, fuel = f2 + 1 := ⟨fuel - 1, by omega⟩
    have hp_eq : p = pr2.reverse ++ [c] := by
      rw [← List.reverse_reverse p, hpr]
      simp
    have hdec2 : ms = pr2.reverse ++ (c :: rest) := by
      rw [hdec, hp_eq]
      simp
    have hPE := PrevE_ring hlr hr hdec2
    rw [List.reverse_reverse] at hPE
    have hrec := ih pr2.reverse (c :: rest) (List.reverse_reverse pr2) hdec2 f2 (by
      simp only [List.length_cons] at hf
      omega)
    show walkPrev h (some c) (f2 + 1) = some (c :: pr2)
    simp only [walkPrev, Option.bind_eq_bind]
    rw [hPE]
    simp only [Option.some_bind]
    rw [hrec]
    rfl

/-- Front of an initialized ring. -/
theorem Front_ring {h : Heap T} {li : Nat} {lr : LRec} {ms : List Nat}
    (hlr : listAt h li = some lr) (hr : ringAt h li lr ms) :
    Front h li = some (hdOpt ms) := by
  rcases hmse : ms with _ | ⟨c, rest⟩
  · subst hmse
    have hsz : lr.size = 0 := by
      rw [hr.2.2.1]
      rfl
    unfold Front
    rw [hlr]
    simp only [Option.bind_eq_bind, Option.some_bind]
    rw [if_pos hsz]
    rfl
  · subst hmse
    obtain ⟨rno, hrno, hrnon⟩ := nodeAt_of_nextOf (ring_next_root hr.1)
    have hszne : ¬ (lr.size = 0) := by
      rw [hr.2.2.1]
      simp only [List.length_cons]
      omega
    unfold Front
    rw [hlr]
    simp only [Option.bind_eq_bind, Option.some_bind]
    rw [if_neg hszne, hrno]
    simp only [Option.some_bind]
    rw [hrnon]
    rfl

/-- Back of an initialized ring. -/
theorem Back_ring {h : Heap T} {li : Nat} {lr : LRec} {ms : List Nat}
    (hlr : listAt h li = some lr) (hr : ringAt h li lr ms) :
    Back h li = some (hdOpt ms.reverse) := by
  rcases hmse : ms with _ | ⟨c, rest⟩
  · subst hmse
    have hsz : lr.size = 0 := by
      rw [hr.2.2.1]
      rfl
    unfold Back
    rw [hlr]
    simp only [Option.bind_eq_bind, Option.some_bind]
    rw [if_pos hsz]
    rfl
  · subst hmse
    obtain ⟨rno, hrno, hrnon⟩ := nodeAt_of_nextOf (ring_next_root hr.1)
    have hrnop : rno.prev = some (lastOf lr.root (c :: rest)) := by
      have hp := ring_prev_root hr.1
      unfold prevOf at hp
      rw [hrno] at hp
      simpa using hp
    have hszne : ¬ (lr.size = 0) := by
      rw [hr.2.2.1]
      simp only [List.length_cons]
      omega
    obtain ⟨q, d, hqd⟩ : ∃ q d, c :: rest = q ++ [d] := by
      rcases List.eq_nil_or_concat (c :: rest) with h0 | ⟨q, d, hqd⟩
      · exact absurd h0 (by simp)
      · exact ⟨q, d, by rw [hqd, List.concat_eq_append]⟩
    unfold Back
    rw [hlr]
    simp only [Option.bind_eq_bind, Option.some_bind]
    rw [if_neg hszne, hrno]
    simp only [Option.some_bind]
    rw [hrnop, hqd, lastOf_concat]
    simp [hdOpt]

/-- The walk of msOf is a genuine ring when the heap is well-formed. -/
theorem ring_of_msOf {h : Heap T} {li : Nat} {lr : LRec} {ms : List Nat}
    (hWF : WF h) (hlr : listAt h li = some lr) (hms : msOf h li = some ms) :
    ringAt h li lr ms := by
  obtain ⟨rn, hrn, hrl, hcs⟩ :=
    listWFat_cases (hWF.2 li (listAt_lt_length hlr)) hlr
  rcases hcs with ⟨hnx, _, _, _⟩ | ⟨ms2, hms2, hring⟩
  · exfalso
    unfold msOf at hms
    rw [hlr] at hms
    simp [hrn, hnx] at hms
  · rw [hms] at hms2
    rw [← Option.some.inj hms2] at hring
    exact hring

/-- Every element of a ring, the sentinel included, is doubly linked with its
two neighbours. -/
theorem ring_pairs {h : Heap T} {li : Nat} {lr : LRec} {ms : List Nat} {e : Nat}
    (hr : ringAt h li lr ms) (he : e ∈ lr.root :: ms) :
    (∃ s, nextOf h e = some (some s) ∧ prevOf h s = some (some e)) ∧
      (∃ q, prevOf h e = some (some q) ∧ nextOf h q = some (some e)) := by
  obtain ⟨hc, hnd, hsz, hmm⟩ := hr
  constructor
  · obtain ⟨m1, m2, hdec, hlast⟩ := mem_decomp he
    have hc2 : chainL h lr.root (m1 ++ (m2 ++ [lr.root])) := by
      rw [show m1 ++ (m2 ++ [lr.root]) = (m1 ++ m2) ++ [lr.root] from by simp,
        ← hdec]
      exact hc
    have hcs := ((chainL_append h lr.root m1 (m2 ++ [lr.root])).mp hc2).2
    rw [← hlast] at hcs
    cases m2 with
    | nil => exact ⟨lr.root, hcs.1.1, hcs.1.2⟩
    | cons u us => exact ⟨u, hcs.1.1, hcs.1.2⟩
  · rcases List.mem_cons.mp he with rfl | hems
    · refine ⟨lastOf lr.root ms, ring_prev_root hc, ?_⟩
      have hcs := ((chainL_append h lr.root ms [lr.root]).mp hc).2
      exact hcs.1.1
    · obtain ⟨u, w, hde⟩ := List.append_of_mem hems
      have hc2 : chainL h lr.root (u ++ (e :: (w ++ [lr.root]))) := by
        rw [show u ++ (e :: (w ++ [lr.root])) = (u ++ e :: w) ++ [lr.root] from
          by simp, ← hde]
        exact hc
      have hcs := ((chainL_append h lr.root u (e :: (w ++ [lr.root]))).mp hc2).2
      exact ⟨lastOf lr.root u, hcs.1.2, hcs.1.1⟩

theorem valsAt_forall2_some {h2 : Heap T} :
    ∀ {fresh : List Nat} {vs : List T},
      List.Forall₂ (fun a b => valOf h2 a = some b) fresh vs →
      valsAt h2 fresh = vs.map some
  | _, _, List.Forall₂.nil => rfl
  | _, _, List.Forall₂.cons hab hrest => by
    unfold valsAt
    simp only [List.map_cons]
    rw [hab]
    have hr := valsAt_forall2_some hrest
    unfold valsAt at hr
    rw [hr]

theorem valsAt_forall2_val {h2 h : Heap T} :
    ∀ {fresh src : List Nat},
      List.Forall₂ (fun a b => valOf h2 a = valOf h b) fresh src →
      valsAt h2 fresh = valsAt h src
  | _, _, List.Forall₂.nil => rfl
  | _, _, List.Forall₂.cons hab hrest => by
    unfold valsAt
    simp only [List.map_cons]
    rw [hab]
    have hr := valsAt_forall2_val hrest
    unfold valsAt at hr
    rw [hr]

theorem valsAt_congr {h2 h : Heap T} :
    ∀ {xs : List Nat}, (∀ x ∈ xs, valOf h2 x = valOf h x) →
      valsAt h2 xs = valsAt h xs := by
  intro xs
  induction xs with
  | nil => intro _; rfl
  | cons x xs2 ih =>
    intro hf
    unfold valsAt
    simp only [List.map_cons]
    rw [hf x (by simp)]
    have hr := ih (fun y hy => hf y (by simp [hy]))
    unfold valsAt at hr
    rw [hr]

set_option maxHeartbeats 1000000 in
/-- Running a sequence of PushBack operations appends one fresh element per
value, in order, to the existing ring. -/
theorem run_pushBacks [Inhabited T] :
    ∀ (vs : List T) (h : Heap T) (li : Nat) (lr : LRec) (ms : List Nat),
      Inv h → listAt h li = some lr → ringAt h li lr ms →
      ∃ h2 fresh, run h (vs.map (Op.pushBack li)) = some h2 ∧
        listAt h2 li = some ⟨lr.root, lr.size + (vs.length : Int)⟩ ∧
        ringAt h2 li ⟨lr.root, lr.size + (vs.length : Int)⟩ (ms ++ fresh) ∧
        List.Forall₂ (fun a b => valOf h2 a = some b) fresh vs ∧
        (∀ x, x < h.nodes.length → valOf h2 x = valOf h x) ∧
        h.nodes.length ≤ h2.nodes.length ∧
        Inv h2 := by
  intro vs
  induction vs with
  | nil =>
    intro h li lr ms hI hlr hr
    have heta : (⟨lr.root, lr.size + ((List.length ([] : List T)) : Int)⟩ :
        LRec) = lr := by simp
    refine ⟨h, [], rfl, ?_, ?_, List.Forall₂.nil, fun x _ => rfl, le_refl _, hI⟩
    · rw [heta]
      exact hlr
    · rw [heta, show ms ++ ([] : List Nat) = ms from by simp]
      exact hr
  | cons v vs2 ih =>
    intro h li lr ms hI hlr hr
    obtain ⟨ms0, h1, heq, hdich, hLi1, hLs1, hLL1, hNL1, hring1, hvala1,
      hvalfr1, hlstfr1, hother1, hI1⟩ := PushBack_spec v hI hlr
    have hms0 : ms0 = ms := by
      rcases hdich with hr0 | ⟨hsz0, hms0e⟩
      · exact (ring_unique hlr hr hlr hr0).2
      · have hlen0 : ms.length = 0 := by
          have := hr.2.2.1
          rw [hsz0] at this
          exact_mod_cast this.symm
        rw [hms0e, List.eq_nil_of_length_eq_zero hlen0]
    subst hms0
    have hst : step h (Op.pushBack li v) = some h1 := by
      show (PushBack h li v).map (·.1) = some h1
      rw [heq]
      rfl
    obtain ⟨h2, fresh2, hrun2, hLi2, hring2, hvals2, hvalfr2, hNL2, hI2⟩ :=
      ih h1 li ⟨lr.root, lr.size + 1⟩ (ms0 ++ [h.nodes.length]) hI1 hLi1 hring1
    have hszcast : lr.size + 1 + (vs2.length : Int) =
        lr.size + (((v :: vs2).length : Nat) : Int) := by
      simp only [List.length_cons]
      push_cast
      ring
    refine ⟨h2, h.nodes.length :: fresh2, ?_, ?_, ?_, ?_, ?_, ?_, hI2⟩
    · show (step h (Op.pushBack li v)).bind (fun h1 => run h1
        (vs2.map (Op.pushBack li))) = some h2
      rw [hst]
      simp only [Option.some_bind]
      exact hrun2
    · rw [hLi2, hszcast]
    · have hshape : (ms0 ++ [h.nodes.length]) ++ fresh2 =
          ms0 ++ h.nodes.length :: fresh2 := by simp
      rw [← hshape, ← hszcast]
      exact hring2
    · refine List.Forall₂.cons ?_ hvals2
      have hva : valOf h2 h.nodes.length = valOf h1 h.nodes.length := by
        refine hvalfr2 h.nodes.length ?_
        omega
      rw [hva, hvala1]
    · intro x hx
      rw [hvalfr2 x (by omega), hvalfr1 x hx]
    · omega


/-! The claims. -/

/-- C1 (amended): along traces whose element arguments are honest references,
every list reachable from the empty heap is a consistent ring: every node on
the ring of a list, sentinel included, satisfies e.prev.next = e and
e.next.prev = e. The original claim, quantified over arbitrary argument reuse,
is refuted by C1_ring_invariant_counterexample. -/
theorem C1_ring_invariant_safe [Inhabited T] (ops : List (Op T)) (h2 : Heap T)
    (hsafe : SafeRun hEmpty ops) (hrun : run hEmpty ops = some h2) :
    ∀ li lr ms, listAt h2 li = some lr → msOf h2 li = some ms →
      ∀ e ∈ lr.root :: ms,
        (∃ s, nextOf h2 e = some (some s) ∧ prevOf h2 s = some (some e)) ∧
        (∃ q, prevOf h2 e = some (some q) ∧ nextOf h2 q = some (some e)) := by
  intro li lr ms hlr hms e he
  have hI2 := Inv_run ops hEmpty h2 Inv_hEmpty hsafe hrun
  exact ring_pairs (ring_of_msOf hI2.1 hlr hms) he

/-- C1 counterexample: after Init on a populated list, a move through a stale
handle completes and leaves the sentinel with prev pointing at itself while
its next points elsewhere: sentinel.prev.next differs from the sentinel. -/
theorem C1_ring_invariant_counterexample :
    optP (run (hEmpty : Heap Nat) trace1) (fun h2 =>
      listAt h2 0 = some ⟨0, 0⟩ ∧ prevOf h2 0 = some (some 0) ∧
        nextOf h2 0 = some (some 1)) := by decide

/-- C1 witness: the amended theorem applied to a concrete safe trace. -/
theorem C1_ring_invariant_witness :
    SafeRun (hEmpty : Heap Nat) traceSafe1 ∧
      (∀ li lr ms, listAt heapSafe1 li = some lr → msOf heapSafe1 li = some ms →
        ∀ e ∈ lr.root :: ms,
          (∃ s, nextOf heapSafe1 e = some (some s) ∧
            prevOf heapSafe1 s = some (some e)) ∧
          (∃ q, prevOf heapSafe1 e = some (some q) ∧
            nextOf heapSafe1 q = some (some e))) :=
  ⟨by decide, C1_ring_invariant_safe traceSafe1 heapSafe1 (by decide) (by decide)⟩

/-- C2 (amended): along safe traces, Len of every list equals the number of
elements collected by walking Front then Next until none. The original claim,
covering Init on a populated list with stale handles, is refuted by
C2_size_invariant_counterexample. -/
theorem C2_size_invariant_safe [Inhabited T] (ops : List (Op T)) (h2 : Heap T)
    (hsafe : SafeRun hEmpty ops) (hrun : run hEmpty ops = some h2) :
    ∀ li lr, listAt h2 li = some lr →
      ∃ fR ms, Front h2 li = some fR ∧
        walkNext h2 fR h2.nodes.length = some ms ∧
        Len h2 li = some ((ms.length : Int)) := by
  intro li lr hlr
  have hI2 := Inv_run ops hEmpty h2 Inv_hEmpty hsafe hrun
  obtain ⟨rn, hrn, hrl, hcs⟩ :=
    listWFat_cases (hI2.1.2 li (listAt_lt_length hlr)) hlr
  rcases hcs with ⟨hnx, hpv, hsz, hnm⟩ | ⟨ms, hms, hring⟩
  · refine ⟨none, [], ?_, ?_, ?_⟩
    · unfold Front
      rw [hlr]
      simp only [Option.bind_eq_bind, Option.some_bind]
      rw [if_pos hsz]
    · obtain ⟨f, hf⟩ : ∃ f, h2.nodes.length = f + 1 :=
        ⟨h2.nodes.length - 1, by have := nodeAt_lt_length hrn; omega⟩
      rw [hf]
      rfl
    · unfold Len
      rw [hlr]
      simp [hsz]
  · refine ⟨hdOpt ms, ms, Front_ring hlr hring, ?_, ?_⟩
    · exact walkNext_ring hlr hring ms [] rfl h2.nodes.length (ring_len_lt hring)
    · unfold Len
      rw [hlr]
      simp [hring.2.2.1]

/-- C2 counterexample: after Init on a populated list, removing through a
stale handle completes and leaves Len at -1, while the walk from Front
collects one reference; no count of walked elements equals -1. -/
theorem C2_size_invariant_counterexample :
    optP (run (hEmpty : Heap Nat) trace2) (fun h2 =>
      Len h2 0 = some (-1) ∧ Front h2 0 = some (some 0) ∧
        walkNext h2 (some 0) h2.nodes.length = some [0]) := by decide

/-- C2 witness: the amended theorem applied to a concrete safe trace. -/
theorem C2_size_invariant_witness :
    SafeRun (hEmpty : Heap Nat) traceSafe2 ∧
      (∀ li lr, listAt heapSafe2 li = some lr →
        ∃ fR ms, Front heapSafe2 li = some fR ∧
          walkNext heapSafe2 fR heapSafe2.nodes.length = some ms ∧
          Len heapSafe2 li = some ((ms.length : Int))) :=
  ⟨by decide, C2_size_invariant_safe traceSafe2 heapSafe2 (by decide) (by decide)⟩

/-- C3: pushing v1..vn onto a fresh list from New and walking front to back
via Front and Next yields exactly v1..vn; walking back to front via Back and
Prev yields the reverse. -/
theorem C3_roundtrip_order [Inhabited T] (vs : List T) :
    ∃ h2 ms, run (hEmpty : Heap T) (Op.newL :: vs.map (Op.pushBack 0)) =
        some h2 ∧
      Front h2 0 = some (hdOpt ms) ∧
      walkNext h2 (hdOpt ms) h2.nodes.length = some ms ∧
      valsAt h2 ms = vs.map some ∧
      Back h2 0 = some (hdOpt ms.reverse) ∧
      walkPrev h2 (hdOpt ms.reverse) h2.nodes.length = some ms.reverse ∧
      valsAt h2 ms.reverse = (vs.map some).reverse := by
  have hI0 : Inv (NewL (hEmpty : Heap T) default) := Inv_NewL Inv_hEmpty default
  have hlr0 : listAt (NewL (hEmpty : Heap T) default) 0 = some ⟨0, 0⟩ := rfl
  have hr0 : ringAt (NewL (hEmpty : Heap T) default) 0 ⟨0, 0⟩ [] := by
    refine ⟨⟨⟨rfl, rfl⟩, trivial⟩, by simp, by simp, by simp⟩
  obtain ⟨h2, fresh, hrun2, hLi2, hring2, hvals2, hvalfr2, hNL2, hI2⟩ :=
    run_pushBacks vs (NewL (hEmpty : Heap T) default) 0 ⟨0, 0⟩ [] hI0 hlr0 hr0
  have hLi2e : listAt h2 0 = some ⟨0, (vs.length : Int)⟩ := by simpa using hLi2
  have hring2e : ringAt h2 0 ⟨0, (vs.length : Int)⟩ fresh := by
    simpa using hring2
  have hvfr : valsAt h2 fresh = vs.map some := valsAt_forall2_some hvals2
  refine ⟨h2, fresh, ?_, Front_ring hLi2e hring2e, ?_, hvfr,
    Back_ring hLi2e hring2e, ?_, ?_⟩
  · show (some (NewL (hEmpty : Heap T) default)).bind
      (fun h1 => run h1 (vs.map (Op.pushBack 0))) = some h2
    exact hrun2
  · exact walkNext_ring hLi2e hring2e fresh [] rfl h2.nodes.length
      (ring_len_lt hring2e)
  · exact walkPrev_ring hLi2e hring2e fresh.reverse fresh []
      (List.reverse_reverse fresh ▸ rfl) (by simp) h2.nodes.length
      (by rw [List.length_reverse]; exact ring_len_lt hring2e)
  · unfold valsAt
    rw [List.map_reverse]
    unfold valsAt at hvfr
    rw [hvfr]

/-- C4: PushBackList of a list onto itself terminates and appends a copy of
the original values behind the original members: the length was captured
before the iteration. -/
theorem C4_self_append (h : Heap T) (l : Nat) (lr : LRec) (ms : List Nat)
    (hI : Inv h) (hlr : listAt h l = some lr) (hr : ringAt h l lr ms) :
    ∃ h2 fresh, PushBackList h l l = some h2 ∧
      fresh.length = ms.length ∧
      listAt h2 l = some ⟨lr.root, lr.size + (ms.length : Int)⟩ ∧
      ringAt h2 l ⟨lr.root, lr.size + (ms.length : Int)⟩ (ms ++ fresh) ∧
      valsAt h2 (ms ++ fresh) = valsAt h ms ++ valsAt h ms := by
  obtain ⟨h2, fresh, heq, hlen, hLi2, hLs2, hLL2, hNL2, hring2, hvals2,
    hvalfr2, hlstfr2, hother2, hI2⟩ :=
    PushBackList_ready hI hlr hr hlr hr (fun _ => ⟨rfl, rfl⟩)
  refine ⟨h2, fresh, heq, hlen, hLi2, hring2, ?_⟩
  have hmsfr : ∀ x ∈ ms, valOf h2 x = valOf h x := by
    intro x hx
    obtain ⟨n, hn⟩ := ring_mem_exists hr x hx
    exact hvalfr2 x (nodeAt_lt_length hn)
  have h1v : valsAt h2 ms = valsAt h ms := valsAt_congr hmsfr
  have h2v : valsAt h2 fresh = valsAt h ms := valsAt_forall2_val hvals2
  unfold valsAt
  rw [List.map_append]
  unfold valsAt at h1v h2v
  rw [h1v, h2v]

/-- C4 witness: the list holding 10, 20, 30 doubles to two copies in order. -/
theorem C4_self_append_witness :
    Inv heap3 ∧
      (∃ h2 fresh, PushBackList heap3 0 0 = some h2 ∧
        fresh.length = ([1, 2, 3] : List Nat).length ∧
        listAt h2 0 = some ⟨0, 6⟩ ∧
        ringAt h2 0 ⟨0, 6⟩ ([1, 2, 3] ++ fresh) ∧
        valsAt h2 ([1, 2, 3] ++ fresh) =
          valsAt heap3 [1, 2, 3] ++ valsAt heap3 [1, 2, 3]) :=
  ⟨by decide, C4_self_append heap3 0 ⟨0, 3⟩ [1, 2, 3] (by decide) (by decide)
    (by decide)⟩

/-- C5: for every source list, PushFrontList prepends one copy per source
value in front of the existing members, preserving the source order; this
includes the self-source case, where the length captured before the walk
makes the copy terminate. When the source is a different list it is left
completely untouched. -/
theorem C5_pushFrontList_order (h : Heap T) (l o : Nat) (lrl lro : LRec)
    (msl mso : List Nat)
    (hI : Inv h) (hll : listAt h l = some lrl) (hringl : ringAt h l lrl msl)
    (hlo : listAt h o = some lro) (hringo : ringAt h o lro mso) :
    ∃ h2 fresh, PushFrontList h l o = some h2 ∧
      fresh.length = mso.length ∧
      ringAt h2 l ⟨lrl.root, lrl.size + (mso.length : Int)⟩ (fresh ++ msl) ∧
      valsAt h2 fresh = valsAt h mso ∧
      valsAt h2 msl = valsAt h msl ∧
      (l ≠ o → ringAt h2 o lro mso ∧ listAt h2 o = some lro) := by
  have hsame : l = o → lrl = lro ∧ msl = mso := by
    intro hq
    subst hq
    obtain ⟨h1e, h2e⟩ := ring_unique hll hringl hlo hringo
    exact ⟨h1e.symm, h2e.symm⟩
  obtain ⟨h2, fresh, heq, hlen, hLi2, hLs2, hLL2, hNL2, hring2, hvals2,
    hvalfr2, hlstfr2, hother2, hI2⟩ :=
    PushFrontList_ready hI hll hringl hlo hringo hsame
  refine ⟨h2, fresh, heq, hlen, hring2, valsAt_forall2_val hvals2, ?_, ?_⟩
  · refine valsAt_congr ?_
    intro x hx
    obtain ⟨n, hn⟩ := ring_mem_exists hringl x hx
    exact hvalfr2 x (nodeAt_lt_length hn)
  · intro hne
    refine ⟨hother2 hne, ?_⟩
    rw [hLs2 o (fun hh => hne hh.symm)]
    exact hlo

/-- C5 witness: an empty list receiving 1, 2, 3 from another list ends up
holding 1, 2, 3 in order, the source untouched. -/
theorem C5_pushFrontList_order_witness :
    Inv heap31 ∧
      (∃ h2 fresh, PushFrontList heap31 1 0 = some h2 ∧
        fresh.length = ([1, 2, 3] : List Nat).length ∧
        ringAt h2 1 ⟨4, 3⟩ (fresh ++ []) ∧
        valsAt h2 fresh = valsAt heap31 [1, 2, 3] ∧
        valsAt h2 [] = valsAt heap31 [] ∧
        ((1 : Nat) ≠ 0 → ringAt h2 0 ⟨0, 3⟩ [1, 2, 3] ∧
          listAt h2 0 = some ⟨0, 3⟩)) :=
  ⟨by decide, C5_pushFrontList_order heap31 1 0 ⟨4, 0⟩ ⟨0, 3⟩ [] [1, 2, 3]
    (by decide) (by decide) (by decide) (by decide) (by decide)⟩

/-- C6: InsertAfter and InsertBefore with a mark that does not belong to the
list return none and leave the whole heap unchanged. -/
theorem C6_insert_guard (h : Heap T) (li m : Nat) (mn : Node T) (v w : T)
    (hmn : nodeAt h m = some mn) (hg : mn.list ≠ some li) :
    InsertAfter h li v (some m) = some (h, none) ∧
      InsertBefore h li w (some m) = some (h, none) :=
  ⟨InsertAfter_guard v hmn hg, InsertBefore_guard w hmn hg⟩

/-- C6 witness: an element of list 1 used as mark against list 0. -/
theorem C6_insert_guard_witness :
    nodeAt heapTwo 2 = some ⟨some 1, some 1, some 1, 5⟩ ∧
      (InsertAfter heapTwo 0 9 (some 2) = some (heapTwo, none) ∧
        InsertBefore heapTwo 0 8 (some 2) = some (heapTwo, none)) :=
  ⟨by decide, C6_insert_guard heapTwo 0 2 ⟨some 1, some 1, some 1, 5⟩ 9 8
    (by decide) (by decide)⟩

/-- C7: Remove of a member splices it out, clears its links and
back-reference, decrements the size and returns its value, after which Next
and Prev on it return none; Remove of a non-member returns the value and
mutates nothing. -/
theorem C7_remove_semantics (h : Heap T) (li e : Nat) (en : Node T)
    (hI : Inv h) (hok : argOKb h (some e) = true)
    (hen : nodeAt h e = some en) :
    (en.list = some li →
      ∃ lr ms m1 m2 h2, listAt h li = some lr ∧ ringAt h li lr ms ∧
        ms = m1 ++ e :: m2 ∧
        Remove h li (some e) = some (h2, en.value) ∧
        listAt h2 li = some ⟨lr.root, lr.size - 1⟩ ∧
        ringAt h2 li ⟨lr.root, lr.size - 1⟩ (m1 ++ m2) ∧
        nodeAt h2 e = some ⟨none, none, none, en.value⟩ ∧
        NextE h2 e = some none ∧ PrevE h2 e = some none) ∧
    (en.list ≠ some li → Remove h li (some e) = some (h, en.value)) := by
  constructor
  · intro hel
    obtain ⟨lr, ms, m1, m2, h2, hlr, hring, hdec, heq, hLi2, hLs2, hLL2,
      hNL2, hring2, hnAt2, hval2, hlst2, hOther2, hI2⟩ :=
      Remove_ok hI hok hen hel
    refine ⟨lr, ms, m1, m2, h2, hlr, hring, hdec, heq, hLi2, hring2, hnAt2,
      ?_, ?_⟩
    · unfold NextE
      simp [hnAt2]
    · unfold PrevE
      simp [hnAt2]
  · intro hg
    exact Remove_guard hen hg

/-- C7 witness: removing the single element of a one-element list. -/
theorem C7_remove_semantics_witness :
    Inv heapOne ∧
      (((⟨some 0, some 0, some 0, 1⟩ : Node Nat).list = some 0 →
        ∃ lr ms m1 m2 h2, listAt heapOne 0 = some lr ∧
          ringAt heapOne 0 lr ms ∧ ms = m1 ++ 1 :: m2 ∧
          Remove heapOne 0 (some 1) =
            some (h2, (⟨some 0, some 0, some 0, 1⟩ : Node Nat).value) ∧
          listAt h2 0 = some ⟨lr.root, lr.size - 1⟩ ∧
          ringAt h2 0 ⟨lr.root, lr.size - 1⟩ (m1 ++ m2) ∧
          nodeAt h2 1 = some ⟨none, none, none,
            (⟨some 0, some 0, some 0, 1⟩ : Node Nat).value⟩ ∧
          NextE h2 1 = some none ∧ PrevE h2 1 = some none) ∧
      ((⟨some 0, some 0, some 0, 1⟩ : Node Nat).list ≠ some 0 →
        Remove heapOne 0 (some 1) =
          some (heapOne, (⟨some 0, some 0, some 0, 1⟩ : Node Nat).value))) :=
  ⟨by decide, C7_remove_semantics heapOne 0 1 ⟨some 0, some 0, some 0, 1⟩
    (by decide) (by decide) (by decide)⟩

/-- C8 (amended): on a zero-value list, lazyInit is exactly Init, and PushBack
and PushFront transparently initialize the ring; InsertAfter and InsertBefore
however perform no initialization: with a non-member mark they return none
and leave the heap, still uninitialized, unchanged. The original claim that
all six entry points lazily initialize is refuted by
C8_lazy_init_counterexample. -/
theorem C8_lazy_init (h : Heap T) (li : Nat) (lr : LRec) (rn : Node T) (v w : T)
    (hI : Inv h) (hlr : listAt h li = some lr)
    (hrn : nodeAt h lr.root = some rn) (hnx : rn.next = none) :
    lazyInit h li = InitL h li ∧
    (∃ h2, PushBack h li v = some (h2, h.nodes.length) ∧
      ringAt h2 li ⟨lr.root, lr.size + 1⟩ [h.nodes.length] ∧
      valOf h2 h.nodes.length = some v) ∧
    (∃ h2, PushFront h li w = some (h2, h.nodes.length) ∧
      ringAt h2 li ⟨lr.root, lr.size + 1⟩ [h.nodes.length] ∧
      valOf h2 h.nodes.length = some w) ∧
    (∀ m mn, nodeAt h m = some mn → mn.list ≠ some li →
      InsertAfter h li v (some m) = some (h, none) ∧
        InsertBefore h li v (some m) = some (h, none)) := by
  refine ⟨lazyInit_zero hlr hrn hnx, ?_, ?_, ?_⟩
  · obtain ⟨ms, h2, heq, hdich, _, _, _, _, hring2, hv2, _, _, _, _⟩ :=
      PushBack_spec v hI hlr
    have hms : ms = [] := by
      rcases hdich with hr0 | ⟨_, hmse⟩
      · exfalso
        have hnx2 : rn.next = some (hdOf lr.root ms) := by
          have hp := ring_next_root hr0.1
          unfold nextOf at hp
          rw [hrn] at hp
          simpa using hp
        rw [hnx] at hnx2
        exact absurd hnx2 (by simp)
      · exact hmse
    subst hms
    exact ⟨h2, heq, hring2, hv2⟩
  · obtain ⟨ms, h2, heq, hdich, _, _, _, _, hring2, hv2, _, _, _, _⟩ :=
      PushFront_spec w hI hlr
    have hms : ms = [] := by
      rcases hdich with hr0 | ⟨_, hmse⟩
      · exfalso
        have hnx2 : rn.next = some (hdOf lr.root ms) := by
          have hp := ring_next_root hr0.1
          unfold nextOf at hp
          rw [hrn] at hp
          simpa using hp
        rw [hnx] at hnx2
        exact absurd hnx2 (by simp)
      · exact hmse
    subst hms
    exact ⟨h2, heq, hring2, hv2⟩
  · intro m mn hmn hg
    exact ⟨InsertAfter_guard v hmn hg, InsertBefore_guard v hmn hg⟩

/-- C8 counterexample: on a zero-value list, InsertAfter and InsertBefore
with a mark from another list complete without performing the Init sequence:
the sentinel next link stays nil. -/
theorem C8_lazy_init_counterexample :
    optP (run (hEmpty : Heap Nat) traceC8) (fun h =>
      nextOf h 0 = some none ∧
      InsertAfter h 0 5 (some 2) = some (h, none) ∧
      InsertBefore h 0 5 (some 2) = some (h, none)) := by decide

/-- C8 witness: the amended theorem applied to a concrete zero-value list. -/
theorem C8_lazy_init_witness :
    Inv heapZero ∧
      (lazyInit heapZero 0 = InitL heapZero 0 ∧
      (∃ h2, PushBack heapZero 0 7 = some (h2, heapZero.nodes.length) ∧
        ringAt h2 0 ⟨0, 0 + 1⟩ [heapZero.nodes.length] ∧
        valOf h2 heapZero.nodes.length = some 7) ∧
      (∃ h2, PushFront heapZero 0 8 = some (h2, heapZero.nodes.length) ∧
        ringAt h2 0 ⟨0, 0 + 1⟩ [heapZero.nodes.length] ∧
        valOf h2 heapZero.nodes.length = some 8) ∧
      (∀ m mn, nodeAt heapZero m = some mn → mn.list ≠ some 0 →
        InsertAfter heapZero 0 7 (some m) = some (heapZero, none) ∧
          InsertBefore heapZero 0 7 (some m) = some (heapZero, none))) :=
  ⟨by decide, C8_lazy_init heapZero 0 ⟨0, 0⟩ ⟨none, none, none, 0⟩ 7 8
    (by decide) (by decide) (by decide) (by decide)⟩

/-- C9 (amended): with a non-nil element argument whose node does not belong
to the list, every operation is a silent no-op: Remove still returns the
stored value, the inserts return none, the moves return the heap unchanged.
The original claim that no arguments at all can fault is refuted by
C9_no_panics_counterexample: a nil element dereferences nil in the source. -/
theorem C9_no_panics (h : Heap T) (li e : Nat) (en : Node T) (v : T)
    (hen : nodeAt h e = some en) (hg : en.list ≠ some li) :
    Remove h li (some e) = some (h, en.value) ∧
    InsertAfter h li v (some e) = some (h, none) ∧
    InsertBefore h li v (some e) = some (h, none) ∧
    MoveToFront h li (some e) = some h ∧
    MoveToBack h li (some e) = some h ∧
    (∀ mR, MoveAfter h li (some e) mR = some h) ∧
    (∀ mR, MoveBefore h li (some e) mR = some h) := by
  refine ⟨Remove_guard hen hg, InsertAfter_guard v hen hg,
    InsertBefore_guard v hen hg, ?_, ?_, ?_, ?_⟩
  · unfold MoveToFront
    simp [hen, hg]
  · unfold MoveToBack
    simp [hen, hg]
  · intro mR
    unfold MoveAfter
    simp [hen, hg]
  · intro mR
    unfold MoveBefore
    simp [hen, hg]

/-- C9 counterexample: a nil element reference makes Remove, InsertAfter and
MoveAfter dereference nil in the source; the model faults with none. -/
theorem C9_no_panics_counterexample :
    Remove (NewL (hEmpty : Heap Nat) 0) 0 none = none ∧
    InsertAfter (NewL (hEmpty : Heap Nat) 0) 0 1 none = none ∧
    MoveAfter (NewL (hEmpty : Heap Nat) 0) 0 none none = none := by decide

/-- C9 witness: the amended theorem applied to a foreign element. -/
theorem C9_no_panics_witness :
    nodeAt heapTwo 2 = some ⟨some 1, some 1, some 1, 5⟩ ∧
      (Remove heapTwo 0 (some 2) =
        some (heapTwo, (⟨some 1, some 1, some 1, 5⟩ : Node Nat).value) ∧
      InsertAfter heapTwo 0 3 (some 2) = some (heapTwo, none) ∧
      InsertBefore heapTwo 0 3 (some 2) = some (heapTwo, none) ∧
      MoveToFront heapTwo 0 (some 2) = some heapTwo ∧
      MoveToBack heapTwo 0 (some 2) = some heapTwo ∧
      (∀ mR, MoveAfter heapTwo 0 (some 2) mR = some heapTwo) ∧
      (∀ mR, MoveBefore heapTwo 0 (some 2) mR = some heapTwo)) :=
  ⟨by decide, C9_no_panics heapTwo 0 2 ⟨some 1, some 1, some 1, 5⟩ 3
    (by decide) (by decide)⟩

/-- C10: after a member is removed once, any further Remove of it, against
any list, returns the same stored value and changes nothing, because the
first removal cleared its back-reference. -/
theorem C10_remove_idempotent (h : Heap T) (li e : Nat) (en : Node T)
    (hI : Inv h) (hok : argOKb h (some e) = true)
    (hen : nodeAt h e = some en) (hel : en.list = some li) :
    ∃ h2, Remove h li (some e) = some (h2, en.value) ∧
      ∀ lj, Remove h2 lj (some e) = some (h2, en.value) := by
  obtain ⟨lr, ms, m1, m2, h2, hlr, hring, hdec, heq, hLi2, hLs2, hLL2,
    hNL2, hring2, hnAt2, hval2, hlst2, hOther2, hI2⟩ :=
    Remove_ok hI hok hen hel
  refine ⟨h2, heq, ?_⟩
  intro lj
  have hg : (⟨none, none, none, en.value⟩ : Node T).list ≠ some lj := by simp
  have hr2 := Remove_guard hnAt2 hg
  exact hr2

/-- C10 witness: the single element of a one-element list, removed twice. -/
theorem C10_remove_idempotent_witness :
    Inv heapOne ∧
      (∃ h2, Remove heapOne 0 (some 1) =
          some (h2, (⟨some 0, some 0, some 0, 1⟩ : Node Nat).value) ∧
        ∀ lj, Remove h2 lj (some 1) =
          some (h2, (⟨some 0, some 0, some 0, 1⟩ : Node Nat).value)) :=
  ⟨by decide, C10_remove_idempotent heapOne 0 1 ⟨some 0, some 0, some 0, 1⟩
    (by decide) (by decide) (by decide) (by decide)⟩

end DLL
